import Mathlib

/-! # alexmorten/scraper: a verification development

Shallow embedding of `flat.go` (package `scraper`) and of the deduplication layer in
`main/scraper.go`, followed by theorems about the embedded functions.

Conventions of the embedding

* A Go `string` is a Lean `String`; functions that inspect it work on its list of
  characters (`String.data`).
* `float64` fields hold finite values only and are modelled by `ℚ`: every value the
  program stores in a `Flat` comes from `strconv.ParseFloat` without error, hence is finite.
* `[]*Flat` is a `List Flat`; the slices built by the program never hold a nil pointer.
* Package level variables (`cachedFlats`, `ROOTURL`) are passed explicitly.
* A Go function either returns or panics: see `Run`. A result of type `(T, error)` is an
  `Except GoError T`.
* The packages the program calls (`strings`, `regexp`, `strconv`, `sort`, `scrape`, `html`)
  are embedded as far as the program uses them.
-/

set_option autoImplicit false
set_option exponentiation.threshold 2000

/-! ## Data model -/

/-- Flat is the representation of a flat (`type Flat struct`). -/
structure Flat where
  Price : ℚ
  Area : ℚ
  Title : String
  URL : String
deriving DecidableEq

/-! ## Deduplication (`main/scraper.go`) -/

/-- The loop of `containsFlat`: true as soon as a record of `flats` has the URL of `flat`. -/
def containsFlat : List Flat → Flat → Bool
  | [], _ => false
  | f :: flats, flat => if f.URL = flat.URL then true else containsFlat flats flat

/-- The function `uncachedFlats`, with the package variable `cachedFlats` as first argument:
the loop appends to `uncached` every record that `containsFlat` does not find in the cache. -/
def uncachedFlats (cachedFlats flats : List Flat) : List Flat :=
  flats.foldl
    (fun uncached flat => if !containsFlat cachedFlats flat then uncached ++ [flat] else uncached)
    []

/-! ## Results of Go functions -/

/-- Outcome of running a Go function: it returns a value, or the goroutine panics. -/
inductive Run (α : Type) where
  | returns (v : α)
  | panics (msg : String)
deriving DecidableEq

/-- The `error` values the program can produce: `errors.New` and the two kinds of
`*strconv.NumError` returned by `strconv.ParseFloat`. -/
inductive GoError where
  | New (text : String)
  | ErrSyntax (num : String)
  | ErrRange (num : String)
deriving DecidableEq

/-! ## Package `strings` -/

/-- The search of `strings.Contains` on character lists: `substr` starts at some position. -/
def strings.containsList (substr : List Char) : List Char → Bool
  | [] => substr.isPrefixOf []
  | c :: s => if substr.isPrefixOf (c :: s) then true else strings.containsList substr s

/-- The function `strings.Contains(s, substr)`. -/
def strings.Contains (s substr : String) : Bool :=
  strings.containsList substr.data s.data

/-- The function `unicode.IsSpace`: the Latin-1 spaces and the `White_Space` table. -/
def unicode.IsSpace (r : Char) : Bool :=
  let n := r.toNat
  (9 ≤ n && n ≤ 13) || n == 0x20 || n == 0x85 || n == 0xA0 || n == 0x1680 ||
  (0x2000 ≤ n && n ≤ 0x200A) || n == 0x2028 || n == 0x2029 || n == 0x202F ||
  n == 0x205F || n == 0x3000

/-- The function `strings.TrimSpace`: leading and trailing white space removed. -/
def strings.TrimSpace (s : String) : String :=
  ⟨((s.data.dropWhile unicode.IsSpace).reverse.dropWhile unicode.IsSpace).reverse⟩

/-- The function `strings.Join(elems, sep)`. -/
def strings.Join : List String → String → String
  | [], _ => ""
  | [e], _ => e
  | e :: e2 :: rest, sep => e ++ sep ++ strings.Join (e2 :: rest) sep

/-! ## Package `golang.org/x/net/html`: the document tree -/

/-- The constants of `html.NodeType`. -/
inductive NodeType where
  | ErrorNode | TextNode | DocumentNode | ElementNode | CommentNode | DoctypeNode | RawNode
deriving DecidableEq

/-- An `html.Attribute`. -/
structure Attribute where
  Namespace : String
  Key : String
  Val : String
deriving DecidableEq

/-- An `html.Node` with what hangs below it: `children` is the chain
`FirstChild, NextSibling, ...`. `DataAtom` is the `atom.Atom` code. -/
inductive Node where
  | mk (Type_ : NodeType) (DataAtom : Nat) (Data : String) (Attr : List Attribute)
      (children : List Node)

/-- Field `Type` of a node. -/
def Node.Type_ : Node → NodeType
  | .mk t _ _ _ _ => t

/-- Field `DataAtom` of a node. -/
def Node.DataAtom : Node → Nat
  | .mk _ a _ _ _ => a

/-- Field `Data` of a node. -/
def Node.Data : Node → String
  | .mk _ _ d _ _ => d

/-- Field `Attr` of a node. -/
def Node.Attr : Node → List Attribute
  | .mk _ _ _ at_ _ => at_

/-- The children of a node, first to last. -/
def Node.children : Node → List Node
  | .mk _ _ _ _ cs => cs

/-- A `*html.Node` as the program sees it: the node and what its `Parent` field points at
(`none` for nil). In a tree the parent of a child of `n` is `n`. -/
structure NodeRef where
  Parent : Option Node
  node : Node

/-- The atom `atom.A` of the element `a`. -/
def atom.A : Nat := 0x1

/-! ## Package `github.com/yhat/scrape` -/

/-- The function `scrape.Attr(node, key)`: the value of the first attribute with that key,
the empty string when there is none. -/
def scrape.attrLoop (key : String) : List Attribute → String
  | [] => ""
  | a :: rest => if a.Key = key then a.Val else scrape.attrLoop key rest

/-- The function `scrape.Attr`. -/
def scrape.Attr (node : Node) (key : String) : String :=
  scrape.attrLoop key node.Attr

mutual
/-- The function `scrape.findAllInternal`: depth first, a matching node is kept and, unless
`searchNested`, nothing below it is visited. -/
def scrape.findAllInternal (matcher : NodeRef → Bool) (searchNested : Bool)
    (parent : Option Node) : Node → List NodeRef
  | .mk t a d at_ cs =>
    if matcher ⟨parent, .mk t a d at_ cs⟩ then
      if searchNested then
        ⟨parent, .mk t a d at_ cs⟩ ::
          scrape.findAllChildren matcher searchNested (some (.mk t a d at_ cs)) cs
      else [⟨parent, .mk t a d at_ cs⟩]
    else scrape.findAllChildren matcher searchNested (some (.mk t a d at_ cs)) cs
/-- The loop of `findAllInternal` over `FirstChild, NextSibling, ...`. -/
def scrape.findAllChildren (matcher : NodeRef → Bool) (searchNested : Bool)
    (parent : Option Node) : List Node → List NodeRef
  | [] => []
  | c :: cs =>
    scrape.findAllInternal matcher searchNested parent c ++
      scrape.findAllChildren matcher searchNested parent cs
end

/-- The function `scrape.FindAll`: matching nodes, none of them below another one. -/
def scrape.FindAll (node : NodeRef) (matcher : NodeRef → Bool) : List NodeRef :=
  scrape.findAllInternal matcher false node.Parent node.node

mutual
/-- The function `scrape.Find`: the first match of a depth first search. -/
def scrape.findNode (matcher : NodeRef → Bool) (parent : Option Node) : Node → Option NodeRef
  | .mk t a d at_ cs =>
    if matcher ⟨parent, .mk t a d at_ cs⟩ then some ⟨parent, .mk t a d at_ cs⟩
    else scrape.findChildren matcher (some (.mk t a d at_ cs)) cs
/-- The loop of `Find` over the children. -/
def scrape.findChildren (matcher : NodeRef → Bool) (parent : Option Node) :
    List Node → Option NodeRef
  | [] => none
  | c :: cs =>
    match scrape.findNode matcher parent c with
    | some n => some n
    | none => scrape.findChildren matcher parent cs
end

/-- The function `scrape.Find`; `none` stands for `ok == false`. -/
def scrape.Find (node : NodeRef) (matcher : NodeRef → Bool) : Option NodeRef :=
  scrape.findNode matcher node.Parent node.node

/-- The joiner of `scrape.Text`: the parts are trimmed, empty ones dropped, the rest joined
by one blank. -/
def scrape.joiner (parts : List String) : String :=
  strings.Join ((parts.map strings.TrimSpace).filter (fun t => t ≠ "")) " "

/-- The function `scrape.Text`: the data of the text nodes found by `FindAll`, joined. -/
def scrape.Text (node : NodeRef) : String :=
  scrape.joiner
    ((scrape.FindAll node (fun n => n.node.Type_ = NodeType.TextNode)).map
      (fun n => n.node.Data))

/-! ## Package `regexp`, for the two patterns of the program -/

/-- The class `\d` of Go regular expressions: the ASCII digits. -/
def regexp.isDigit (c : Char) : Bool :=
  '0'.toNat ≤ c.toNat && c.toNat ≤ '9'.toNat

/-- A match of `(\d*)c` that starts at the head of the text, as the backtracking semantics of
Go defines it: the greedy star first tries to take one more digit, and only when the rest
cannot match does it stop and look for the literal `c`. The result is the captured group. -/
def regexp.matchHere (c : Char) : List Char → Option (List Char)
  | [] => none
  | x :: rest =>
    if regexp.isDigit x then
      match regexp.matchHere c rest with
      | some group => some (x :: group)
      | none => if x = c then some [] else none
    else if x = c then some [] else none

/-- The leftmost match of `(\d*)c` in the text: start positions are tried from left to
right. -/
def regexp.leftmost (c : Char) : List Char → Option (List Char)
  | [] => none
  | x :: rest =>
    match regexp.matchHere c (x :: rest) with
    | some group => some group
    | none => regexp.leftmost c rest

/-- The method `FindStringSubmatch` of the compiled pattern `(?P<name>\d*)c`, where `c` is a
literal character: nil (the empty list) when nothing matches, else the matched text followed
by the text of the group. -/
def regexp.FindStringSubmatch (c : Char) (s : String) : List String :=
  match regexp.leftmost c s.data with
  | none => []
  | some group => [⟨group ++ [c]⟩, ⟨group⟩]

/-! ## Package `strconv` -/

/-- The natural number a run of decimal digits denotes. -/
def strconv.decimalValue (s : List Char) : Nat :=
  s.foldl (fun acc c => 10 * acc + (c.toNat - '0'.toNat)) 0

/-- How many low bits of `n` do not fit in the 53 bit mantissa of a float64. -/
def strconv.excessBits : Nat → Nat → Nat
  | 0, _ => 0
  | fuel + 1, n => if n < 2 ^ 53 then 0 else strconv.excessBits fuel (n / 2) + 1

/-- The float64 nearest to the natural number `n`, ties to even, as an exact number
(a result of `2 ^ 1024` or more stands for an overflow). -/
def strconv.roundFloat64 (n : Nat) : Nat :=
  let e := strconv.excessBits n n
  if e = 0 then n
  else
    let q := n / 2 ^ e
    let r := n % 2 ^ e
    if 2 ^ (e - 1) < r ∨ (r = 2 ^ (e - 1) ∧ q % 2 = 1) then (q + 1) * 2 ^ e else q * 2 ^ e

/-- The function `strconv.ParseFloat(s, 64)` on the strings the program passes to it, the
texts captured by `\d*`: the empty string is a syntax error, a run of digits gives the
nearest float64, or a range error when that is beyond the largest float64. Strings with any
other character never reach this function and are not modelled: they are given the syntax
error. -/
def strconv.ParseFloat (s : String) : Except GoError ℚ :=
  if s.data = [] then .error (.ErrSyntax s)
  else if s.data.all regexp.isDigit then
    if strconv.roundFloat64 (strconv.decimalValue s.data) < 2 ^ 1024 then
      .ok (strconv.roundFloat64 (strconv.decimalValue s.data) : ℕ)
    else .error (.ErrRange s)
  else .error (.ErrSyntax s)

/-! ## The extraction engine (`flat.go`) -/

/-- ROOTURL is the url of the scrape: the initial value of the package variable. -/
def ROOTURL : String := "https://www.wg-gesucht.de/"

/-- The function `priceNodeMatcher`. -/
def priceNodeMatcher (n : NodeRef) : Bool :=
  if n.node.DataAtom = atom.A then
    scrape.Attr n.node "class" = "detailansicht" && strings.Contains (scrape.Text n) "€"
  else false

/-- The function `titleNodeMatcher`. -/
def titleNodeMatcher (n : NodeRef) : Bool :=
  match n.Parent with
  | none => false
  | some parent =>
    if n.node.DataAtom = atom.A then
      scrape.Attr n.node "class" = "detailansicht" &&
        !strings.Contains (scrape.Text n) "€" &&
        strings.Contains (scrape.Attr parent "class") "headline-list-view" &&
        strings.Contains (scrape.Attr parent "class") "noprint"
    else false

/-- ParentNodeMatcher matches a parent flat node. -/
def ParentNodeMatcher (n : NodeRef) : Bool :=
  if strings.Contains (scrape.Attr n.node "class") "list-details-ad-border" &&
      !strings.Contains (scrape.Attr n.node "class") "panel-hidden" then
    (scrape.FindAll n priceNodeMatcher).length = 1 &&
      (scrape.FindAll n titleNodeMatcher).length = 1
  else false

/-- The function `parsePrice`: element 1 of the submatches of `(?P<price>\d*)€` is indexed
without a check, which panics when the list is nil. -/
def parsePrice (n : NodeRef) : Run (Except GoError ℚ) :=
  match (regexp.FindStringSubmatch '€' (scrape.Text n))[1]? with
  | none => .panics "index out of range [1] with length 0"
  | some priceString => .returns (strconv.ParseFloat priceString)

/-- The function `parseArea`: the same with the pattern `(?P<area>\d*)m`. -/
def parseArea (n : NodeRef) : Run (Except GoError ℚ) :=
  match (regexp.FindStringSubmatch 'm' (scrape.Text n))[1]? with
  | none => .panics "index out of range [1] with length 0"
  | some areaString => .returns (strconv.ParseFloat areaString)

/-- The function `parseURL`; the package variable `ROOTURL` is the first argument. -/
def parseURL (rootURL : String) (n : NodeRef) : String :=
  if scrape.Attr n.node "href" = "" then scrape.Attr n.node "href"
  else if !strings.Contains (scrape.Attr n.node "href") "http" then
    rootURL ++ scrape.Attr n.node "href"
  else scrape.Attr n.node "href"

/-- NewFlat constructs a Flat from a parent node. -/
def NewFlat (rootURL : String) (n : NodeRef) : Run (Except GoError Flat) :=
  match scrape.Find n priceNodeMatcher with
  | none => .returns (.error (.New "no priceNode found"))
  | some priceNode =>
    match scrape.Find n titleNodeMatcher with
    | none => .returns (.error (.New "no titleNode found"))
    | some titleNode =>
      match parsePrice priceNode with
      | .panics msg => .panics msg
      | .returns (.error err) => .returns (.error err)
      | .returns (.ok price) =>
        match parseArea priceNode with
        | .panics msg => .panics msg
        | .returns (.error err) => .returns (.error err)
        | .returns (.ok area) =>
          .returns (.ok ⟨price, area, scrape.Text titleNode, parseURL rootURL titleNode⟩)

/-- The loop of `FindFlats` over the container nodes: a record is appended when `NewFlat`
succeeds, an error is printed (not modelled) and skipped, a panic ends the run. -/
def FindFlats.loop (rootURL : String) : List NodeRef → List Flat → Run (List Flat)
  | [], flats => .returns flats
  | node :: rest, flats =>
    match NewFlat rootURL node with
    | .panics msg => .panics msg
    | .returns (.error _) => FindFlats.loop rootURL rest flats
    | .returns (.ok flat) => FindFlats.loop rootURL rest (flats ++ [flat])

/-- FindFlats in the node. -/
def FindFlats (rootURL : String) (n : NodeRef) : Run (List Flat) :=
  FindFlats.loop rootURL (scrape.FindAll n ParentNodeMatcher) []

/-! ## Sorting: `By.Sort`, `flatSorter` (`flat.go`) and package `sort`

`sort.Sort` is the pattern-defeating quicksort of the Go standard library (Go 1.19 and
later). The slice of the `flatSorter` is the list `data`; its closure is `by_`. The
functions of package `sort` reach the slice only through `Less` and `Swap`, with indices
below `Len`; an index outside the slice, which would panic in Go, is given the answer
`false` by `Less` and leaves the slice unchanged in `Swap`. A Go loop is a recursion on the
number of iterations that are left. -/

/-- The closure `byPrice` of the function `scrape`. -/
def byPrice (f1 f2 : Flat) : Bool := decide (f1.Price < f2.Price)

/-- Len is part of sort.Interface. -/
def flatSorter.Len (flats : List Flat) : Nat := flats.length

/-- Swap is part of sort.Interface. -/
def flatSorter.Swap (flats : List Flat) (i j : Nat) : List Flat :=
  match flats[i]?, flats[j]? with
  | some fi, some fj => (flats.set i fj).set j fi
  | _, _ => flats

/-- Less is part of sort.Interface. It is implemented by calling the "by" closure in the
sorter. -/
def flatSorter.Less (by_ : Flat → Flat → Bool) (flats : List Flat) (i j : Nat) : Bool :=
  match flats[i]?, flats[j]? with
  | some fi, some fj => by_ fi fj
  | _, _ => false

/-- The inner loop of `insertionSort`, `for j := i; j > a && data.Less(j, j-1); j--`, with
`j = a + k`. -/
def sort.insertionSort.inner (by_ : Flat → Flat → Bool) (a : Nat) :
    Nat → List Flat → List Flat
  | 0, data => data
  | k + 1, data =>
    if flatSorter.Less by_ data (a + k + 1) (a + k) then
      sort.insertionSort.inner by_ a k (flatSorter.Swap data (a + k + 1) (a + k))
    else data

/-- The outer loop of `insertionSort`, `for i := a + 1; i < b; i++`, with `count = b - i`. -/
def sort.insertionSort.outer (by_ : Flat → Flat → Bool) (a : Nat) :
    Nat → Nat → List Flat → List Flat
  | 0, _, data => data
  | count + 1, i, data =>
    sort.insertionSort.outer by_ a count (i + 1) (sort.insertionSort.inner by_ a (i - a) data)

/-- The function `insertionSort`: sorts `data[a:b]` using insertion sort. -/
def sort.insertionSort (by_ : Flat → Flat → Bool) (data : List Flat) (a b : Nat) : List Flat :=
  sort.insertionSort.outer by_ a (b - (a + 1)) (a + 1) data

/-- The loop of `siftDown`; `root` grows in every iteration and stays below `hi`, so `hi`
iterations are never used up. -/
def sort.siftDown.loop (by_ : Flat → Flat → Bool) (hi first : Nat) :
    Nat → Nat → List Flat → List Flat
  | 0, _, data => data
  | fuel + 1, root, data =>
    if 2 * root + 1 ≥ hi then data
    else
      let child :=
        if 2 * root + 1 + 1 < hi &&
            flatSorter.Less by_ data (first + (2 * root + 1)) (first + (2 * root + 1) + 1) then
          2 * root + 1 + 1
        else 2 * root + 1
      if !flatSorter.Less by_ data (first + root) (first + child) then data
      else
        sort.siftDown.loop by_ hi first fuel child
          (flatSorter.Swap data (first + root) (first + child))

/-- The function `siftDown`: implements the heap property on `data[lo:hi]`; `first` is an
offset into the array where the root of the heap lies. -/
def sort.siftDown (by_ : Flat → Flat → Bool) (data : List Flat) (lo hi first : Nat) :
    List Flat :=
  sort.siftDown.loop by_ hi first hi lo data

/-- The first loop of `heapSort`, `for i := (hi - 1) / 2; i >= 0; i--`: `count = i + 1`. -/
def sort.heapSort.build (by_ : Flat → Flat → Bool) (hi first : Nat) :
    Nat → List Flat → List Flat
  | 0, data => data
  | i + 1, data => sort.heapSort.build by_ hi first i (sort.siftDown by_ data i hi first)

/-- The second loop of `heapSort`, `for i := hi - 1; i >= 0; i--`: `count = i + 1`. -/
def sort.heapSort.pop (by_ : Flat → Flat → Bool) (first : Nat) : Nat → List Flat → List Flat
  | 0, data => data
  | i + 1, data =>
    sort.heapSort.pop by_ first i
      (sort.siftDown by_ (flatSorter.Swap data first (first + i)) 0 i first)

/-- The function `heapSort`. -/
def sort.heapSort (by_ : Flat → Flat → Bool) (data : List Flat) (a b : Nat) : List Flat :=
  sort.heapSort.pop by_ a (b - a)
    (sort.heapSort.build by_ (b - a) a ((b - a - 1) / 2 + 1) data)

/-- The loop `for i <= j && data.Less(i, a) { i++ }` of `partition`; the result is the
final `i`. -/
def sort.partition.up (by_ : Flat → Flat → Bool) (data : List Flat) (a j : Nat) :
    Nat → Nat → Nat
  | 0, i => i
  | fuel + 1, i =>
    if i ≤ j && flatSorter.Less by_ data i a then sort.partition.up by_ data a j fuel (i + 1)
    else i

/-- The loop `for i <= j && !data.Less(j, a) { j-- }` of `partition`; the result is the
final `j`. -/
def sort.partition.down (by_ : Flat → Flat → Bool) (data : List Flat) (a i : Nat) :
    Nat → Nat → Nat
  | 0, j => j
  | fuel + 1, j =>
    if i ≤ j && !flatSorter.Less by_ data j a then
      sort.partition.down by_ data a i fuel (j - 1)
    else j

/-- The loop `for { ... }` of `partition`; the result is the slice and the final `j`. -/
def sort.partition.loop (by_ : Flat → Flat → Bool) (a : Nat) :
    Nat → List Flat → Nat → Nat → List Flat × Nat
  | 0, data, _, j => (data, j)
  | fuel + 1, data, i, j =>
    let i2 := sort.partition.up by_ data a j (j + 1 - i) i
    let j2 := sort.partition.down by_ data a i2 (j + 1 - i2) j
    if i2 > j2 then (data, j2)
    else sort.partition.loop by_ a fuel (flatSorter.Swap data i2 j2) (i2 + 1) (j2 - 1)

/-- The function `partition`: does one quicksort partition. The result is the slice, the
new index of the pivot and `alreadyPartitioned`. -/
def sort.partition (by_ : Flat → Flat → Bool) (data : List Flat) (a b pivot : Nat) :
    List Flat × Nat × Bool :=
  let data1 := flatSorter.Swap data a pivot
  let i := sort.partition.up by_ data1 a (b - 1) (b - 1 + 1 - (a + 1)) (a + 1)
  let j := sort.partition.down by_ data1 a i (b - 1 + 1 - i) (b - 1)
  if i > j then (flatSorter.Swap data1 j a, j, true)
  else
    let r := sort.partition.loop by_ a (b - a) (flatSorter.Swap data1 i j) (i + 1) (j - 1)
    (flatSorter.Swap r.1 r.2 a, r.2, false)

/-- The loop `for i <= j && !data.Less(a, i) { i++ }` of `partitionEqual`. -/
def sort.partitionEqual.up (by_ : Flat → Flat → Bool) (data : List Flat) (a j : Nat) :
    Nat → Nat → Nat
  | 0, i => i
  | fuel + 1, i =>
    if i ≤ j && !flatSorter.Less by_ data a i then
      sort.partitionEqual.up by_ data a j fuel (i + 1)
    else i

/-- The loop `for i <= j && data.Less(a, j) { j-- }` of `partitionEqual`. -/
def sort.partitionEqual.down (by_ : Flat → Flat → Bool) (data : List Flat) (a i : Nat) :
    Nat → Nat → Nat
  | 0, j => j
  | fuel + 1, j =>
    if i ≤ j && flatSorter.Less by_ data a j then
      sort.partitionEqual.down by_ data a i fuel (j - 1)
    else j

/-- The loop `for { ... }` of `partitionEqual`; the result is the slice and the final `i`. -/
def sort.partitionEqual.loop (by_ : Flat → Flat → Bool) (a : Nat) :
    Nat → List Flat → Nat → Nat → List Flat × Nat
  | 0, data, i, _ => (data, i)
  | fuel + 1, data, i, j =>
    let i2 := sort.partitionEqual.up by_ data a j (j + 1 - i) i
    let j2 := sort.partitionEqual.down by_ data a i2 (j + 1 - i2) j
    if i2 > j2 then (data, i2)
    else sort.partitionEqual.loop by_ a fuel (flatSorter.Swap data i2 j2) (i2 + 1) (j2 - 1)

/-- The function `partitionEqual`: partitions `data[a:b]` into elements equal to
`data[pivot]` followed by elements greater than `data[pivot]`. -/
def sort.partitionEqual (by_ : Flat → Flat → Bool) (data : List Flat) (a b pivot : Nat) :
    List Flat × Nat :=
  sort.partitionEqual.loop by_ a (b - a + 1) (flatSorter.Swap data a pivot) (a + 1) (b - 1)

/-- The loop `for i < b && !data.Less(i, i-1) { i++ }` of `partialInsertionSort`. -/
def sort.partialInsertionSort.scan (by_ : Flat → Flat → Bool) (data : List Flat) (b : Nat) :
    Nat → Nat → Nat
  | 0, i => i
  | fuel + 1, i =>
    if i < b && !flatSorter.Less by_ data i (i - 1) then
      sort.partialInsertionSort.scan by_ data b fuel (i + 1)
    else i

/-- The loop `for j := i - 1; j >= 1; j--` of `partialInsertionSort`; the argument is
`j`. -/
def sort.partialInsertionSort.shiftLeft (by_ : Flat → Flat → Bool) :
    Nat → List Flat → List Flat
  | 0, data => data
  | j + 1, data =>
    if !flatSorter.Less by_ data (j + 1) j then data
    else sort.partialInsertionSort.shiftLeft by_ j (flatSorter.Swap data (j + 1) j)

/-- The loop `for j := i + 1; j < b; j++` of `partialInsertionSort`, with
`count = b - j`. -/
def sort.partialInsertionSort.shiftRight (by_ : Flat → Flat → Bool) :
    Nat → Nat → List Flat → List Flat
  | 0, _, data => data
  | count + 1, j, data =>
    if !flatSorter.Less by_ data j (j - 1) then data
    else
      sort.partialInsertionSort.shiftRight by_ count (j + 1) (flatSorter.Swap data j (j - 1))

/-- The loop `for j := 0; j < maxSteps; j++` of `partialInsertionSort`, with
`steps = maxSteps - j`; `shortestShifting` is 50. -/
def sort.partialInsertionSort.steps (by_ : Flat → Flat → Bool) (a b : Nat) :
    Nat → Nat → List Flat → List Flat × Bool
  | 0, _, data => (data, false)
  | steps + 1, i, data =>
    let i2 := sort.partialInsertionSort.scan by_ data b (b - i) i
    if i2 = b then (data, true)
    else if b - a < 50 then (data, false)
    else
      let data1 := flatSorter.Swap data i2 (i2 - 1)
      let data2 :=
        if i2 - a ≥ 2 then sort.partialInsertionSort.shiftLeft by_ (i2 - 1) data1 else data1
      let data3 :=
        if b - i2 ≥ 2 then
          sort.partialInsertionSort.shiftRight by_ (b - (i2 + 1)) (i2 + 1) data2
        else data2
      sort.partialInsertionSort.steps by_ a b steps i2 data3

/-- The function `partialInsertionSort`: partially sorts a slice, returns true if the slice
is sorted at the end; `maxSteps` is 5. -/
def sort.partialInsertionSort (by_ : Flat → Flat → Bool) (data : List Flat) (a b : Nat) :
    List Flat × Bool :=
  sort.partialInsertionSort.steps by_ a b 5 (a + 1) data

/-- The function `bits.Len`: the number of bits of `n`. -/
def bits.Len.loop : Nat → Nat → Nat
  | 0, _ => 0
  | fuel + 1, n => if n = 0 then 0 else bits.Len.loop fuel (n / 2) + 1

/-- The function `bits.Len`. -/
def bits.Len (n : Nat) : Nat := bits.Len.loop n n

/-- The function `nextPowerOfTwo`. -/
def sort.nextPowerOfTwo (length : Nat) : Nat := 2 ^ bits.Len length

/-- One iteration of the loop of `breakPatterns`: `random` is the state of the generator
after `random.Next()`. -/
def sort.breakPatterns.step (data : List Flat) (a length idx i random : Nat) : List Flat :=
  let other := random % sort.nextPowerOfTwo length
  let other2 := if other ≥ length then other - length else other
  flatSorter.Swap data (idx - 1 + i) (a + other2)

/-- The function `breakPatterns`: scatters some elements around. The step `next` of the
xorshift generator (`random.Next()`, on the state) is an argument. -/
def sort.breakPatterns (next : Nat → Nat) (data : List Flat) (a b : Nat) : List Flat :=
  if b - a ≥ 8 then
    let idx := a + (b - a) / 4 * 2 - 1
    let r1 := next (b - a)
    let r2 := next r1
    let r3 := next r2
    sort.breakPatterns.step
      (sort.breakPatterns.step (sort.breakPatterns.step data a (b - a) idx 0 r1)
        a (b - a) idx 1 r2)
      a (b - a) idx 2 r3
  else data

/-- The constants of `sortedHint`. -/
inductive sort.sortedHint where
  | unknownHint | increasingHint | decreasingHint
deriving DecidableEq

/-- The function `order2`: returns x, y where `data[x] <= data[y]`, and the count of
swaps. -/
def sort.order2 (by_ : Flat → Flat → Bool) (data : List Flat) (a b swaps : Nat) :
    Nat × Nat × Nat :=
  if flatSorter.Less by_ data b a then (b, a, swaps + 1) else (a, b, swaps)

/-- The function `median`: returns x where `data[x]` is the median of `data[a]`, `data[b]`,
`data[c]`, and the count of swaps. -/
def sort.median (by_ : Flat → Flat → Bool) (data : List Flat) (a b c swaps : Nat) :
    Nat × Nat :=
  let r1 := sort.order2 by_ data a b swaps
  let r2 := sort.order2 by_ data r1.2.1 c r1.2.2
  let r3 := sort.order2 by_ data r1.1 r2.1 r2.2.2
  (r3.2.1, r3.2.2)

/-- The function `medianAdjacent`: the median of `data[a - 1]`, `data[a]`, `data[a + 1]`. -/
def sort.medianAdjacent (by_ : Flat → Flat → Bool) (data : List Flat) (a swaps : Nat) :
    Nat × Nat :=
  sort.median by_ data (a - 1) a (a + 1) swaps

/-- The function `choosePivot`: `shortestNinther` is 50 and `maxSwaps` is 12. -/
def sort.choosePivot (by_ : Flat → Flat → Bool) (data : List Flat) (a b : Nat) :
    Nat × sort.sortedHint :=
  let l := b - a
  let i := a + l / 4 * 1
  let j := a + l / 4 * 2
  let k := a + l / 4 * 3
  let r :=
    if l ≥ 8 then
      if l ≥ 50 then
        let ri := sort.medianAdjacent by_ data i 0
        let rj := sort.medianAdjacent by_ data j ri.2
        let rk := sort.medianAdjacent by_ data k rj.2
        sort.median by_ data ri.1 rj.1 rk.1 rk.2
      else sort.median by_ data i j k 0
    else (j, 0)
  if r.2 = 0 then (r.1, .increasingHint)
  else if r.2 = 12 then (r.1, .decreasingHint)
  else (r.1, .unknownHint)

/-- The loop `for i < j` of `reverseRange`. -/
def sort.reverseRange.loop : Nat → List Flat → Nat → Nat → List Flat
  | 0, data, _, _ => data
  | fuel + 1, data, i, j =>
    if i < j then sort.reverseRange.loop fuel (flatSorter.Swap data i j) (i + 1) (j - 1)
    else data

/-- The function `reverseRange`. -/
def sort.reverseRange (data : List Flat) (a b : Nat) : List Flat :=
  sort.reverseRange.loop (b - a) data a (b - 1)

/-- The function `pdqsort`: sorts `data[a:b]`. One call of the model is one iteration of the
loop `for { ... }`; the arguments carry the variables `a`, `b`, `limit`, `wasBalanced` and
`wasPartitioned`. The slice gets shorter in every iteration and in every recursive call, so
`b - a + 1` calls are never used up. -/
def sort.pdqsort (next : Nat → Nat) (by_ : Flat → Flat → Bool) :
    Nat → List Flat → Nat → Nat → Nat → Bool → Bool → List Flat
  | 0, data, _, _, _, _, _ => data
  | fuel + 1, data, a, b, limit, wasBalanced, wasPartitioned =>
    if b - a ≤ 12 then sort.insertionSort by_ data a b
    else if limit = 0 then sort.heapSort by_ data a b
    else
      let data1 := if !wasBalanced then sort.breakPatterns next data a b else data
      let limit1 := if !wasBalanced then limit - 1 else limit
      let ph := sort.choosePivot by_ data1 a b
      let data2 := if ph.2 = .decreasingHint then sort.reverseRange data1 a b else data1
      let pivot := if ph.2 = .decreasingHint then (b - 1) - (ph.1 - a) else ph.1
      let hint := if ph.2 = .decreasingHint then sort.sortedHint.increasingHint else ph.2
      let likelySorted := wasBalanced && wasPartitioned && (hint = .increasingHint)
      let ps := if likelySorted then sort.partialInsertionSort by_ data2 a b else (data2, false)
      if ps.2 then ps.1
      else if a > 0 && !flatSorter.Less by_ ps.1 (a - 1) pivot then
        let pe := sort.partitionEqual by_ ps.1 a b pivot
        sort.pdqsort next by_ fuel pe.1 pe.2 b limit1 wasBalanced wasPartitioned
      else
        let pt := sort.partition by_ ps.1 a b pivot
        let mid := pt.2.1
        if mid - a < b - mid then
          sort.pdqsort next by_ fuel (sort.pdqsort next by_ fuel pt.1 a mid limit1 true true)
            (mid + 1) b limit1 (decide (mid - a ≥ (b - a) / 8)) pt.2.2
        else
          sort.pdqsort next by_ fuel (sort.pdqsort next by_ fuel pt.1 (mid + 1) b limit1 true true)
            a mid limit1 (decide (b - mid ≥ (b - a) / 8)) pt.2.2

/-- The function `sort.Sort`. -/
def sort.Sort (next : Nat → Nat) (by_ : Flat → Flat → Bool) (data : List Flat) : List Flat :=
  if flatSorter.Len data ≤ 1 then data
  else
    sort.pdqsort next by_ (flatSorter.Len data + 1) data 0 (flatSorter.Len data)
      (bits.Len (flatSorter.Len data)) true true

/-- Sort is a method on the function type, By, that sorts the argument slice according to
the function. -/
def By.Sort (next : Nat → Nat) (by_ : Flat → Flat → Bool) (flats : List Flat) : List Flat :=
  sort.Sort next by_ flats

/-! ## Notions used to state the theorems -/

/-- The maximal run of digits that ends a text. -/
def digitSuffix (s : List Char) : List Char :=
  (s.reverse.takeWhile regexp.isDigit).reverse

/-- The maximal run of digits immediately before the first occurrence of `c` in a text. -/
def digitRunBefore (c : Char) (s : List Char) : List Char :=
  digitSuffix (s.takeWhile (fun x => x != c))

/-- The record of a container on which `NewFlat` returns without an error. -/
def builtFlat (rootURL : String) (node : NodeRef) : Option Flat :=
  match NewFlat rootURL node with
  | .returns (.ok flat) => some flat
  | _ => none

/-- The price of the record at index `i` of the slice (0 outside the slice). -/
def priceAt (data : List Flat) (i : Nat) : ℚ :=
  match data[i]? with
  | some f => f.Price
  | none => 0

/-- The prices of `data[a:b]` are ascending. -/
def SortedOn (data : List Flat) (a b : Nat) : Prop :=
  ∀ i, a ≤ i → i + 1 < b → priceAt data i ≤ priceAt data (i + 1)

/-- The slice `data2` is `data` with the records of `data[a:b]` rearranged: a permutation
that leaves every index outside `a ≤ k < b` alone. -/
structure Moved (a b : Nat) (data data2 : List Flat) : Prop where
  perm : data2.Perm data
  frame : ∀ k, k < a ∨ b ≤ k → data2[k]? = data[k]?
  inside : ∀ k, a ≤ k → k < b → ∃ k2, a ≤ k2 ∧ k2 < b ∧ data2[k]? = data[k2]?

/-- The record before `data[a:b]`, when there is one, is not dearer than any record of
`data[a:b]`. -/
def LowerBound (data : List Flat) (a b : Nat) : Prop :=
  0 < a → ∀ k, a ≤ k → k < b → priceAt data (a - 1) ≤ priceAt data k

/-- The heap property at the node `r` of the heap that lies at `data[first:first+hi]`: no
child of `r` is dearer than `r`. -/
def HeapAt (data : List Flat) (first hi r : Nat) : Prop :=
  ∀ c, (c = 2 * r + 1 ∨ c = 2 * r + 2) → c < hi →
    priceAt data (first + c) ≤ priceAt data (first + r)

/-- Records of equal price are in the same relative order in both slices. -/
def SameOrderOfEqualPrices (data data2 : List Flat) : Prop :=
  ∀ p : ℚ, data2.filter (fun f => f.Price = p) = data.filter (fun f => f.Price = p)

/-- The thirteen records of the example: two records of price 300, then eleven cheaper
ones. -/
def exThirteen : List Flat :=
  [⟨300, 20, "first", "u1"⟩, ⟨300, 20, "second", "u2"⟩, ⟨100, 20, "c", "u3"⟩,
   ⟨110, 20, "d", "u4"⟩, ⟨120, 20, "e", "u5"⟩, ⟨130, 20, "f", "u6"⟩, ⟨140, 20, "g", "u7"⟩,
   ⟨150, 20, "h", "u8"⟩, ⟨160, 20, "i", "u9"⟩, ⟨170, 20, "j", "u10"⟩, ⟨180, 20, "k", "u11"⟩,
   ⟨190, 20, "l", "u12"⟩, ⟨200, 20, "m", "u13"⟩]

/-! ## Trees used in examples -/

/-- A text node. -/
def exText (s : String) : Node := .mk .TextNode 0 s [] []

/-- The price anchor `<a class="detailansicht">text</a>`. -/
def exPriceAnchor (text : String) : Node :=
  .mk .ElementNode atom.A "a" [⟨"", "class", "detailansicht"⟩] [exText text]

/-- The title block `<h3 class="headline-list-view noprint"><a class="detailansicht"
href=...>title</a></h3>`. -/
def exTitleBlock (href title : String) : Node :=
  .mk .ElementNode 0 "h3" [⟨"", "class", "headline-list-view noprint"⟩]
    [.mk .ElementNode atom.A "a" [⟨"", "class", "detailansicht"⟩, ⟨"", "href", href⟩]
      [exText title]]

/-- A listing block `<div class="panel list-details-ad-border">` with a price anchor and a
title block. -/
def exContainer (priceText href title : String) : Node :=
  .mk .ElementNode 0 "div" [⟨"", "class", "panel list-details-ad-border"⟩]
    [exPriceAnchor priceText, exTitleBlock href title]

/-- A page with the given listing blocks below its body. -/
def exPage (containers : List Node) : NodeRef :=
  ⟨none, .mk .DocumentNode 0 "" [] [.mk .ElementNode 0 "body" [] containers]⟩

/-! ## The polling cycle (`main/scraper.go`) -/

/-- The function `scrape`. Its argument `page` is what `http.Get` and `html.Parse` hand over:
the root of the parsed page, or the error of one of the two. The records found are sorted by
price. -/
def scrape (next : Nat → Nat) (rootURL : String) (page : Except GoError NodeRef) :
    Run (Except GoError (List Flat)) :=
  match page with
  | .error err => .returns (.error err)
  | .ok root =>
    match FindFlats rootURL root with
    | .panics msg => .panics msg
    | .returns flats => .returns (.ok (By.Sort next byPrice flats))

/-- The function `cacheFlats`: the new value of the package variable `cachedFlats`. -/
def cacheFlats (flats : List Flat) : List Flat := flats

/-- What one call of `step` leaves behind: the package variable `cachedFlats`, and the
argument of the call of `sendFlats` (`none` when `step` returns before that call). -/
structure StepResult where
  cachedFlats : List Flat
  sent : Option (List Flat)
deriving DecidableEq

/-- The function `step`, on the package variable `cachedFlats` and the page of this
cycle. -/
def step (next : Nat → Nat) (rootURL : String) (cachedFlats : List Flat)
    (page : Except GoError NodeRef) : Run StepResult :=
  match scrape next rootURL page with
  | .panics msg => .panics msg
  | .returns (.error _) => .returns ⟨cachedFlats, none⟩
  | .returns (.ok flats) =>
    .returns ⟨cacheFlats flats, some (uncachedFlats cachedFlats flats)⟩

/-! ## Notions used to state the theorems: the nodes of a tree -/

mutual
/-- The node and all nodes below it, in document order, each with its parent. -/
def subtreeOf (parent : Option Node) : Node → List NodeRef
  | .mk t a d at_ cs =>
    ⟨parent, .mk t a d at_ cs⟩ :: subtreeOfChildren (some (.mk t a d at_ cs)) cs
/-- The nodes of the trees of a list of siblings. -/
def subtreeOfChildren (parent : Option Node) : List Node → List NodeRef
  | [] => []
  | c :: cs => subtreeOf parent c ++ subtreeOfChildren parent cs
end

/-- The descendants of a node, the node itself included. -/
def NodeRef.subtree (n : NodeRef) : List NodeRef := subtreeOf n.Parent n.node

/-- The nodes that lie inside a node: its descendants without the node itself. -/
def NodeRef.below (n : NodeRef) : List NodeRef :=
  subtreeOfChildren (some n.node) n.node.children

/-- No node of the tree of `n` that satisfies `matcher` lies inside another one that does. -/
def NoNestedMatch (matcher : NodeRef → Bool) (n : NodeRef) : Prop :=
  ∀ q ∈ n.subtree, matcher q = true → ∀ r ∈ q.below, matcher r = false

mutual
/-- The nodes of the tree that satisfy `matcher` and do not lie inside another node of the
tree that satisfies it, in document order: every node is visited, and `inside` tells whether
a node above the visited one, within the tree, satisfies `matcher`. -/
def outermostOf (matcher : NodeRef → Bool) (inside : Bool) (parent : Option Node) :
    Node → List NodeRef
  | .mk t a d at_ cs =>
    (if !inside && matcher ⟨parent, .mk t a d at_ cs⟩ then [⟨parent, .mk t a d at_ cs⟩]
     else []) ++
      outermostOfChildren matcher (inside || matcher ⟨parent, .mk t a d at_ cs⟩)
        (some (.mk t a d at_ cs)) cs
/-- The same for the trees of a list of siblings. -/
def outermostOfChildren (matcher : NodeRef → Bool) (inside : Bool) (parent : Option Node) :
    List Node → List NodeRef
  | [] => []
  | c :: cs =>
    outermostOf matcher inside parent c ++ outermostOfChildren matcher inside parent cs
end

/-- The descendants of `n`, `n` included, that satisfy `matcher` and do not lie inside
another descendant of `n` that satisfies it. -/
def NodeRef.outermost (n : NodeRef) (matcher : NodeRef → Bool) : List NodeRef :=
  outermostOf matcher false n.Parent n.node

/-- How many nodes of the tree of `n`, `n` included, satisfy `matcher`. -/
def matchCount (matcher : NodeRef → Bool) (n : NodeRef) : Nat :=
  (n.subtree.filter matcher).length

mutual
/-- Equality of nodes is decidable. -/
def Node.decEq : (a b : Node) → Decidable (a = b)
  | .mk t1 a1 d1 at1 c1, .mk t2 a2 d2 at2 c2 =>
    if h1 : t1 = t2 ∧ a1 = a2 ∧ d1 = d2 ∧ at1 = at2 then
      match Node.decEqList c1 c2 with
      | isTrue h => isTrue (by rw [h1.1, h1.2.1, h1.2.2.1, h1.2.2.2, h])
      | isFalse h => isFalse (fun e => h (by injection e))
    else isFalse (fun e => h1 (by injection e with e1 e2 e3 e4 e5; exact ⟨e1, e2, e3, e4⟩))
/-- Equality of lists of nodes is decidable. -/
def Node.decEqList : (a b : List Node) → Decidable (a = b)
  | [], [] => isTrue rfl
  | [], _ :: _ => isFalse (fun e => by injection e)
  | _ :: _, [] => isFalse (fun e => by injection e)
  | x :: xs, y :: ys =>
    match Node.decEq x y with
    | isTrue h =>
      match Node.decEqList xs ys with
      | isTrue h2 => isTrue (by rw [h, h2])
      | isFalse h2 => isFalse (fun e => h2 (by injection e))
    | isFalse h => isFalse (fun e => h (by injection e))
end

instance : DecidableEq Node := Node.decEq

deriving instance DecidableEq for NodeRef

/-! ## More trees used in examples -/

/-- A listing block whose price anchor lies inside another price anchor (with an element
`object` between the two, as the HTML parser requires for an anchor inside an anchor). -/
def exNestedPrice : Node :=
  .mk .ElementNode 0 "div" [⟨"", "class", "panel list-details-ad-border"⟩]
    [.mk .ElementNode atom.A "a" [⟨"", "class", "detailansicht"⟩]
       [.mk .ElementNode 0 "object" [] [exPriceAnchor "650€ 20m²"]],
     exTitleBlock "a.html" "A"]

/-- A listing block that lies inside another listing block. -/
def exNestedContainer : Node :=
  .mk .ElementNode 0 "div" [⟨"", "class", "list-details-ad-border"⟩]
    [exContainer "650€ 20m²" "a.html" "A"]

/-- A hidden listing block. -/
def exHidden : Node :=
  .mk .ElementNode 0 "div" [⟨"", "class", "panel panel-hidden list-details-ad-border"⟩]
    [exPriceAnchor "650€ 20m²", exTitleBlock "a.html" "A"]

/-- A listing block with two price anchors side by side. -/
def exTwoPrices : Node :=
  .mk .ElementNode 0 "div" [⟨"", "class", "panel list-details-ad-border"⟩]
    [exPriceAnchor "650€ 20m²", exPriceAnchor "700€ 25m²", exTitleBlock "a.html" "A"]

/-- The element `body` of the page `exPage containers`. -/
def exBody (containers : List Node) : Node := .mk .ElementNode 0 "body" [] containers

/-! ## Lemmas: deduplication -/

theorem containsFlat_iff (flats : List Flat) (flat : Flat) :
    containsFlat flats flat = true ↔ flat.URL ∈ flats.map (fun f => f.URL) := by
  induction flats with
  | nil => simp [containsFlat]
  | cons f fs ih =>
    by_cases h : f.URL = flat.URL
    · simp [containsFlat, h]
    · have h2 : ¬ flat.URL = f.URL := fun e => h e.symm
      simp [containsFlat, h, h2, ih]

theorem uncachedFlats_loop (cachedFlats flats acc : List Flat) :
    flats.foldl
      (fun uncached flat =>
        if !containsFlat cachedFlats flat then uncached ++ [flat] else uncached) acc
      = acc ++ flats.filter (fun flat => !containsFlat cachedFlats flat) := by
  induction flats generalizing acc with
  | nil => simp
  | cons f fs ih =>
    rw [List.foldl_cons, ih]
    by_cases h : containsFlat cachedFlats f = true
    · simp [List.filter_cons, h]
    · simp [List.filter_cons, h]

theorem uncachedFlats_eq_filter (cachedFlats flats : List Flat) :
    uncachedFlats cachedFlats flats
      = flats.filter (fun flat => !containsFlat cachedFlats flat) := by
  unfold uncachedFlats
  rw [uncachedFlats_loop, List.nil_append]

/-! ## Theorems: deduplication -/

/-- C1: `uncachedFlats` returns exactly the records of `flats`, in order and with their
multiplicity, whose URL is not the URL of any cached record; the filter only reads URLs.
With cached URLs A, B and current URLs B, C, where C is neither A nor B, the result is the
record with URL C, whatever the prices, areas and titles are. -/
theorem uncachedFlats_is_url_difference :
    (∀ cachedFlats flats : List Flat,
      uncachedFlats cachedFlats flats
        = flats.filter (fun flat => decide (flat.URL ∉ cachedFlats.map (fun f => f.URL)))) ∧
    (∀ (A B C : String) (p1 p2 p3 p4 a1 a2 a3 a4 : ℚ) (t1 t2 t3 t4 : String),
      C ≠ A → C ≠ B →
      uncachedFlats [⟨p1, a1, t1, A⟩, ⟨p2, a2, t2, B⟩] [⟨p3, a3, t3, B⟩, ⟨p4, a4, t4, C⟩]
        = [⟨p4, a4, t4, C⟩]) := by
  have key : ∀ cachedFlats flats : List Flat,
      uncachedFlats cachedFlats flats
        = flats.filter (fun flat => decide (flat.URL ∉ cachedFlats.map (fun f => f.URL))) := by
    intro cachedFlats flats
    rw [uncachedFlats_eq_filter]
    apply List.filter_congr
    intro flat _
    by_cases h : containsFlat cachedFlats flat = true
    · have h2 := (containsFlat_iff cachedFlats flat).1 h
      simp only [h, Bool.not_true]
      exact (decide_eq_false (fun hn => hn h2)).symm
    · have h2 : flat.URL ∉ cachedFlats.map (fun f => f.URL) :=
        fun hm => h ((containsFlat_iff cachedFlats flat).2 hm)
      have h3 : containsFlat cachedFlats flat = false := by simpa using h
      simp only [h3, Bool.not_false]
      exact (decide_eq_true h2).symm
  refine ⟨key, ?_⟩
  intro A B C p1 p2 p3 p4 a1 a2 a3 a4 t1 t2 t3 t4 hA hB
  rw [key]
  simp [List.filter_cons, hA, hB]

/-- Instance of C1 with the URLs "A", "B" and "C". -/
theorem uncachedFlats_is_url_difference_witness :
    uncachedFlats [⟨300, 20, "a", "A"⟩, ⟨400, 25, "b", "B"⟩]
        [⟨410, 25, "b2", "B"⟩, ⟨500, 30, "c", "C"⟩]
      = [⟨500, 30, "c", "C"⟩] :=
  uncachedFlats_is_url_difference.2 "A" "B" "C" 300 400 410 500 20 25 25 30 "a" "b" "b2" "c"
    (by decide) (by decide)

/-- C2 fails as stated: a current record with the empty URL is not reported when the cache
holds a record with the empty URL, because `containsFlat` compares `"" == ""`. -/
theorem empty_url_not_always_new :
    (⟨400, 25, "new", ""⟩ : Flat) ∈ [(⟨400, 25, "new", ""⟩ : Flat)] ∧
    (⟨400, 25, "new", ""⟩ : Flat).URL = "" ∧
    uncachedFlats [⟨300, 20, "old", ""⟩] [⟨400, 25, "new", ""⟩] = [] ∧
    (⟨400, 25, "new", ""⟩ : Flat) ∉ uncachedFlats [⟨300, 20, "old", ""⟩] [⟨400, 25, "new", ""⟩] := by
  decide

/-- C2, amended: the empty URL is compared like every other URL. A record of `flats` with
the empty URL is in `uncachedFlats` exactly when no cached record has the empty URL. -/
theorem empty_url_new_iff_not_cached (cachedFlats flats : List Flat) (flat : Flat)
    (hmem : flat ∈ flats) (hurl : flat.URL = "") :
    flat ∈ uncachedFlats cachedFlats flats ↔ ∀ f ∈ cachedFlats, f.URL ≠ "" := by
  rw [uncachedFlats_eq_filter, List.mem_filter]
  constructor
  · rintro ⟨_, h⟩ f hf hfu
    have : containsFlat cachedFlats flat = true :=
      (containsFlat_iff cachedFlats flat).2 (by
        rw [hurl]; exact List.mem_map.2 ⟨f, hf, hfu⟩)
    simp [this] at h
  · intro h
    refine ⟨hmem, ?_⟩
    have : ¬ containsFlat cachedFlats flat = true := by
      intro hc
      obtain ⟨f, hf, hfu⟩ := List.mem_map.1 ((containsFlat_iff cachedFlats flat).1 hc)
      exact h f hf (hfu.trans hurl)
    simpa using this

/-- Witness of the amended C2: a cache without empty URL, a current record with the empty URL. -/
theorem empty_url_new_iff_not_cached_witness :
    ((⟨400, 25, "new", ""⟩ : Flat) ∈ uncachedFlats [⟨300, 20, "old", "u"⟩] [⟨400, 25, "new", ""⟩]
      ↔ ∀ f ∈ [(⟨300, 20, "old", "u"⟩ : Flat)], f.URL ≠ "") :=
  empty_url_new_iff_not_cached [⟨300, 20, "old", "u"⟩] [⟨400, 25, "new", ""⟩]
    ⟨400, 25, "new", ""⟩ (by simp) rfl

theorem digitSuffix_of_all (s : List Char) (h : ∀ x ∈ s, regexp.isDigit x = true) :
    digitSuffix s = s := by
  unfold digitSuffix
  rw [List.takeWhile_eq_self_iff.2 (by simpa using h), List.reverse_reverse]

theorem digitSuffix_cons_of_not_all (x : Char) (s : List Char)
    (h : ∃ y ∈ x :: s, regexp.isDigit y = false) : digitSuffix (x :: s) = digitSuffix s := by
  unfold digitSuffix
  rw [List.reverse_cons, List.takeWhile_append]
  by_cases hs : ∀ y ∈ s, regexp.isDigit y = true
  · have hx : regexp.isDigit x = false := by
      obtain ⟨y, hy, hyd⟩ := h
      rcases List.mem_cons.1 hy with rfl | hy
      · exact hyd
      · rw [hs y hy] at hyd; cases hyd
    have h1 : List.takeWhile regexp.isDigit s.reverse = s.reverse :=
      List.takeWhile_eq_self_iff.2 (by simpa using hs)
    simp [h1, List.takeWhile_cons, hx]
  · have h1 : (List.takeWhile regexp.isDigit s.reverse).length ≠ s.reverse.length := by
      intro hlen
      apply hs
      have h2 : List.takeWhile regexp.isDigit s.reverse = s.reverse := by
        have hp := List.takeWhile_prefix regexp.isDigit (l := s.reverse)
        exact hp.eq_of_length hlen
      have := List.takeWhile_eq_self_iff.1 h2
      simpa using this
    rw [if_neg h1]

theorem matchHere_of_all (c : Char) (hc : regexp.isDigit c = false) (run post : List Char)
    (h : ∀ x ∈ run, regexp.isDigit x = true) :
    regexp.matchHere c (run ++ c :: post) = some run := by
  induction run with
  | nil => simp [regexp.matchHere, hc]
  | cons x run ih =>
    have hx := h x (List.mem_cons_self _ _)
    have ih2 := ih (fun y hy => h y (List.mem_cons_of_mem _ hy))
    simp [regexp.matchHere, hx, ih2]

theorem matchHere_of_not_all (c : Char) (pre post : List Char) (hpre : c ∉ pre)
    (h : ∃ y ∈ pre, regexp.isDigit y = false) :
    regexp.matchHere c (pre ++ c :: post) = none := by
  induction pre with
  | nil => obtain ⟨y, hy, _⟩ := h; cases hy
  | cons x pre ih =>
    have hxc : ¬ x = c := fun e => hpre (e ▸ List.mem_cons_self _ _)
    have hpre2 : c ∉ pre := fun hm => hpre (List.mem_cons_of_mem _ hm)
    by_cases hx : regexp.isDigit x = true
    · have h2 : ∃ y ∈ pre, regexp.isDigit y = false := by
        obtain ⟨y, hy, hyd⟩ := h
        rcases List.mem_cons.1 hy with rfl | hy
        · rw [hx] at hyd; cases hyd
        · exact ⟨y, hy, hyd⟩
      simp [regexp.matchHere, hx, ih hpre2 h2, hxc]
    · simp [regexp.matchHere, hx, hxc]

theorem leftmost_append (c : Char) (hc : regexp.isDigit c = false) (pre post : List Char)
    (hpre : c ∉ pre) :
    regexp.leftmost c (pre ++ c :: post) = some (digitSuffix pre) := by
  induction pre with
  | nil => simp [regexp.leftmost, regexp.matchHere, hc, digitSuffix]
  | cons x pre ih =>
    have hpre2 : c ∉ pre := fun hm => hpre (List.mem_cons_of_mem _ hm)
    by_cases hall : ∀ y ∈ x :: pre, regexp.isDigit y = true
    · have := matchHere_of_all c hc (x :: pre) post hall
      rw [List.cons_append] at this
      rw [List.cons_append, regexp.leftmost, this, digitSuffix_of_all _ hall]
    · have hex : ∃ y ∈ x :: pre, regexp.isDigit y = false := by
        by_contra hn
        apply hall
        intro y hy
        by_contra hyd
        exact hn ⟨y, hy, by simpa using hyd⟩
      have := matchHere_of_not_all c (x :: pre) post hpre hex
      rw [List.cons_append] at this
      rw [List.cons_append, regexp.leftmost, this, digitSuffix_cons_of_not_all x pre hex]
      exact ih hpre2

theorem takeWhile_ne_append (c : Char) (pre post : List Char) (hpre : c ∉ pre) :
    (pre ++ c :: post).takeWhile (fun x => x != c) = pre := by
  rw [List.takeWhile_append_of_pos]
  · simp [List.takeWhile_cons]
  · intro a ha
    have : a ≠ c := fun e => hpre (e ▸ ha)
    simpa using this

theorem exists_first (c : Char) (s : List Char) (h : c ∈ s) :
    ∃ pre post, s = pre ++ c :: post ∧ c ∉ pre := by
  induction s with
  | nil => cases h
  | cons x s ih =>
    by_cases hx : x = c
    · exact ⟨[], s, by simp [hx], by simp⟩
    · rcases List.mem_cons.1 h with e | hm
      · exact absurd e.symm hx
      · obtain ⟨pre, post, hs, hp⟩ := ih hm
        refine ⟨x :: pre, post, by simp [hs], ?_⟩
        intro hm2
        rcases List.mem_cons.1 hm2 with e | hm3
        · exact hx e.symm
        · exact hp hm3

theorem leftmost_of_mem (c : Char) (hc : regexp.isDigit c = false) (s : List Char)
    (h : c ∈ s) : regexp.leftmost c s = some (digitRunBefore c s) := by
  obtain ⟨pre, post, hs, hp⟩ := exists_first c s h
  subst hs
  rw [leftmost_append c hc pre post hp, digitRunBefore, takeWhile_ne_append c pre post hp]

theorem matchHere_mem (c : Char) (s group : List Char)
    (h : regexp.matchHere c s = some group) : c ∈ s := by
  induction s generalizing group with
  | nil => simp [regexp.matchHere] at h
  | cons x s ih =>
    by_cases hxc : x = c
    · simp [hxc]
    · by_cases hx : regexp.isDigit x = true
      · simp only [regexp.matchHere, hx, if_true, hxc, if_false] at h
        cases hm : regexp.matchHere c s with
        | none => rw [hm] at h; simp at h
        | some g => exact List.mem_cons_of_mem _ (ih g hm)
      · simp [regexp.matchHere, hx, hxc] at h

theorem leftmost_of_not_mem (c : Char) (s : List Char) (h : c ∉ s) :
    regexp.leftmost c s = none := by
  induction s with
  | nil => rfl
  | cons x s ih =>
    have h2 : c ∉ s := fun hm => h (List.mem_cons_of_mem _ hm)
    cases hm : regexp.matchHere c (x :: s) with
    | some g => exact absurd (matchHere_mem c _ g hm) h
    | none => simp [regexp.leftmost, hm, ih h2]

/-! ### strconv -/

theorem isDigit_value_le (c : Char) (h : regexp.isDigit c = true) :
    c.toNat - '0'.toNat ≤ 9 := by
  have h9 : '9'.toNat = 57 := by decide
  have h0 : '0'.toNat = 48 := by decide
  simp only [regexp.isDigit, Bool.and_eq_true, decide_eq_true_eq, h9, h0] at h
  rw [h0]; omega

theorem decimalValue_loop_lt (s : List Char) (h : ∀ x ∈ s, regexp.isDigit x = true) (acc : Nat) :
    s.foldl (fun acc c => 10 * acc + (c.toNat - '0'.toNat)) acc + 1
      ≤ 10 ^ s.length * (acc + 1) := by
  induction s generalizing acc with
  | nil => simp
  | cons x s ih =>
    have hx := isDigit_value_le x (h x (List.mem_cons_self _ _))
    have ih2 := ih (fun y hy => h y (List.mem_cons_of_mem _ hy)) (10 * acc + (x.toNat - '0'.toNat))
    rw [List.foldl_cons, List.length_cons]
    calc _ ≤ 10 ^ s.length * (10 * acc + (x.toNat - '0'.toNat) + 1) := ih2
      _ ≤ 10 ^ s.length * (10 * (acc + 1)) := Nat.mul_le_mul_left _ (by omega)
      _ = 10 ^ (s.length + 1) * (acc + 1) := by ring

theorem decimalValue_lt (s : List Char) (h : ∀ x ∈ s, regexp.isDigit x = true) :
    strconv.decimalValue s < 10 ^ s.length := by
  have := decimalValue_loop_lt s h 0
  simp only [Nat.zero_add, Nat.mul_one] at this
  exact this

theorem excessBits_small (fuel n : Nat) (h : n < 2 ^ 53) : strconv.excessBits fuel n = 0 := by
  cases fuel with
  | zero => rfl
  | succ f => rw [strconv.excessBits, if_pos h]

theorem roundFloat64_small (n : Nat) (h : n < 2 ^ 53) : strconv.roundFloat64 n = n := by
  simp [strconv.roundFloat64, excessBits_small n n h]

theorem ParseFloat_short (run : List Char) (hne : run ≠ [])
    (h : ∀ x ∈ run, regexp.isDigit x = true) (hlen : run.length ≤ 15) :
    strconv.ParseFloat ⟨run⟩ = .ok (strconv.decimalValue run : ℕ) := by
  have h1 : strconv.decimalValue run < 10 ^ 15 :=
    lt_of_lt_of_le (decimalValue_lt run h) (Nat.pow_le_pow_right (by decide) hlen)
  have h2 : strconv.decimalValue run < 2 ^ 53 := lt_of_lt_of_le h1 (by norm_num)
  have h3 : strconv.roundFloat64 (strconv.decimalValue run) = strconv.decimalValue run :=
    roundFloat64_small _ h2
  have h4 : strconv.decimalValue run < 2 ^ 1024 :=
    lt_trans h2 (Nat.pow_lt_pow_right (by decide) (by decide))
  have h5 : run.all regexp.isDigit = true := List.all_eq_true.2 h
  have h6 : ¬ (String.mk run).data = [] := hne
  unfold strconv.ParseFloat
  rw [if_neg h6, if_pos h5, h3, if_pos h4]

theorem ParseFloat_empty : strconv.ParseFloat ⟨[]⟩ = .error (.ErrSyntax "") := by
  rfl

theorem digitSuffix_all (s : List Char) : ∀ x ∈ digitSuffix s, regexp.isDigit x = true := by
  intro x hx
  unfold digitSuffix at hx
  rw [List.mem_reverse] at hx
  exact (List.mem_takeWhile_imp hx)

/-! ### parsePrice, parseArea -/

theorem parse_with_marker (c : Char) (hc : regexp.isDigit c = false) (s : String)
    (h : c ∈ s.data) :
    (regexp.FindStringSubmatch c s)[1]? = some ⟨digitRunBefore c s.data⟩ := by
  simp [regexp.FindStringSubmatch, leftmost_of_mem c hc s.data h]

theorem parse_without_marker (c : Char) (s : String) (h : c ∉ s.data) :
    (regexp.FindStringSubmatch c s)[1]? = none := by
  simp [regexp.FindStringSubmatch, leftmost_of_not_mem c s.data h]

theorem parsePrice_eq (n : NodeRef) (h : '€' ∈ (scrape.Text n).data) :
    parsePrice n = .returns (strconv.ParseFloat ⟨digitRunBefore '€' (scrape.Text n).data⟩) := by
  unfold parsePrice
  rw [parse_with_marker '€' (by decide) _ h]

theorem parseArea_eq (n : NodeRef) (h : 'm' ∈ (scrape.Text n).data) :
    parseArea n = .returns (strconv.ParseFloat ⟨digitRunBefore 'm' (scrape.Text n).data⟩) := by
  unfold parseArea
  rw [parse_with_marker 'm' (by decide) _ h]

theorem parseArea_error_of_empty_run (n : NodeRef) (h : 'm' ∈ (scrape.Text n).data)
    (hrun : digitRunBefore 'm' (scrape.Text n).data = []) :
    parseArea n = .returns (.error (.ErrSyntax "")) := by
  rw [parseArea_eq n h, hrun, ParseFloat_empty]

theorem parseArea_panics (n : NodeRef) (h : 'm' ∉ (scrape.Text n).data) :
    parseArea n = .panics "index out of range [1] with length 0" := by
  unfold parseArea
  rw [parse_without_marker 'm' _ h]

/-! ### strings, scrape -/

theorem containsList_iff (substr s : List Char) :
    strings.containsList substr s = true ↔ substr <:+: s := by
  induction s with
  | nil =>
    rw [strings.containsList, List.isPrefixOf_iff_prefix]
    constructor
    · intro h; exact h.isInfix
    · intro h
      have : substr = [] := List.eq_nil_of_infix_nil h
      subst this; exact List.prefix_rfl
  | cons c s ih =>
    rw [strings.containsList, List.infix_cons_iff, ← ih, ← List.isPrefixOf_iff_prefix]
    by_cases hp : substr.isPrefixOf (c :: s) = true
    · simp [hp]
    · simp [hp]

theorem Contains_iff (s substr : String) :
    strings.Contains s substr = true ↔ substr.data <:+: s.data :=
  containsList_iff substr.data s.data

theorem singleton_infix (c : Char) (s : List Char) : [c] <:+: s ↔ c ∈ s := by
  constructor
  · rintro ⟨a, b, h⟩
    rw [← h]; simp
  · intro h
    obtain ⟨a, b, h2⟩ := List.append_of_mem h
    exact ⟨a, b, by rw [h2]; simp⟩

theorem Contains_euro (s : String) : strings.Contains s "€" = true ↔ '€' ∈ s.data := by
  rw [Contains_iff]
  exact singleton_infix '€' s.data

mutual
theorem findNode_matches (matcher : NodeRef → Bool) (parent : Option Node) :
    ∀ (node : Node) (r : NodeRef), scrape.findNode matcher parent node = some r →
      matcher r = true
  | .mk t a d at_ cs, r, h => by
    rw [scrape.findNode] at h
    split at h
    · rename_i hm
      cases h
      exact hm
    · exact findChildren_matches matcher _ cs r h
theorem findChildren_matches (matcher : NodeRef → Bool) (parent : Option Node) :
    ∀ (cs : List Node) (r : NodeRef), scrape.findChildren matcher parent cs = some r →
      matcher r = true
  | [], r, h => by simp [scrape.findChildren] at h
  | c :: cs, r, h => by
    rw [scrape.findChildren] at h
    cases hc : scrape.findNode matcher parent c with
    | some n =>
      rw [hc] at h
      cases h
      exact findNode_matches matcher parent c _ hc
    | none =>
      rw [hc] at h
      exact findChildren_matches matcher parent cs r h
end

theorem Find_matches (node : NodeRef) (matcher : NodeRef → Bool) (r : NodeRef)
    (h : scrape.Find node matcher = some r) : matcher r = true :=
  findNode_matches matcher node.Parent node.node r h

theorem priceNode_has_euro (n priceNode : NodeRef)
    (h : scrape.Find n priceNodeMatcher = some priceNode) :
    '€' ∈ (scrape.Text priceNode).data := by
  have hm := Find_matches n priceNodeMatcher priceNode h
  unfold priceNodeMatcher at hm
  split at hm
  · rw [Bool.and_eq_true] at hm
    exact (Contains_euro _).1 hm.2
  · cases hm

/-! ### FindFlats -/

theorem FindFlats_loop_returns (rootURL : String) (nodes : List NodeRef) (flats : List Flat)
    (h : ∀ node ∈ nodes, ∀ msg, NewFlat rootURL node ≠ .panics msg) :
    FindFlats.loop rootURL nodes flats
      = .returns (flats ++ nodes.filterMap (builtFlat rootURL)) := by
  induction nodes generalizing flats with
  | nil => simp [FindFlats.loop]
  | cons node rest ih =>
    have hrest : ∀ node ∈ rest, ∀ msg, NewFlat rootURL node ≠ .panics msg :=
      fun x hx => h x (List.mem_cons_of_mem _ hx)
    have hnode := h node (List.mem_cons_self _ _)
    rw [FindFlats.loop]
    cases hn : NewFlat rootURL node with
    | panics msg => exact absurd hn (hnode msg)
    | returns v =>
      cases v with
      | error e => simp [ih _ hrest, List.filterMap_cons, builtFlat, hn]
      | ok flat => simp [ih _ hrest, List.filterMap_cons, builtFlat, hn]

theorem FindFlats_loop_panics (rootURL : String) (before after : List NodeRef)
    (node : NodeRef) (flats : List Flat) (msg : String)
    (hb : ∀ x ∈ before, ∀ m, NewFlat rootURL x ≠ .panics m)
    (hn : NewFlat rootURL node = .panics msg) :
    FindFlats.loop rootURL (before ++ node :: after) flats = .panics msg := by
  induction before generalizing flats with
  | nil => simp [FindFlats.loop, hn]
  | cons x rest ih =>
    have hrest : ∀ y ∈ rest, ∀ m, NewFlat rootURL y ≠ .panics m :=
      fun y hy => hb y (List.mem_cons_of_mem _ hy)
    have hx := hb x (List.mem_cons_self _ _)
    rw [List.cons_append, FindFlats.loop]
    cases hxn : NewFlat rootURL x with
    | panics m => exact absurd hxn (hx m)
    | returns v =>
      cases v with
      | error e => exact ih _ hrest
      | ok flat => exact ih _ hrest

theorem FindFlats_returns_built (rootURL : String) (n : NodeRef)
    (h : ∀ node ∈ scrape.FindAll n ParentNodeMatcher, ∀ msg,
      NewFlat rootURL node ≠ .panics msg) :
    FindFlats rootURL n
      = .returns ((scrape.FindAll n ParentNodeMatcher).filterMap (builtFlat rootURL)) := by
  unfold FindFlats
  rw [FindFlats_loop_returns rootURL _ [] h, List.nil_append]

/-- C5: as long as `NewFlat` does not panic on a container, `FindFlats` returns the records
of the containers on which `NewFlat` succeeds, in the order of the container search; with
three containers of which the second has a price text without digits before `€`, these are
the records of the first and the third. But when the price text of the second has no `m`,
`parseArea` indexes a nil slice and `FindFlats` panics: no record is returned. -/
theorem FindFlats_batch_skips_error_but_panics_without_m :
    (∀ (rootURL : String) (n : NodeRef),
      (∀ node ∈ scrape.FindAll n ParentNodeMatcher, ∀ msg, NewFlat rootURL node ≠ .panics msg) →
      FindFlats rootURL n
        = .returns ((scrape.FindAll n ParentNodeMatcher).filterMap (builtFlat rootURL))) ∧
    FindFlats ROOTURL (exPage [exContainer "650€ 20m²" "a.html" "A",
        exContainer "abc€ 20m²" "b.html" "B", exContainer "800€ 30m²" "c.html" "C"])
      = .returns [⟨650, 20, "A", "https://www.wg-gesucht.de/a.html"⟩,
          ⟨800, 30, "C", "https://www.wg-gesucht.de/c.html"⟩] ∧
    FindFlats ROOTURL (exPage [exContainer "650€ 20m²" "a.html" "A",
        exContainer "700€" "b.html" "B", exContainer "800€ 30m²" "c.html" "C"])
      = .panics "index out of range [1] with length 0" := by
  refine ⟨FindFlats_returns_built, ?_, ?_⟩ <;> decide

/-- C6: on a price node whose text has no `m`, `parseArea` panics instead of returning an
error, and so does `NewFlat`; with an `m` that no digit precedes it returns the syntax
error. -/
theorem parseArea_panics_without_m :
    (∀ n : NodeRef, 'm' ∉ (scrape.Text n).data →
      parseArea n = .panics "index out of range [1] with length 0") ∧
    parseArea ⟨none, exPriceAnchor "650€"⟩ = .panics "index out of range [1] with length 0" ∧
    NewFlat ROOTURL ⟨none, exContainer "650€" "a.html" "A"⟩
      = .panics "index out of range [1] with length 0" ∧
    (∀ n : NodeRef, 'm' ∈ (scrape.Text n).data →
      digitRunBefore 'm' (scrape.Text n).data = [] →
      parseArea n = .returns (.error (.ErrSyntax ""))) ∧
    parseArea ⟨none, exPriceAnchor "650€ warm"⟩ = .returns (.error (.ErrSyntax "")) := by
  refine ⟨parseArea_panics, ?_, ?_, parseArea_error_of_empty_run, ?_⟩ <;> rfl

/-- C7: when the text of the node contains `€`, `parsePrice` reads the maximal run of digits
immediately before the first `€`: a non-empty run of at most 15 digits gives the number it
denotes, without error, and an empty run gives an error. It does not panic. -/
theorem parsePrice_reads_run_before_first_euro (n : NodeRef)
    (h : '€' ∈ (scrape.Text n).data) :
    (digitRunBefore '€' (scrape.Text n).data ≠ [] →
      (digitRunBefore '€' (scrape.Text n).data).length ≤ 15 →
      parsePrice n = .returns (.ok
        (strconv.decimalValue (digitRunBefore '€' (scrape.Text n).data) : ℕ))) ∧
    (digitRunBefore '€' (scrape.Text n).data = [] →
      parsePrice n = .returns (.error (.ErrSyntax ""))) := by
  rw [parsePrice_eq n h]
  constructor
  · intro hne hlen
    rw [ParseFloat_short _ hne (digitSuffix_all _) hlen]
  · intro he
    rw [he, ParseFloat_empty]

/-- Witness of C7: in "12a34€ 5€" the run before the first `€` is "34". -/
theorem parsePrice_reads_run_before_first_euro_witness :
    '€' ∈ (scrape.Text ⟨none, exPriceAnchor "12a34€ 5€"⟩).data ∧
    digitRunBefore '€' (scrape.Text ⟨none, exPriceAnchor "12a34€ 5€"⟩).data = ['3', '4'] ∧
    parsePrice ⟨none, exPriceAnchor "12a34€ 5€"⟩ = .returns (.ok 34) :=
  ⟨by decide, by decide,
    (parsePrice_reads_run_before_first_euro ⟨none, exPriceAnchor "12a34€ 5€"⟩ (by decide)).1
      (by decide) (by decide)⟩

/-- C8 fails as stated: the price text "Zimmer 650€ 20m²" of a node accepted by
`ParentNodeMatcher` contains "650€" and "20m", yet `NewFlat` returns an error, because the
pattern for the area matches at the first `m`, the one of "Zimmer". -/
theorem NewFlat_fails_when_first_m_has_no_digits :
    ParentNodeMatcher ⟨none, exContainer "Zimmer 650€ 20m²" "a.html" "A"⟩ = true ∧
    scrape.Text ⟨none, exPriceAnchor "Zimmer 650€ 20m²"⟩ = "Zimmer 650€ 20m²" ∧
    "650€".data <:+: "Zimmer 650€ 20m²".data ∧
    "20m".data <:+: "Zimmer 650€ 20m²".data ∧
    NewFlat ROOTURL ⟨none, exContainer "Zimmer 650€ 20m²" "a.html" "A"⟩
      = .returns (.error (.ErrSyntax "")) := by
  refine ⟨by decide, by decide, by decide, by decide, rfl⟩

/-- C8, amended: when `NewFlat` finds the price node and the title node, and the text of
the price node contains `m`, the price is read from the maximal run of digits immediately
before the first `€` and the area from the maximal run of digits immediately before the
first `m`. When both runs are non-empty (at most 15 digits) `NewFlat` succeeds with the
numbers they denote; when one of them is empty it returns an error. -/
theorem NewFlat_reads_runs_before_first_markers (rootURL : String)
    (n priceNode titleNode : NodeRef)
    (hp : scrape.Find n priceNodeMatcher = some priceNode)
    (ht : scrape.Find n titleNodeMatcher = some titleNode)
    (hm : 'm' ∈ (scrape.Text priceNode).data)
    (hle : (digitRunBefore '€' (scrape.Text priceNode).data).length ≤ 15)
    (hlm : (digitRunBefore 'm' (scrape.Text priceNode).data).length ≤ 15) :
    (digitRunBefore '€' (scrape.Text priceNode).data ≠ [] →
      digitRunBefore 'm' (scrape.Text priceNode).data ≠ [] →
      NewFlat rootURL n = .returns (.ok
        ⟨(strconv.decimalValue (digitRunBefore '€' (scrape.Text priceNode).data) : ℕ),
         (strconv.decimalValue (digitRunBefore 'm' (scrape.Text priceNode).data) : ℕ),
         scrape.Text titleNode, parseURL rootURL titleNode⟩)) ∧
    ((digitRunBefore '€' (scrape.Text priceNode).data = [] ∨
        digitRunBefore 'm' (scrape.Text priceNode).data = []) →
      NewFlat rootURL n = .returns (.error (.ErrSyntax ""))) := by
  have he := priceNode_has_euro n priceNode hp
  unfold NewFlat
  rw [hp, ht]
  simp only []
  rw [parsePrice_eq priceNode he, parseArea_eq priceNode hm]
  constructor
  · intro hne1 hne2
    rw [ParseFloat_short _ hne1 (digitSuffix_all _) hle,
      ParseFloat_short _ hne2 (digitSuffix_all _) hlm]
  · intro hor
    by_cases h1 : digitRunBefore '€' (scrape.Text priceNode).data = []
    · rw [h1, ParseFloat_empty]
    · rw [ParseFloat_short _ h1 (digitSuffix_all _) hle]
      rcases hor with h2 | h2
      · exact absurd h2 h1
      · rw [h2, ParseFloat_empty]

/-- Witness of the amended C8: the price text "650€ 20m²" gives price 650 and area 20. -/
theorem NewFlat_reads_runs_before_first_markers_witness :
    scrape.Find ⟨none, exContainer "650€ 20m²" "a.html" "A"⟩ priceNodeMatcher
      = some ⟨some (exContainer "650€ 20m²" "a.html" "A"), exPriceAnchor "650€ 20m²"⟩ ∧
    scrape.Text ⟨some (exContainer "650€ 20m²" "a.html" "A"), exPriceAnchor "650€ 20m²"⟩
      = "650€ 20m²" ∧
    NewFlat "https://example.org/" ⟨none, exContainer "650€ 20m²" "a.html" "A"⟩
      = .returns (.ok ⟨650, 20, "A", "https://example.org/a.html"⟩) :=
  ⟨rfl, by decide,
    (NewFlat_reads_runs_before_first_markers "https://example.org/"
      ⟨none, exContainer "650€ 20m²" "a.html" "A"⟩
      ⟨some (exContainer "650€ 20m²" "a.html" "A"), exPriceAnchor "650€ 20m²"⟩
      ⟨some (exTitleBlock "a.html" "A"),
        .mk .ElementNode atom.A "a" [⟨"", "class", "detailansicht"⟩, ⟨"", "href", "a.html"⟩]
          [exText "A"]⟩
      rfl rfl (by decide) (by decide) (by decide)).1 (by decide) (by decide)⟩

/-- C9: `parseURL` returns the empty string for an empty link target, the link target
itself when it contains "http", and otherwise `ROOTURL` followed by the link target. The
link target is the value of the first `href` attribute and is empty when there is none. -/
theorem parseURL_resolves (rootURL : String) (n : NodeRef) :
    parseURL rootURL n =
      (if scrape.Attr n.node "href" = "" then ""
       else if "http".data <:+: (scrape.Attr n.node "href").data then scrape.Attr n.node "href"
       else rootURL ++ scrape.Attr n.node "href") ∧
    ((∀ a ∈ n.node.Attr, a.Key ≠ "href") → scrape.Attr n.node "href" = "") ∧
    (∀ (ns val : String) (rest : List Attribute) (t : NodeType) (a : Nat) (d : String)
        (cs : List Node),
      scrape.Attr (.mk t a d (⟨ns, "href", val⟩ :: rest) cs) "href" = val) ∧
    parseURL "https://example.org/"
        ⟨none, .mk .ElementNode atom.A "a" [⟨"", "href", "wg-zimmer-in-Berlin.8.0.1.0.html"⟩] []⟩
      = "https://example.org/wg-zimmer-in-Berlin.8.0.1.0.html" := by
  refine ⟨?_, ?_, ?_, by decide⟩
  · unfold parseURL
    by_cases h1 : scrape.Attr n.node "href" = ""
    · rw [if_pos h1, if_pos h1, h1]
    · rw [if_neg h1, if_neg h1]
      by_cases h2 : strings.Contains (scrape.Attr n.node "href") "http" = true
      · rw [if_pos ((Contains_iff _ _).1 h2)]
        simp [h2]
      · rw [if_neg (fun h => h2 ((Contains_iff _ _).2 h))]
        simp [h2]
  · intro h
    unfold scrape.Attr
    generalize n.node.Attr = attrs at h
    induction attrs with
    | nil => rfl
    | cons a rest ih =>
      have ha : ¬ a.Key = "href" := h a (List.mem_cons_self _ _)
      rw [scrape.attrLoop, if_neg ha]
      exact ih (fun b hb => h b (List.mem_cons_of_mem _ hb))
  · intro ns val rest t a d cs
    simp [scrape.Attr, Node.Attr, scrape.attrLoop]

theorem NewFlat_ok (rootURL : String) (n : NodeRef) (flat : Flat)
    (h : NewFlat rootURL n = .returns (.ok flat)) :
    ∃ priceNode titleNode,
      scrape.Find n priceNodeMatcher = some priceNode ∧
      scrape.Find n titleNodeMatcher = some titleNode ∧
      parsePrice priceNode = .returns (.ok flat.Price) ∧
      parseArea priceNode = .returns (.ok flat.Area) ∧
      flat.Title = scrape.Text titleNode ∧
      flat.URL = parseURL rootURL titleNode := by
  unfold NewFlat at h
  cases hp : scrape.Find n priceNodeMatcher with
  | none => rw [hp] at h; simp at h
  | some priceNode =>
    cases ht : scrape.Find n titleNodeMatcher with
    | none => rw [hp, ht] at h; simp at h
    | some titleNode =>
      rw [hp, ht] at h
      simp only [] at h
      cases hpp : parsePrice priceNode with
      | panics m => rw [hpp] at h; simp at h
      | returns v =>
        cases v with
        | error e => rw [hpp] at h; simp at h
        | ok price =>
          cases hpa : parseArea priceNode with
          | panics m => rw [hpp, hpa] at h; simp at h
          | returns w =>
            cases w with
            | error e => rw [hpp, hpa] at h; simp at h
            | ok area =>
              rw [hpp, hpa] at h
              simp only [Run.returns.injEq, Except.ok.injEq] at h
              subst h
              exact ⟨priceNode, titleNode, rfl, rfl, hpp, hpa, rfl, rfl⟩

/-- C10 fails as stated: a link target that contains "http" in a later position is kept
unchanged, so the URL of the record does not start with "http". -/
theorem NewFlat_url_without_scheme :
    NewFlat ROOTURL ⟨none, exContainer "650€ 20m²" "/go?to=http://x.de" "A"⟩
      = .returns (.ok ⟨650, 20, "A", "/go?to=http://x.de"⟩) ∧
    "/go?to=http://x.de" ≠ "" ∧
    ¬ ("http".data <+: "/go?to=http://x.de".data) := by
  refine ⟨rfl, by decide, by decide⟩

/-- C10, amended: when `NewFlat` succeeds and the title node has a non-empty link target,
the URL of the record contains "http"; it starts with "http" exactly when the link target
starts with "http" or does not contain "http" at all (then `ROOTURL` is put in front). -/
theorem NewFlat_url_contains_http (n titleNode : NodeRef) (flat : Flat)
    (hn : NewFlat ROOTURL n = .returns (.ok flat))
    (ht : scrape.Find n titleNodeMatcher = some titleNode)
    (hh : scrape.Attr titleNode.node "href" ≠ "") :
    "http".data <:+: flat.URL.data ∧
    ("http".data <+: flat.URL.data ↔
      ("http".data <+: (scrape.Attr titleNode.node "href").data ∨
        ¬ "http".data <:+: (scrape.Attr titleNode.node "href").data)) := by
  obtain ⟨_, titleNode2, _, ht2, _, _, _, hurl⟩ := NewFlat_ok ROOTURL n flat hn
  rw [ht] at ht2
  cases ht2
  rw [hurl]
  unfold parseURL
  rw [if_neg hh]
  by_cases hc : strings.Contains (scrape.Attr titleNode.node "href") "http" = true
  · have hi := (Contains_iff _ _).1 hc
    simp only [hc, Bool.not_true, Bool.false_eq_true, if_false]
    refine ⟨hi, ?_⟩
    constructor
    · intro h; exact Or.inl h
    · rintro (h | h)
      · exact h
      · exact absurd hi h
  · have hi : ¬ "http".data <:+: (scrape.Attr titleNode.node "href").data :=
      fun h => hc ((Contains_iff _ _).2 h)
    have hc2 : strings.Contains (scrape.Attr titleNode.node "href") "http" = false := by
      simpa using hc
    simp only [hc2, Bool.not_false, if_true]
    have hpre : "http".data <+: (ROOTURL ++ scrape.Attr titleNode.node "href").data := by
      rw [String.data_append]
      exact ⟨"s://www.wg-gesucht.de/".data ++ (scrape.Attr titleNode.node "href").data, by
        rw [← List.append_assoc]; rfl⟩
    exact ⟨hpre.isInfix, fun _ => Or.inr hi, fun _ => hpre⟩

/-- Witness of the amended C10: the link target "a.html" gets `ROOTURL` in front. -/
theorem NewFlat_url_contains_http_witness :
    NewFlat ROOTURL ⟨none, exContainer "650€ 20m²" "a.html" "A"⟩
      = .returns (.ok ⟨650, 20, "A", "https://www.wg-gesucht.de/a.html"⟩) ∧
    "http".data <:+: "https://www.wg-gesucht.de/a.html".data ∧
    ("http".data <+: "https://www.wg-gesucht.de/a.html".data ↔
      ("http".data <+: "a.html".data ∨ ¬ "http".data <:+: "a.html".data)) :=
  ⟨rfl,
    NewFlat_url_contains_http ⟨none, exContainer "650€ 20m²" "a.html" "A"⟩
      ⟨some (exTitleBlock "a.html" "A"),
        .mk .ElementNode atom.A "a" [⟨"", "class", "detailansicht"⟩, ⟨"", "href", "a.html"⟩]
          [exText "A"]⟩
      ⟨650, 20, "A", "https://www.wg-gesucht.de/a.html"⟩ rfl rfl (by decide)⟩

/-! ## Lemmas: the slice operations of `flatSorter` -/

theorem Swap_eq (data : List Flat) (i j : Nat) (hi : i < data.length) (hj : j < data.length) :
    flatSorter.Swap data i j = (data.set i data[j]).set j data[i] := by
  simp [flatSorter.Swap, List.getElem?_eq_getElem hi, List.getElem?_eq_getElem hj]

theorem Swap_of_not_lt (data : List Flat) (i j : Nat)
    (h : ¬ (i < data.length ∧ j < data.length)) : flatSorter.Swap data i j = data := by
  unfold flatSorter.Swap
  by_cases hi : i < data.length
  · have hj : data.length ≤ j := by omega
    simp [List.getElem?_eq_none hj]
  · have hi2 : data.length ≤ i := by omega
    simp [List.getElem?_eq_none hi2]

theorem Swap_length (data : List Flat) (i j : Nat) :
    (flatSorter.Swap data i j).length = data.length := by
  by_cases h : i < data.length ∧ j < data.length
  · rw [Swap_eq data i j h.1 h.2]; simp
  · rw [Swap_of_not_lt data i j h]

theorem getElem?_Swap (data : List Flat) (i j k : Nat) (hi : i < data.length)
    (hj : j < data.length) :
    (flatSorter.Swap data i j)[k]? =
      if k = j then data[i]? else if k = i then data[j]? else data[k]? := by
  rw [Swap_eq data i j hi hj, List.getElem?_set, List.getElem?_set]
  by_cases h1 : j = k
  · subst h1; simp [hj, List.getElem?_eq_getElem hi]
  · have h1b : ¬ k = j := fun e => h1 e.symm
    by_cases h2 : i = k
    · subst h2; simp [h1, h1b, hi, List.getElem?_eq_getElem hj]
    · have h2b : ¬ k = i := fun e => h2 e.symm
      simp [h1, h2, h1b, h2b]

theorem count_pos_of_getElem (data : List Flat) (i : Nat) (hi : i < data.length) (x : Flat)
    (h : (data[i] == x) = true) : 0 < List.count x data := by
  have : data[i] = x := by simpa using h
  rw [← this]
  exact List.count_pos_iff.2 (List.getElem_mem _)

theorem Swap_perm (data : List Flat) (i j : Nat) : (flatSorter.Swap data i j).Perm data := by
  by_cases h : i < data.length ∧ j < data.length
  · obtain ⟨hi, hj⟩ := h
    rw [Swap_eq data i j hi hj, List.perm_iff_count]
    intro x
    by_cases hij : i = j
    · subst hij
      have : (data.set i data[i]).set i data[i] = data := by
        apply List.ext_getElem?
        intro k
        simp only [List.getElem?_set]
        by_cases hk : i = k
        · subst hk; simp [hi, List.getElem?_eq_getElem hi]
        · simp [hk]
      rw [this]
    · have hj2 : j < (data.set i data[j]).length := by simpa using hj
      rw [List.count_set _ _ _ _ hj2, List.count_set _ _ _ _ hi]
      have hget : (data.set i data[j])[j] = data[j] := by
        rw [List.getElem_set_ne hij]
      rw [hget]
      by_cases hxi : (data[i] == x) = true
      · have h1 := count_pos_of_getElem data i hi x hxi
        by_cases hxj : (data[j] == x) = true
        · simp only [if_pos hxi, if_pos hxj]; omega
        · simp only [if_pos hxi, if_neg hxj]; omega
      · by_cases hxj : (data[j] == x) = true
        · simp only [if_neg hxi, if_pos hxj]; omega
        · simp only [if_neg hxi, if_neg hxj]; omega
  · rw [Swap_of_not_lt data i j h]

theorem priceAt_Swap (data : List Flat) (i j k : Nat) (hi : i < data.length)
    (hj : j < data.length) :
    priceAt (flatSorter.Swap data i j) k =
      if k = j then priceAt data i else if k = i then priceAt data j else priceAt data k := by
  unfold priceAt
  rw [getElem?_Swap data i j k hi hj]
  split_ifs <;> rfl

theorem Less_byPrice (data : List Flat) (i j : Nat) (hi : i < data.length)
    (hj : j < data.length) :
    flatSorter.Less byPrice data i j = true ↔ priceAt data i < priceAt data j := by
  simp [flatSorter.Less, priceAt, List.getElem?_eq_getElem hi, List.getElem?_eq_getElem hj,
    byPrice]

theorem Less_byPrice_false (data : List Flat) (i j : Nat) (hi : i < data.length)
    (hj : j < data.length) :
    flatSorter.Less byPrice data i j = false ↔ priceAt data j ≤ priceAt data i := by
  rw [← not_lt, ← Less_byPrice data i j hi hj]
  simp

theorem Moved_refl (a b : Nat) (data : List Flat) : Moved a b data data :=
  ⟨List.Perm.refl _, fun _ _ => rfl, fun k h1 h2 => ⟨k, h1, h2, rfl⟩⟩

theorem Moved_trans {a b : Nat} {d1 d2 d3 : List Flat} (h12 : Moved a b d1 d2)
    (h23 : Moved a b d2 d3) : Moved a b d1 d3 := by
  refine ⟨h23.perm.trans h12.perm, ?_, ?_⟩
  · intro k hk
    rw [h23.frame k hk, h12.frame k hk]
  · intro k h1 h2
    obtain ⟨k2, h3, h4, e1⟩ := h23.inside k h1 h2
    obtain ⟨k3, h5, h6, e2⟩ := h12.inside k2 h3 h4
    exact ⟨k3, h5, h6, e1.trans e2⟩

theorem Moved_mono {a b a2 b2 : Nat} {d1 d2 : List Flat} (h : Moved a b d1 d2)
    (ha : a2 ≤ a) (hb : b ≤ b2) : Moved a2 b2 d1 d2 := by
  refine ⟨h.perm, ?_, ?_⟩
  · intro k hk
    exact h.frame k (by omega)
  · intro k h1 h2
    by_cases hk : a ≤ k ∧ k < b
    · obtain ⟨k2, h3, h4, e⟩ := h.inside k hk.1 hk.2
      exact ⟨k2, by omega, by omega, e⟩
    · exact ⟨k, h1, h2, h.frame k (by omega)⟩

theorem Moved_length {a b : Nat} {d1 d2 : List Flat} (h : Moved a b d1 d2) :
    d2.length = d1.length := h.perm.length_eq

theorem Moved_swap (a b : Nat) (data : List Flat) (i j : Nat) (hi : a ≤ i ∧ i < b)
    (hj : a ≤ j ∧ j < b) (hb : b ≤ data.length) :
    Moved a b data (flatSorter.Swap data i j) := by
  have hil : i < data.length := by omega
  have hjl : j < data.length := by omega
  refine ⟨Swap_perm data i j, ?_, ?_⟩
  · intro k hk
    rw [getElem?_Swap data i j k hil hjl, if_neg (by omega), if_neg (by omega)]
  · intro k h1 h2
    rw [getElem?_Swap data i j k hil hjl]
    by_cases hkj : k = j
    · exact ⟨i, hi.1, hi.2, by rw [if_pos hkj]⟩
    · by_cases hki : k = i
      · exact ⟨j, hj.1, hj.2, by rw [if_neg hkj, if_pos hki]⟩
      · exact ⟨k, h1, h2, by rw [if_neg hkj, if_neg hki]⟩

theorem Moved_step {a b : Nat} {d1 d2 : List Flat} (h : Moved a b d1 d2) (i j : Nat)
    (hi : a ≤ i ∧ i < b) (hj : a ≤ j ∧ j < b) (hb : b ≤ d1.length) :
    Moved a b d1 (flatSorter.Swap d2 i j) :=
  Moved_trans h (Moved_swap a b d2 i j hi hj (by rw [Moved_length h]; exact hb))

theorem Moved_priceAt_frame {a b : Nat} {d1 d2 : List Flat} (h : Moved a b d1 d2) (k : Nat)
    (hk : k < a ∨ b ≤ k) : priceAt d2 k = priceAt d1 k := by
  unfold priceAt
  rw [h.frame k hk]

theorem Moved_forall_price {a b : Nat} {d1 d2 : List Flat} (h : Moved a b d1 d2)
    (P : ℚ → Prop) (hP : ∀ k, a ≤ k → k < b → P (priceAt d1 k)) :
    ∀ k, a ≤ k → k < b → P (priceAt d2 k) := by
  intro k h1 h2
  obtain ⟨k2, h3, h4, e⟩ := h.inside k h1 h2
  have : priceAt d2 k = priceAt d1 k2 := by unfold priceAt; rw [e]
  rw [this]
  exact hP k2 h3 h4

theorem priceAt_Swap_fst (data : List Flat) (i j : Nat) (hi : i < data.length)
    (hj : j < data.length) : priceAt (flatSorter.Swap data i j) i = priceAt data j := by
  rw [priceAt_Swap data i j i hi hj]
  by_cases h : i = j
  · rw [if_pos h, h]
  · rw [if_neg h, if_pos rfl]

theorem priceAt_Swap_snd (data : List Flat) (i j : Nat) (hi : i < data.length)
    (hj : j < data.length) : priceAt (flatSorter.Swap data i j) j = priceAt data i := by
  rw [priceAt_Swap data i j j hi hj, if_pos rfl]

theorem priceAt_Swap_other (data : List Flat) (i j k : Nat) (hki : k ≠ i) (hkj : k ≠ j) :
    priceAt (flatSorter.Swap data i j) k = priceAt data k := by
  by_cases h : i < data.length ∧ j < data.length
  · rw [priceAt_Swap data i j k h.1 h.2, if_neg hkj, if_neg hki]
  · rw [Swap_of_not_lt data i j h]

/-! ## Lemmas: insertion sort -/

theorem insertionSort_inner_spec (a i : Nat) :
    ∀ (k : Nat) (data : List Flat), a + k ≤ i → i < data.length →
      (∀ x, a ≤ x → x + 1 ≤ i → x + 1 ≠ a + k → priceAt data x ≤ priceAt data (x + 1)) →
      (0 < k → a + k < i → priceAt data (a + k - 1) ≤ priceAt data (a + k + 1)) →
      Moved a (i + 1) data (sort.insertionSort.inner byPrice a k data) ∧
        SortedOn (sort.insertionSort.inner byPrice a k data) a (i + 1) := by
  intro k
  induction k with
  | zero =>
    intro data _ _ hA _
    exact ⟨Moved_refl _ _ _, fun x hx hx1 => hA x hx (by omega) (by omega)⟩
  | succ k ih =>
    intro data hk hi hA hB
    rw [sort.insertionSort.inner]
    have hj1 : a + k + 1 < data.length := by omega
    have hj0 : a + k < data.length := by omega
    by_cases hless : flatSorter.Less byPrice data (a + k + 1) (a + k) = true
    · rw [if_pos hless]
      have hlt := (Less_byPrice data _ _ hj1 hj0).1 hless
      have e1 := priceAt_Swap_fst data (a + k + 1) (a + k) hj1 hj0
      have e0 := priceAt_Swap_snd data (a + k + 1) (a + k) hj1 hj0
      have eo := priceAt_Swap_other data (a + k + 1) (a + k)
      have hm : Moved a (i + 1) data (flatSorter.Swap data (a + k + 1) (a + k)) :=
        Moved_swap a (i + 1) data _ _ (by omega) (by omega) (by omega)
      have := ih (flatSorter.Swap data (a + k + 1) (a + k)) (by omega)
        (by rw [Swap_length]; exact hi)
        (by
          intro x hx hxi hxk
          rcases Nat.lt_trichotomy x (a + k) with h | h | h
          · rw [eo x (by omega) (by omega), eo (x + 1) (by omega) (by omega)]
            exact hA x hx hxi (by omega)
          · subst h
            rw [e0, e1]; exact le_of_lt hlt
          · rcases Nat.lt_or_ge (a + k + 1) x with h2 | h2
            · rw [eo x (by omega) (by omega), eo (x + 1) (by omega) (by omega)]
              exact hA x hx hxi (by omega)
            · have hx2 : x = a + k + 1 := by omega
              subst hx2
              rw [e1, eo (a + k + 1 + 1) (by omega) (by omega)]
              have := hB (by omega) (by omega)
              simpa using this)
        (by
          intro hk0 _
          have h1 : a + k - 1 + 1 = a + k := by omega
          rw [eo (a + k - 1) (by omega) (by omega), e1]
          have := hA (a + k - 1) (by omega) (by omega) (by omega)
          rw [h1] at this
          exact this)
      exact ⟨Moved_trans hm this.1, this.2⟩
    · rw [if_neg hless]
      have hle := (Less_byPrice_false data _ _ hj1 hj0).1 (by simpa using hless)
      refine ⟨Moved_refl _ _ _, ?_⟩
      intro x hx hxi
      by_cases hxk : x + 1 = a + (k + 1)
      · have : x = a + k := by omega
        subst this
        exact hle
      · exact hA x hx (by omega) hxk

theorem insertionSort_outer_spec (a b : Nat) :
    ∀ (count i : Nat) (data : List Flat), a < i → i + count = b → b ≤ data.length →
      SortedOn data a i →
      Moved a b data (sort.insertionSort.outer byPrice a count i data) ∧
        SortedOn (sort.insertionSort.outer byPrice a count i data) a b := by
  intro count
  induction count with
  | zero =>
    intro i data _ hb _ hs
    have : i = b := by omega
    subst this
    exact ⟨Moved_refl _ _ _, hs⟩
  | succ count ih =>
    intro i data hai hb hlen hs
    rw [sort.insertionSort.outer]
    have h1 := insertionSort_inner_spec a i (i - a) data (by omega) (by omega)
      (by
        intro x hx hxi hne
        exact hs x hx (by omega))
      (by intro _ h; omega)
    have h2 := ih (i + 1) (sort.insertionSort.inner byPrice a (i - a) data) (by omega)
      (by omega) (by rw [Moved_length h1.1]; exact hlen) h1.2
    exact ⟨Moved_trans (Moved_mono h1.1 (le_refl _) (by omega)) h2.1, h2.2⟩

theorem sortedOn_of_le (data : List Flat) (a b : Nat) (h : b ≤ a + 1) : SortedOn data a b := by
  intro i h1 h2
  omega

theorem insertionSort_spec (data : List Flat) (a b : Nat) (hb : b ≤ data.length) :
    Moved a b data (sort.insertionSort byPrice data a b) ∧
      SortedOn (sort.insertionSort byPrice data a b) a b := by
  unfold sort.insertionSort
  by_cases h : a + 1 ≤ b
  · exact insertionSort_outer_spec a b (b - (a + 1)) (a + 1) data (by omega) (by omega) hb
      (sortedOn_of_le _ _ _ (by omega))
  · have : b - (a + 1) = 0 := by omega
    rw [this, sort.insertionSort.outer]
    exact ⟨Moved_refl _ _ _, sortedOn_of_le _ _ _ (by omega)⟩

/-! ## Lemmas: insertion sort keeps the order of records of equal price -/

theorem Swap_cons_succ (x : Flat) (rest : List Flat) (i j : Nat) :
    flatSorter.Swap (x :: rest) (i + 1) (j + 1) = x :: flatSorter.Swap rest i j := by
  unfold flatSorter.Swap
  simp only [List.getElem?_cons_succ]
  cases rest[i]? with
  | none => rfl
  | some fi =>
    cases rest[j]? with
    | none => rfl
    | some fj => rfl

theorem priceAt_cons_succ (x : Flat) (rest : List Flat) (i : Nat) :
    priceAt (x :: rest) (i + 1) = priceAt rest i := by
  unfold priceAt
  rw [List.getElem?_cons_succ]

theorem Swap_adjacent_filter (p : ℚ) :
    ∀ (j : Nat) (data : List Flat), j + 1 < data.length →
      priceAt data (j + 1) ≠ priceAt data j →
      (flatSorter.Swap data (j + 1) j).filter (fun f => f.Price = p)
        = data.filter (fun f => f.Price = p) := by
  intro j
  induction j with
  | zero =>
    intro data hlen hne
    match data, hlen with
    | x :: y :: rest, _ =>
      have hxy : y.Price ≠ x.Price := by simpa [priceAt] using hne
      have hsw : flatSorter.Swap (x :: y :: rest) 1 0 = y :: x :: rest := by
        simp [flatSorter.Swap]
      rw [hsw]
      by_cases hx : x.Price = p
      · have hy : ¬ y.Price = p := fun h => hxy (h.trans hx.symm)
        simp [List.filter_cons, hx, hy]
      · simp [List.filter_cons, hx]
  | succ j ih =>
    intro data hlen hne
    match data, hlen with
    | x :: rest, hlen =>
      rw [Swap_cons_succ]
      rw [priceAt_cons_succ, priceAt_cons_succ] at hne
      have := ih rest (by simpa using hlen) hne
      simp only [List.filter_cons, this]

theorem Less_lt_length (by_ : Flat → Flat → Bool) (data : List Flat) (i j : Nat)
    (h : flatSorter.Less by_ data i j = true) : i < data.length ∧ j < data.length := by
  unfold flatSorter.Less at h
  by_cases hi : i < data.length
  · by_cases hj : j < data.length
    · exact ⟨hi, hj⟩
    · rw [List.getElem?_eq_none (by omega : data.length ≤ j)] at h
      cases hh : data[i]? <;> rw [hh] at h <;> simp at h
  · rw [List.getElem?_eq_none (by omega : data.length ≤ i)] at h
    simp at h

theorem sameOrder_refl (data : List Flat) : SameOrderOfEqualPrices data data :=
  fun _ => rfl

theorem sameOrder_trans {d1 d2 d3 : List Flat}
    (h12 : SameOrderOfEqualPrices d1 d2) (h23 : SameOrderOfEqualPrices d2 d3) :
    SameOrderOfEqualPrices d1 d3 :=
  fun p => (h23 p).trans (h12 p)

theorem insertionSort_inner_stable (a : Nat) :
    ∀ (k : Nat) (data : List Flat),
      SameOrderOfEqualPrices data (sort.insertionSort.inner byPrice a k data) := by
  intro k
  induction k with
  | zero => intro data; exact sameOrder_refl _
  | succ k ih =>
    intro data
    rw [sort.insertionSort.inner]
    by_cases hless : flatSorter.Less byPrice data (a + k + 1) (a + k) = true
    · rw [if_pos hless]
      obtain ⟨h1, h0⟩ := Less_lt_length _ _ _ _ hless
      have hlt := (Less_byPrice data _ _ h1 h0).1 hless
      have hstep : SameOrderOfEqualPrices data (flatSorter.Swap data (a + k + 1) (a + k)) :=
        fun p => Swap_adjacent_filter p (a + k) data h1 (ne_of_lt hlt)
      exact sameOrder_trans hstep (ih _)
    · rw [if_neg hless]
      exact sameOrder_refl _

theorem insertionSort_outer_stable (a : Nat) :
    ∀ (count i : Nat) (data : List Flat),
      SameOrderOfEqualPrices data (sort.insertionSort.outer byPrice a count i data) := by
  intro count
  induction count with
  | zero => intro i data; exact sameOrder_refl _
  | succ count ih =>
    intro i data
    rw [sort.insertionSort.outer]
    exact sameOrder_trans (insertionSort_inner_stable a (i - a) data) (ih _ _)

theorem insertionSort_stable (data : List Flat) (a b : Nat) :
    SameOrderOfEqualPrices data (sort.insertionSort byPrice data a b) :=
  insertionSort_outer_stable a _ _ data

theorem pdqsort_short (next : Nat → Nat) (by_ : Flat → Flat → Bool) (fuel : Nat)
    (data : List Flat) (a b limit : Nat) (wasBalanced wasPartitioned : Bool)
    (hfuel : 0 < fuel) (h : b - a ≤ 12) :
    sort.pdqsort next by_ fuel data a b limit wasBalanced wasPartitioned
      = sort.insertionSort by_ data a b := by
  cases fuel with
  | zero => omega
  | succ f => rw [sort.pdqsort, if_pos h]

theorem Sort_short (next : Nat → Nat) (by_ : Flat → Flat → Bool) (flats : List Flat)
    (h : flats.length ≤ 12) :
    By.Sort next by_ flats = sort.insertionSort by_ flats 0 flats.length := by
  unfold By.Sort sort.Sort flatSorter.Len
  by_cases h1 : flats.length ≤ 1
  · rw [if_pos h1]
    unfold sort.insertionSort
    have : flats.length - (0 + 1) = 0 := by omega
    rw [this, sort.insertionSort.outer]
  · rw [if_neg h1, pdqsort_short _ _ _ _ _ _ _ _ _ (by omega) (by omega)]

/-- C4 fails as stated: of thirteen records, `By.Sort` puts the record "second" of price 300
before the record "first" of price 300, which came first in the input; `partition` swaps
the first record with the pivot in the middle and so carries it over the second. This does
not depend on the generator of `breakPatterns`. -/
theorem Sort_reorders_equal_prices :
    (∀ next : Nat → Nat,
      By.Sort next byPrice exThirteen
        = [⟨100, 20, "c", "u3"⟩, ⟨110, 20, "d", "u4"⟩, ⟨120, 20, "e", "u5"⟩,
           ⟨130, 20, "f", "u6"⟩, ⟨140, 20, "g", "u7"⟩, ⟨150, 20, "h", "u8"⟩,
           ⟨160, 20, "i", "u9"⟩, ⟨170, 20, "j", "u10"⟩, ⟨180, 20, "k", "u11"⟩,
           ⟨190, 20, "l", "u12"⟩, ⟨200, 20, "m", "u13"⟩, ⟨300, 20, "second", "u2"⟩,
           ⟨300, 20, "first", "u1"⟩]) ∧
    (∀ next : Nat → Nat,
      (By.Sort next byPrice exThirteen).filter (fun f => f.Price = 300)
        = [⟨300, 20, "second", "u2"⟩, ⟨300, 20, "first", "u1"⟩]) ∧
    exThirteen.filter (fun f => f.Price = 300)
      = [⟨300, 20, "first", "u1"⟩, ⟨300, 20, "second", "u2"⟩] := by
  have hcp : sort.choosePivot byPrice exThirteen 0 13 = (6, .increasingHint) := by decide
  have hpi : sort.partialInsertionSort byPrice exThirteen 0 13 = (exThirteen, false) := by
    decide
  have hpt : sort.partition byPrice exThirteen 0 13 6 =
      ([⟨120, 20, "e", "u5"⟩, ⟨130, 20, "f", "u6"⟩, ⟨100, 20, "c", "u3"⟩,
        ⟨110, 20, "d", "u4"⟩, ⟨140, 20, "g", "u7"⟩, ⟨300, 20, "second", "u2"⟩,
        ⟨300, 20, "first", "u1"⟩, ⟨150, 20, "h", "u8"⟩, ⟨160, 20, "i", "u9"⟩,
        ⟨170, 20, "j", "u10"⟩, ⟨180, 20, "k", "u11"⟩, ⟨190, 20, "l", "u12"⟩,
        ⟨200, 20, "m", "u13"⟩], 4, false) := by decide
  have hsort : ∀ next : Nat → Nat,
      By.Sort next byPrice exThirteen
        = [⟨100, 20, "c", "u3"⟩, ⟨110, 20, "d", "u4"⟩, ⟨120, 20, "e", "u5"⟩,
           ⟨130, 20, "f", "u6"⟩, ⟨140, 20, "g", "u7"⟩, ⟨150, 20, "h", "u8"⟩,
           ⟨160, 20, "i", "u9"⟩, ⟨170, 20, "j", "u10"⟩, ⟨180, 20, "k", "u11"⟩,
           ⟨190, 20, "l", "u12"⟩, ⟨200, 20, "m", "u13"⟩, ⟨300, 20, "second", "u2"⟩,
           ⟨300, 20, "first", "u1"⟩] := by
    intro next
    have hlen : flatSorter.Len exThirteen = 13 := rfl
    unfold By.Sort sort.Sort
    rw [hlen, if_neg (by decide), sort.pdqsort, if_neg (by decide)]
    have hlimit : bits.Len 13 = 4 := by decide
    rw [hlimit, if_neg (by decide)]
    simp only [Bool.not_true, Bool.false_eq_true, if_false, hcp, Bool.and_self,
      decide_True, if_true, hpi, hpt, reduceCtorEq, decide_False, Bool.and_true]
    rw [if_neg (by decide), if_pos (by decide),
      pdqsort_short next byPrice 13 _ 0 4 4 true true (by decide) (by decide),
      pdqsort_short next byPrice 13 _ (4 + 1) 13 4 _ false (by decide) (by decide)]
    decide
  refine ⟨hsort, ?_, by decide⟩
  intro next
  rw [hsort next]
  decide

/-- C4, amended: on at most 12 records `By.Sort` runs the insertion sort of `sort.Sort`,
which only swaps neighbours of different price: for every price, the records of that price
are in the same order after the sort as before. -/
theorem Sort_stable_up_to_twelve (next : Nat → Nat) (flats : List Flat)
    (h : flats.length ≤ 12) :
    SameOrderOfEqualPrices flats (By.Sort next byPrice flats) := by
  rw [Sort_short next byPrice flats h]
  exact insertionSort_stable flats 0 flats.length

/-- Witness of the amended C4: prices 300, 300, 100; the two records of price 300 keep their order. -/
theorem Sort_stable_up_to_twelve_witness :
    By.Sort (fun r => r) byPrice
        [⟨300, 20, "first", "u1"⟩, ⟨300, 25, "second", "u2"⟩, ⟨100, 10, "third", "u3"⟩]
      = [⟨100, 10, "third", "u3"⟩, ⟨300, 20, "first", "u1"⟩, ⟨300, 25, "second", "u2"⟩] ∧
    SameOrderOfEqualPrices
      [⟨300, 20, "first", "u1"⟩, ⟨300, 25, "second", "u2"⟩, ⟨100, 10, "third", "u3"⟩]
      (By.Sort (fun r => r) byPrice
        [⟨300, 20, "first", "u1"⟩, ⟨300, 25, "second", "u2"⟩, ⟨100, 10, "third", "u3"⟩]) :=
  ⟨by decide, Sort_stable_up_to_twelve (fun r => r)
    [⟨300, 20, "first", "u1"⟩, ⟨300, 25, "second", "u2"⟩, ⟨100, 10, "third", "u3"⟩]
    (by decide)⟩

/-! ## Lemmas: `partition` -/

theorem partition_up_spec (data : List Flat) (a j : Nat) (hj : j < data.length)
    (ha : a < data.length) :
    ∀ (fuel i : Nat), a < i → i ≤ j + 1 → j + 1 - i ≤ fuel →
      (∀ x, a < x → x < i → priceAt data x < priceAt data a) →
      i ≤ sort.partition.up byPrice data a j fuel i ∧
        sort.partition.up byPrice data a j fuel i ≤ j + 1 ∧
        (∀ x, a < x → x < sort.partition.up byPrice data a j fuel i →
          priceAt data x < priceAt data a) ∧
        (sort.partition.up byPrice data a j fuel i ≤ j →
          priceAt data a ≤ priceAt data (sort.partition.up byPrice data a j fuel i)) := by
  intro fuel
  induction fuel with
  | zero =>
    intro i _ h2 h3 h4
    rw [sort.partition.up]
    exact ⟨le_refl _, h2, h4, fun h => by omega⟩
  | succ fuel ih =>
    intro i h1 h2 h3 h4
    rw [sort.partition.up]
    by_cases hc : (decide (i ≤ j) && flatSorter.Less byPrice data i a) = true
    · rw [if_pos hc]
      rw [Bool.and_eq_true, decide_eq_true_eq] at hc
      have hlt := (Less_byPrice data i a (by omega) ha).1 hc.2
      have := ih (i + 1) (by omega) (by omega) (by omega) (by
        intro x hx1 hx2
        by_cases hxi : x = i
        · subst hxi; exact hlt
        · exact h4 x hx1 (by omega))
      exact ⟨by omega, this.2⟩
    · rw [if_neg hc]
      refine ⟨le_refl _, h2, h4, ?_⟩
      intro hij
      have : flatSorter.Less byPrice data i a = false := by
        rw [Bool.and_eq_true, decide_eq_true_eq] at hc
        by_contra hn
        exact hc ⟨hij, by simpa using hn⟩
      exact (Less_byPrice_false data i a (by omega) ha).1 this

theorem partition_down_spec (data : List Flat) (a i b : Nat) (hb : b ≤ data.length)
    (ha : a < data.length) (hai : a < i) :
    ∀ (fuel j : Nat), j < b → i ≤ j + 1 → j + 1 - i ≤ fuel →
      (∀ x, j < x → x < b → priceAt data a ≤ priceAt data x) →
      sort.partition.down byPrice data a i fuel j ≤ j ∧
        i ≤ sort.partition.down byPrice data a i fuel j + 1 ∧
        (∀ x, sort.partition.down byPrice data a i fuel j < x → x < b →
          priceAt data a ≤ priceAt data x) ∧
        (i ≤ sort.partition.down byPrice data a i fuel j →
          priceAt data (sort.partition.down byPrice data a i fuel j) < priceAt data a) := by
  intro fuel
  induction fuel with
  | zero =>
    intro j _ h2 h3 h4
    rw [sort.partition.down]
    exact ⟨le_refl _, h2, h4, fun h => by omega⟩
  | succ fuel ih =>
    intro j h1 h2 h3 h4
    rw [sort.partition.down]
    by_cases hc : (decide (i ≤ j) && !flatSorter.Less byPrice data j a) = true
    · rw [if_pos hc]
      rw [Bool.and_eq_true, decide_eq_true_eq] at hc
      have hle := (Less_byPrice_false data j a (by omega) ha).1 (by simpa using hc.2)
      have := ih (j - 1) (by omega) (by omega) (by omega) (by
        intro x hx1 hx2
        by_cases hxj : x = j
        · subst hxj; exact hle
        · exact h4 x (by omega) hx2)
      exact ⟨by omega, this.2⟩
    · rw [if_neg hc]
      refine ⟨le_refl _, h2, h4, ?_⟩
      intro hij
      have : flatSorter.Less byPrice data j a = true := by
        rw [Bool.and_eq_true, decide_eq_true_eq] at hc
        by_contra hn
        exact hc ⟨hij, by simpa using hn⟩
      exact (Less_byPrice data j a (by omega) ha).1 this

theorem partition_loop_spec (a b : Nat) :
    ∀ (fuel : Nat) (data : List Flat) (i j : Nat), a < i → j < b → b ≤ data.length →
      i ≤ j + 1 → j + 1 - i ≤ fuel →
      (∀ x, a < x → x < i → priceAt data x < priceAt data a) →
      (∀ x, j < x → x < b → priceAt data a ≤ priceAt data x) →
      Moved (a + 1) b data (sort.partition.loop byPrice a fuel data i j).1 ∧
        a ≤ (sort.partition.loop byPrice a fuel data i j).2 ∧
        (sort.partition.loop byPrice a fuel data i j).2 < b ∧
        (∀ x, a < x → x ≤ (sort.partition.loop byPrice a fuel data i j).2 →
          priceAt (sort.partition.loop byPrice a fuel data i j).1 x < priceAt data a) ∧
        (∀ x, (sort.partition.loop byPrice a fuel data i j).2 < x → x < b →
          priceAt data a ≤ priceAt (sort.partition.loop byPrice a fuel data i j).1 x) := by
  intro fuel
  induction fuel with
  | zero =>
    intro data i j h1 h2 _ h4 h5 h6 h7
    rw [sort.partition.loop]
    exact ⟨Moved_refl _ _ _, by omega, h2, fun x hx1 hx2 => h6 x hx1 (by omega), h7⟩
  | succ fuel ih =>
    intro data i j h1 h2 h3 h4 h5 h6 h7
    rw [sort.partition.loop]
    have hup := partition_up_spec data a j (by omega) (by omega) (j + 1 - i) i h1 h4
      (le_refl _) h6
    generalize sort.partition.up byPrice data a j (j + 1 - i) i = i2 at hup ⊢
    obtain ⟨hu1, hu2, hu3, hu4⟩ := hup
    have hdown := partition_down_spec data a i2 b h3 (by omega) (by omega) (j + 1 - i2) j h2
      hu2 (le_refl _) h7
    generalize sort.partition.down byPrice data a i2 (j + 1 - i2) j = j2 at hdown ⊢
    obtain ⟨hd1, hd2, hd3, hd4⟩ := hdown
    by_cases hgt : i2 > j2
    · rw [if_pos hgt]
      exact ⟨Moved_refl _ _ _, by omega, by omega, fun x hx1 hx2 => hu3 x hx1 (by omega), hd3⟩
    · rw [if_neg hgt]
      have hij : i2 ≤ j2 := by omega
      have hpi := hu4 (by omega)
      have hpj := hd4 hij
      have hne : i2 ≠ j2 := by
        intro e
        rw [e] at hpi
        exact absurd hpj (not_lt.2 hpi)
      have hi2 : i2 < data.length := by omega
      have hj2 : j2 < data.length := by omega
      have e1 := priceAt_Swap_fst data i2 j2 hi2 hj2
      have e2 := priceAt_Swap_snd data i2 j2 hi2 hj2
      have eo := priceAt_Swap_other data i2 j2
      have hm : Moved (a + 1) b data (flatSorter.Swap data i2 j2) :=
        Moved_swap (a + 1) b data i2 j2 (by omega) (by omega) h3
      have ha2 : priceAt (flatSorter.Swap data i2 j2) a = priceAt data a :=
        eo a (by omega) (by omega)
      have := ih (flatSorter.Swap data i2 j2) (i2 + 1) (j2 - 1) (by omega) (by omega)
        (by rw [Swap_length]; exact h3) (by omega) (by omega)
        (by
          intro x hx1 hx2
          rw [ha2]
          by_cases hx : x = i2
          · subst hx; rw [e1]; exact hpj
          · rw [eo x hx (by omega)]; exact hu3 x hx1 (by omega))
        (by
          intro x hx1 hx2
          rw [ha2]
          by_cases hx : x = j2
          · subst hx; rw [e2]; exact hpi
          · rw [eo x (by omega) hx]; exact hd3 x (by omega) hx2)
      rw [ha2] at this
      exact ⟨Moved_trans hm this.1, this.2⟩

theorem partition_spec (data : List Flat) (a b pivot : Nat) (hab : a < b)
    (hb : b ≤ data.length) (hp : a ≤ pivot ∧ pivot < b) :
    Moved a b data (sort.partition byPrice data a b pivot).1 ∧
      a ≤ (sort.partition byPrice data a b pivot).2.1 ∧
      (sort.partition byPrice data a b pivot).2.1 < b ∧
      (∀ x, a ≤ x → x < (sort.partition byPrice data a b pivot).2.1 →
        priceAt (sort.partition byPrice data a b pivot).1 x <
          priceAt (sort.partition byPrice data a b pivot).1
            (sort.partition byPrice data a b pivot).2.1) ∧
      (∀ x, (sort.partition byPrice data a b pivot).2.1 < x → x < b →
        priceAt (sort.partition byPrice data a b pivot).1
            (sort.partition byPrice data a b pivot).2.1 ≤
          priceAt (sort.partition byPrice data a b pivot).1 x) := by
  unfold sort.partition
  simp only []
  have hm1 : Moved a b data (flatSorter.Swap data a pivot) :=
    Moved_swap a b data a pivot (by omega) hp hb
  have hlen1 : b ≤ (flatSorter.Swap data a pivot).length := by rw [Swap_length]; exact hb
  generalize flatSorter.Swap data a pivot = data1 at hm1 hlen1 ⊢
  have hup := partition_up_spec data1 a (b - 1) (by omega) (by omega)
    (b - 1 + 1 - (a + 1)) (a + 1) (by omega) (by omega) (le_refl _)
    (fun x hx1 hx2 => by omega)
  generalize sort.partition.up byPrice data1 a (b - 1) (b - 1 + 1 - (a + 1)) (a + 1) = i at hup ⊢
  obtain ⟨hu1, hu2, hu3, hu4⟩ := hup
  have hdown := partition_down_spec data1 a i b hlen1 (by omega) (by omega)
    (b - 1 + 1 - i) (b - 1) (by omega) hu2 (le_refl _) (fun x hx1 hx2 => by omega)
  generalize sort.partition.down byPrice data1 a i (b - 1 + 1 - i) (b - 1) = j at hdown ⊢
  obtain ⟨hd1, hd2, hd3, hd4⟩ := hdown
  -- the last step of both branches: the pivot goes from `a` to its place `j`
  have final : ∀ (d : List Flat) (j : Nat), Moved (a + 1) b data1 d → a ≤ j → j < b →
      (∀ x, a < x → x ≤ j → priceAt d x < priceAt data1 a) →
      (∀ x, j < x → x < b → priceAt data1 a ≤ priceAt d x) →
      Moved a b data (flatSorter.Swap d j a) ∧
        (∀ x, a ≤ x → x < j → priceAt (flatSorter.Swap d j a) x <
          priceAt (flatSorter.Swap d j a) j) ∧
        (∀ x, j < x → x < b → priceAt (flatSorter.Swap d j a) j ≤
          priceAt (flatSorter.Swap d j a) x) := by
    intro d j hm hj1 hj2 hlo hhi
    have hdl : d.length = data1.length := Moved_length hm
    have hda : priceAt d a = priceAt data1 a := Moved_priceAt_frame hm a (by omega)
    have e1 := priceAt_Swap_fst d j a (by omega) (by omega)
    have e2 := priceAt_Swap_snd d j a (by omega) (by omega)
    have eo := priceAt_Swap_other d j a
    refine ⟨Moved_trans hm1 (Moved_trans (Moved_mono hm (by omega) (le_refl _))
      (Moved_swap a b d j a (by omega) (by omega) (by omega))), ?_, ?_⟩
    · intro x hx1 hx2
      rw [e1, hda]
      by_cases hxa : x = a
      · subst hxa; rw [e2]; exact hlo j (by omega) (le_refl _)
      · rw [eo x (by omega) hxa]; exact hlo x (by omega) (by omega)
    · intro x hx1 hx2
      rw [e1, hda, eo x (by omega) (by omega)]
      exact hhi x hx1 hx2
  by_cases hgt : i > j
  · rw [if_pos hgt]
    dsimp only
    have := final data1 j (Moved_refl _ _ _) (by omega) (by omega)
      (fun x hx1 hx2 => hu3 x hx1 (by omega)) hd3
    exact ⟨this.1, by omega, by omega, this.2⟩
  · rw [if_neg hgt]
    have hij : i ≤ j := by omega
    have hpi := hu4 (by omega)
    have hpj := hd4 hij
    have hne : i ≠ j := by
      intro e
      rw [e] at hpi
      exact absurd hpj (not_lt.2 hpi)
    have e1 := priceAt_Swap_fst data1 i j (by omega) (by omega)
    have e2 := priceAt_Swap_snd data1 i j (by omega) (by omega)
    have eo := priceAt_Swap_other data1 i j
    have hm : Moved (a + 1) b data1 (flatSorter.Swap data1 i j) :=
      Moved_swap (a + 1) b data1 i j (by omega) (by omega) hlen1
    have ha2 : priceAt (flatSorter.Swap data1 i j) a = priceAt data1 a :=
      eo a (by omega) (by omega)
    have hloop := partition_loop_spec a b (b - a) (flatSorter.Swap data1 i j) (i + 1) (j - 1)
      (by omega) (by omega) (by rw [Swap_length]; exact hlen1) (by omega) (by omega)
      (by
        intro x hx1 hx2
        rw [ha2]
        by_cases hx : x = i
        · subst hx; rw [e1]; exact hpj
        · rw [eo x hx (by omega)]; exact hu3 x hx1 (by omega))
      (by
        intro x hx1 hx2
        rw [ha2]
        by_cases hx : x = j
        · subst hx; rw [e2]; exact hpi
        · rw [eo x (by omega) hx]; exact hd3 x (by omega) hx2)
    rw [ha2] at hloop
    generalize sort.partition.loop byPrice a (b - a) (flatSorter.Swap data1 i j) (i + 1) (j - 1)
      = r at hloop ⊢
    obtain ⟨hl1, hl2, hl3, hl4, hl5⟩ := hloop
    dsimp only
    have := final r.1 r.2 (Moved_trans hm hl1) hl2 hl3 hl4 hl5
    exact ⟨this.1, hl2, hl3, this.2⟩

/-! ## Lemmas: `partitionEqual` -/

theorem partitionEqual_up_spec (data : List Flat) (a j : Nat) (hj : j < data.length)
    (ha : a < data.length) :
    ∀ (fuel i : Nat), a < i → i ≤ j + 1 → j + 1 - i ≤ fuel →
      (∀ x, a < x → x < i → priceAt data x ≤ priceAt data a) →
      i ≤ sort.partitionEqual.up byPrice data a j fuel i ∧
        sort.partitionEqual.up byPrice data a j fuel i ≤ j + 1 ∧
        (∀ x, a < x → x < sort.partitionEqual.up byPrice data a j fuel i →
          priceAt data x ≤ priceAt data a) ∧
        (sort.partitionEqual.up byPrice data a j fuel i ≤ j →
          priceAt data a < priceAt data (sort.partitionEqual.up byPrice data a j fuel i)) := by
  intro fuel
  induction fuel with
  | zero =>
    intro i _ h2 h3 h4
    rw [sort.partitionEqual.up]
    exact ⟨le_refl _, h2, h4, fun h => by omega⟩
  | succ fuel ih =>
    intro i h1 h2 h3 h4
    rw [sort.partitionEqual.up]
    by_cases hc : (decide (i ≤ j) && !flatSorter.Less byPrice data a i) = true
    · rw [if_pos hc]
      rw [Bool.and_eq_true, decide_eq_true_eq] at hc
      have hle := (Less_byPrice_false data a i ha (by omega)).1 (by simpa using hc.2)
      have := ih (i + 1) (by omega) (by omega) (by omega) (by
        intro x hx1 hx2
        by_cases hxi : x = i
        · subst hxi; exact hle
        · exact h4 x hx1 (by omega))
      exact ⟨by omega, this.2⟩
    · rw [if_neg hc]
      refine ⟨le_refl _, h2, h4, ?_⟩
      intro hij
      have : flatSorter.Less byPrice data a i = true := by
        rw [Bool.and_eq_true, decide_eq_true_eq] at hc
        by_contra hn
        exact hc ⟨hij, by simpa using hn⟩
      exact (Less_byPrice data a i ha (by omega)).1 this

theorem partitionEqual_down_spec (data : List Flat) (a i b : Nat) (hb : b ≤ data.length)
    (ha : a < data.length) (hai : a < i) :
    ∀ (fuel j : Nat), j < b → i ≤ j + 1 → j + 1 - i ≤ fuel →
      (∀ x, j < x → x < b → priceAt data a < priceAt data x) →
      sort.partitionEqual.down byPrice data a i fuel j ≤ j ∧
        i ≤ sort.partitionEqual.down byPrice data a i fuel j + 1 ∧
        (∀ x, sort.partitionEqual.down byPrice data a i fuel j < x → x < b →
          priceAt data a < priceAt data x) ∧
        (i ≤ sort.partitionEqual.down byPrice data a i fuel j →
          priceAt data (sort.partitionEqual.down byPrice data a i fuel j)
            ≤ priceAt data a) := by
  intro fuel
  induction fuel with
  | zero =>
    intro j _ h2 h3 h4
    rw [sort.partitionEqual.down]
    exact ⟨le_refl _, h2, h4, fun h => by omega⟩
  | succ fuel ih =>
    intro j h1 h2 h3 h4
    rw [sort.partitionEqual.down]
    by_cases hc : (decide (i ≤ j) && flatSorter.Less byPrice data a j) = true
    · rw [if_pos hc]
      rw [Bool.and_eq_true, decide_eq_true_eq] at hc
      have hlt := (Less_byPrice data a j ha (by omega)).1 hc.2
      have := ih (j - 1) (by omega) (by omega) (by omega) (by
        intro x hx1 hx2
        by_cases hxj : x = j
        · subst hxj; exact hlt
        · exact h4 x (by omega) hx2)
      exact ⟨by omega, this.2⟩
    · rw [if_neg hc]
      refine ⟨le_refl _, h2, h4, ?_⟩
      intro hij
      have : flatSorter.Less byPrice data a j = false := by
        rw [Bool.and_eq_true, decide_eq_true_eq] at hc
        by_contra hn
        exact hc ⟨hij, by simpa using hn⟩
      exact (Less_byPrice_false data a j ha (by omega)).1 this

theorem partitionEqual_loop_spec (a b : Nat) :
    ∀ (fuel : Nat) (data : List Flat) (i j : Nat), a < i → j < b → b ≤ data.length →
      i ≤ j + 1 → j + 1 - i ≤ fuel →
      (∀ x, a < x → x < i → priceAt data x ≤ priceAt data a) →
      (∀ x, j < x → x < b → priceAt data a < priceAt data x) →
      Moved (a + 1) b data (sort.partitionEqual.loop byPrice a fuel data i j).1 ∧
        a < (sort.partitionEqual.loop byPrice a fuel data i j).2 ∧
        (sort.partitionEqual.loop byPrice a fuel data i j).2 ≤ b ∧
        (∀ x, a < x → x < (sort.partitionEqual.loop byPrice a fuel data i j).2 →
          priceAt (sort.partitionEqual.loop byPrice a fuel data i j).1 x ≤ priceAt data a) ∧
        (∀ x, (sort.partitionEqual.loop byPrice a fuel data i j).2 ≤ x → x < b →
          priceAt data a < priceAt (sort.partitionEqual.loop byPrice a fuel data i j).1 x) := by
  intro fuel
  induction fuel with
  | zero =>
    intro data i j h1 h2 _ h4 h5 h6 h7
    rw [sort.partitionEqual.loop]
    exact ⟨Moved_refl _ _ _, h1, by omega, h6, fun x hx1 hx2 => h7 x (by omega) hx2⟩
  | succ fuel ih =>
    intro data i j h1 h2 h3 h4 h5 h6 h7
    rw [sort.partitionEqual.loop]
    have hup := partitionEqual_up_spec data a j (by omega) (by omega) (j + 1 - i) i h1 h4
      (le_refl _) h6
    generalize sort.partitionEqual.up byPrice data a j (j + 1 - i) i = i2 at hup ⊢
    obtain ⟨hu1, hu2, hu3, hu4⟩ := hup
    have hdown := partitionEqual_down_spec data a i2 b h3 (by omega) (by omega) (j + 1 - i2) j
      h2 hu2 (le_refl _) h7
    generalize sort.partitionEqual.down byPrice data a i2 (j + 1 - i2) j = j2 at hdown ⊢
    obtain ⟨hd1, hd2, hd3, hd4⟩ := hdown
    by_cases hgt : i2 > j2
    · rw [if_pos hgt]
      exact ⟨Moved_refl _ _ _, by omega, by omega, hu3, fun x hx1 hx2 => hd3 x (by omega) hx2⟩
    · rw [if_neg hgt]
      have hij : i2 ≤ j2 := by omega
      have hpi := hu4 (by omega)
      have hpj := hd4 hij
      have hne : i2 ≠ j2 := by
        intro e
        rw [e] at hpi
        exact absurd hpi (not_lt.2 hpj)
      have hi2 : i2 < data.length := by omega
      have hj2 : j2 < data.length := by omega
      have e1 := priceAt_Swap_fst data i2 j2 hi2 hj2
      have e2 := priceAt_Swap_snd data i2 j2 hi2 hj2
      have eo := priceAt_Swap_other data i2 j2
      have hm : Moved (a + 1) b data (flatSorter.Swap data i2 j2) :=
        Moved_swap (a + 1) b data i2 j2 (by omega) (by omega) h3
      have ha2 : priceAt (flatSorter.Swap data i2 j2) a = priceAt data a :=
        eo a (by omega) (by omega)
      have := ih (flatSorter.Swap data i2 j2) (i2 + 1) (j2 - 1) (by omega) (by omega)
        (by rw [Swap_length]; exact h3) (by omega) (by omega)
        (by
          intro x hx1 hx2
          rw [ha2]
          by_cases hx : x = i2
          · subst hx; rw [e1]; exact hpj
          · rw [eo x hx (by omega)]; exact hu3 x hx1 (by omega))
        (by
          intro x hx1 hx2
          rw [ha2]
          by_cases hx : x = j2
          · subst hx; rw [e2]; exact hpi
          · rw [eo x (by omega) hx]; exact hd3 x (by omega) hx2)
      rw [ha2] at this
      exact ⟨Moved_trans hm this.1, this.2⟩

theorem partitionEqual_spec (data : List Flat) (a b pivot : Nat) (hab : a < b)
    (hb : b ≤ data.length) (hp : a ≤ pivot ∧ pivot < b) :
    Moved a b data (sort.partitionEqual byPrice data a b pivot).1 ∧
      a < (sort.partitionEqual byPrice data a b pivot).2 ∧
      (sort.partitionEqual byPrice data a b pivot).2 ≤ b ∧
      (∀ x, a ≤ x → x < (sort.partitionEqual byPrice data a b pivot).2 →
        priceAt (sort.partitionEqual byPrice data a b pivot).1 x ≤ priceAt data pivot) ∧
      (∀ x, (sort.partitionEqual byPrice data a b pivot).2 ≤ x → x < b →
        priceAt data pivot < priceAt (sort.partitionEqual byPrice data a b pivot).1 x) := by
  unfold sort.partitionEqual
  have hm1 : Moved a b data (flatSorter.Swap data a pivot) :=
    Moved_swap a b data a pivot (by omega) hp hb
  have hlen1 : b ≤ (flatSorter.Swap data a pivot).length := by rw [Swap_length]; exact hb
  have hv : priceAt (flatSorter.Swap data a pivot) a = priceAt data pivot :=
    priceAt_Swap_fst data a pivot (by omega) (by omega)
  generalize flatSorter.Swap data a pivot = data1 at hm1 hlen1 hv ⊢
  by_cases hab1 : a + 1 < b
  · have hloop := partitionEqual_loop_spec a b (b - a + 1) data1 (a + 1) (b - 1) (by omega)
      (by omega) hlen1 (by omega) (by omega) (fun x hx1 hx2 => by omega)
      (fun x hx1 hx2 => by omega)
    rw [hv] at hloop
    generalize sort.partitionEqual.loop byPrice a (b - a + 1) data1 (a + 1) (b - 1) = r
      at hloop ⊢
    obtain ⟨hl1, hl2, hl3, hl4, hl5⟩ := hloop
    refine ⟨Moved_trans hm1 (Moved_mono hl1 (by omega) (le_refl _)), hl2, hl3, ?_, hl5⟩
    intro x hx1 hx2
    by_cases hxa : x = a
    · subst hxa
      rw [Moved_priceAt_frame hl1 x (by omega), hv]
    · exact hl4 x (by omega) hx2
  · have hba : b = a + 1 := by omega
    subst hba
    have h0 : a + 1 - a + 1 = 1 + 1 := by omega
    rw [h0, sort.partitionEqual.loop]
    have hu : sort.partitionEqual.up byPrice data1 a (a + 1 - 1) (a + 1 - 1 + 1 - (a + 1)) (a + 1)
        = a + 1 := by
      have : a + 1 - 1 + 1 - (a + 1) = 0 := by omega
      rw [this, sort.partitionEqual.up]
    rw [hu]
    have hd : sort.partitionEqual.down byPrice data1 a (a + 1) (a + 1 - 1 + 1 - (a + 1))
        (a + 1 - 1) = a := by
      have : a + 1 - 1 + 1 - (a + 1) = 0 := by omega
      rw [this, sort.partitionEqual.down]
      omega
    rw [hd, if_pos (by omega)]
    dsimp only
    refine ⟨hm1, by omega, le_refl _, ?_, fun x hx1 hx2 => by omega⟩
    intro x hx1 hx2
    have : x = a := by omega
    subst this
    rw [hv]

/-! ## Lemmas: `reverseRange`, `breakPatterns`, `choosePivot` -/

theorem reverseRange_loop_spec (a b : Nat) :
    ∀ (fuel : Nat) (data : List Flat) (i j : Nat), a ≤ i → j < b → b ≤ data.length →
      Moved a b data (sort.reverseRange.loop fuel data i j) := by
  intro fuel
  induction fuel with
  | zero => intro data i j _ _ _; exact Moved_refl _ _ _
  | succ fuel ih =>
    intro data i j h1 h2 h3
    rw [sort.reverseRange.loop]
    by_cases hij : i < j
    · rw [if_pos hij]
      exact Moved_trans (Moved_swap a b data i j (by omega) (by omega) h3)
        (ih _ (i + 1) (j - 1) (by omega) (by omega) (by rw [Swap_length]; exact h3))
    · rw [if_neg hij]
      exact Moved_refl _ _ _

theorem reverseRange_spec (data : List Flat) (a b : Nat) (hab : a < b)
    (hb : b ≤ data.length) : Moved a b data (sort.reverseRange data a b) :=
  reverseRange_loop_spec a b (b - a) data a (b - 1) (le_refl _) (by omega) hb

theorem bits_Len_loop_pow : ∀ (fuel n : Nat), n ≤ fuel → 1 ≤ n →
    2 ^ bits.Len.loop fuel n ≤ 2 * n := by
  intro fuel
  induction fuel with
  | zero => intro n h1 h2; omega
  | succ fuel ih =>
    intro n h1 h2
    rw [bits.Len.loop, if_neg (by omega)]
    by_cases h : n / 2 = 0
    · have hl : bits.Len.loop fuel (n / 2) = 0 := by
        rw [h]
        cases fuel with
        | zero => rfl
        | succ f => rw [bits.Len.loop, if_pos rfl]
      rw [hl]
      omega
    · have := ih (n / 2) (by omega) (by omega)
      rw [pow_succ]
      omega

theorem nextPowerOfTwo_le (n : Nat) (h : 1 ≤ n) : sort.nextPowerOfTwo n ≤ 2 * n :=
  bits_Len_loop_pow n n (le_refl _) h

theorem breakPatterns_step_spec (data : List Flat) (a b idx i random : Nat)
    (hb : b ≤ data.length) (hlen : 1 ≤ b - a) (hi : a ≤ idx - 1 + i ∧ idx - 1 + i < b) :
    Moved a b data (sort.breakPatterns.step data a (b - a) idx i random) := by
  unfold sort.breakPatterns.step
  have hpos : 0 < sort.nextPowerOfTwo (b - a) := by
    unfold sort.nextPowerOfTwo
    exact Nat.pos_pow_of_pos _ (by decide)
  have h1 := Nat.mod_lt random hpos
  have h2 := nextPowerOfTwo_le (b - a) hlen
  generalize random % sort.nextPowerOfTwo (b - a) = other at h1 ⊢
  dsimp only
  by_cases hge : other ≥ b - a
  · rw [if_pos hge]
    exact Moved_swap a b data _ _ hi (by omega) hb
  · rw [if_neg hge]
    exact Moved_swap a b data _ _ hi (by omega) hb

theorem breakPatterns_spec (next : Nat → Nat) (data : List Flat) (a b : Nat)
    (hb : b ≤ data.length) : Moved a b data (sort.breakPatterns next data a b) := by
  unfold sort.breakPatterns
  by_cases h : b - a ≥ 8
  · rw [if_pos h]
    dsimp only
    have s1 := breakPatterns_step_spec data a b (a + (b - a) / 4 * 2 - 1) 0 (next (b - a)) hb
      (by omega) (by omega)
    have s2 := breakPatterns_step_spec _ a b (a + (b - a) / 4 * 2 - 1) 1
      (next (next (b - a))) (by rw [Moved_length s1]; exact hb) (by omega) (by omega)
    have s3 := breakPatterns_step_spec _ a b (a + (b - a) / 4 * 2 - 1) 2
      (next (next (next (b - a)))) (by rw [Moved_length s2, Moved_length s1]; exact hb)
      (by omega) (by omega)
    exact Moved_trans s1 (Moved_trans s2 s3)
  · rw [if_neg h]
    exact Moved_refl _ _ _

theorem median_mem (data : List Flat) (x y z s : Nat) :
    (sort.median byPrice data x y z s).1 = x ∨ (sort.median byPrice data x y z s).1 = y ∨
      (sort.median byPrice data x y z s).1 = z := by
  unfold sort.median sort.order2
  dsimp only
  split_ifs <;> simp

theorem choosePivot_mem (data : List Flat) (a b : Nat) (h : 8 ≤ b - a) :
    a ≤ (sort.choosePivot byPrice data a b).1 ∧ (sort.choosePivot byPrice data a b).1 < b := by
  have hr : ∀ r : Nat × Nat,
      (if r.2 = 0 then (r.1, sort.sortedHint.increasingHint)
        else if r.2 = 12 then (r.1, sort.sortedHint.decreasingHint)
        else (r.1, sort.sortedHint.unknownHint)).1 = r.1 := by
    intro r
    split_ifs <;> rfl
  unfold sort.choosePivot
  dsimp only
  rw [hr, if_pos h]
  by_cases h50 : b - a ≥ 50
  · rw [if_pos h50]
    unfold sort.medianAdjacent
    have m1 := median_mem data (a + (b - a) / 4 * 1 - 1) (a + (b - a) / 4 * 1)
      (a + (b - a) / 4 * 1 + 1) 0
    generalize sort.median byPrice data (a + (b - a) / 4 * 1 - 1) (a + (b - a) / 4 * 1)
      (a + (b - a) / 4 * 1 + 1) 0 = r1 at m1 ⊢
    have m2 := median_mem data (a + (b - a) / 4 * 2 - 1) (a + (b - a) / 4 * 2)
      (a + (b - a) / 4 * 2 + 1) r1.2
    generalize sort.median byPrice data (a + (b - a) / 4 * 2 - 1) (a + (b - a) / 4 * 2)
      (a + (b - a) / 4 * 2 + 1) r1.2 = r2 at m2 ⊢
    have m3 := median_mem data (a + (b - a) / 4 * 3 - 1) (a + (b - a) / 4 * 3)
      (a + (b - a) / 4 * 3 + 1) r2.2
    generalize sort.median byPrice data (a + (b - a) / 4 * 3 - 1) (a + (b - a) / 4 * 3)
      (a + (b - a) / 4 * 3 + 1) r2.2 = r3 at m3 ⊢
    have m4 := median_mem data r1.1 r2.1 r3.1 r3.2
    generalize (sort.median byPrice data r1.1 r2.1 r3.1 r3.2).1 = p at m4 ⊢
    omega
  · rw [if_neg h50]
    have m := median_mem data (a + (b - a) / 4 * 1) (a + (b - a) / 4 * 2)
      (a + (b - a) / 4 * 3) 0
    generalize (sort.median byPrice data (a + (b - a) / 4 * 1) (a + (b - a) / 4 * 2)
      (a + (b - a) / 4 * 3) 0).1 = p at m ⊢
    omega

/-! ## Lemmas: `partialInsertionSort` -/

theorem LowerBound_of_Moved {a b : Nat} {d1 d2 : List Flat} (h : Moved a b d1 d2)
    (hl : LowerBound d1 a b) : LowerBound d2 a b := by
  intro ha k hk1 hk2
  rw [Moved_priceAt_frame h (a - 1) (by omega)]
  exact Moved_forall_price h (fun q => priceAt d1 (a - 1) ≤ q) (hl ha) k hk1 hk2

theorem partialInsertionSort_scan_spec (data : List Flat) (a b : Nat)
    (hb : b ≤ data.length) :
    ∀ (fuel i : Nat), a < i → i ≤ b → b - i ≤ fuel → SortedOn data a i →
      i ≤ sort.partialInsertionSort.scan byPrice data b fuel i ∧
        sort.partialInsertionSort.scan byPrice data b fuel i ≤ b ∧
        SortedOn data a (sort.partialInsertionSort.scan byPrice data b fuel i) ∧
        (sort.partialInsertionSort.scan byPrice data b fuel i < b →
          priceAt data (sort.partialInsertionSort.scan byPrice data b fuel i) <
            priceAt data (sort.partialInsertionSort.scan byPrice data b fuel i - 1)) := by
  intro fuel
  induction fuel with
  | zero =>
    intro i _ h2 h3 h4
    rw [sort.partialInsertionSort.scan]
    exact ⟨le_refl _, h2, h4, fun h => by omega⟩
  | succ fuel ih =>
    intro i h1 h2 h3 h4
    rw [sort.partialInsertionSort.scan]
    by_cases hc : (decide (i < b) && !flatSorter.Less byPrice data i (i - 1)) = true
    · rw [if_pos hc]
      rw [Bool.and_eq_true, decide_eq_true_eq] at hc
      have hle := (Less_byPrice_false data i (i - 1) (by omega) (by omega)).1
        (by simpa using hc.2)
      have := ih (i + 1) (by omega) (by omega) (by omega) (by
        intro x hx1 hx2
        by_cases hxi : x + 1 = i
        · have : x = i - 1 := by omega
          subst this
          rw [hxi]; exact hle
        · exact h4 x hx1 (by omega))
      exact ⟨by omega, this.2⟩
    · rw [if_neg hc]
      refine ⟨le_refl _, h2, h4, ?_⟩
      intro hib
      have : flatSorter.Less byPrice data i (i - 1) = true := by
        rw [Bool.and_eq_true, decide_eq_true_eq] at hc
        by_contra hn
        exact hc ⟨hib, by simpa using hn⟩
      exact (Less_byPrice data i (i - 1) (by omega) (by omega)).1 this

theorem shiftLeft_eq_inner (a : Nat) :
    ∀ (k : Nat) (data : List Flat), a + k < data.length →
      (0 < a → ∀ x, a ≤ x → x ≤ a + k → priceAt data (a - 1) ≤ priceAt data x) →
      sort.partialInsertionSort.shiftLeft byPrice (a + k) data
        = sort.insertionSort.inner byPrice a k data := by
  intro k
  induction k with
  | zero =>
    intro data hlen hlow
    rw [sort.insertionSort.inner]
    cases a with
    | zero => rfl
    | succ a2 =>
      have h := hlow (by omega) (a2 + 1) (le_refl _) (by omega)
      have hf := (Less_byPrice_false data (a2 + 1) a2 (by omega) (by omega)).2
        (by simpa using h)
      show sort.partialInsertionSort.shiftLeft byPrice (a2 + 1) data = data
      rw [sort.partialInsertionSort.shiftLeft, hf]
      rfl
  | succ k ih =>
    intro data hlen hlow
    show sort.partialInsertionSort.shiftLeft byPrice (a + k + 1) data = _
    rw [sort.partialInsertionSort.shiftLeft, sort.insertionSort.inner]
    by_cases hless : flatSorter.Less byPrice data (a + k + 1) (a + k) = true
    · rw [if_pos hless, hless]
      simp only [Bool.not_true, Bool.false_eq_true, if_false]
      apply ih
      · rw [Swap_length]; omega
      · intro ha x hx1 hx2
        have e0 := priceAt_Swap_snd data (a + k + 1) (a + k) (by omega) (by omega)
        have eo := priceAt_Swap_other data (a + k + 1) (a + k)
        rw [eo (a - 1) (by omega) (by omega)]
        by_cases hx : x = a + k
        · subst hx
          rw [e0]
          exact hlow ha (a + k + 1) (by omega) (by omega)
        · rw [eo x (by omega) hx]
          exact hlow ha x hx1 (by omega)
    · rw [if_neg hless]
      have : flatSorter.Less byPrice data (a + k + 1) (a + k) = false := by simpa using hless
      rw [this]
      rfl

theorem shiftRight_spec (i2 b : Nat) :
    ∀ (count j : Nat) (data : List Flat), i2 < j → j + count ≤ b → b ≤ data.length →
      Moved i2 b data (sort.partialInsertionSort.shiftRight byPrice count j data) := by
  intro count
  induction count with
  | zero => intro j data _ _ _; exact Moved_refl _ _ _
  | succ count ih =>
    intro j data h1 h2 h3
    rw [sort.partialInsertionSort.shiftRight]
    by_cases hless : flatSorter.Less byPrice data j (j - 1) = true
    · rw [hless]
      simp only [Bool.not_true, Bool.false_eq_true, if_false]
      exact Moved_trans (Moved_swap i2 b data j (j - 1) (by omega) (by omega) h3)
        (ih (j + 1) _ (by omega) (by omega) (by rw [Swap_length]; exact h3))
    · have : flatSorter.Less byPrice data j (j - 1) = false := by simpa using hless
      rw [this]
      exact Moved_refl _ _ _

theorem partialInsertionSort_steps_spec (a b : Nat) :
    ∀ (steps i : Nat) (data : List Flat), a < i → i ≤ b → b ≤ data.length →
      SortedOn data a i → LowerBound data a b →
      Moved a b data (sort.partialInsertionSort.steps byPrice a b steps i data).1 ∧
        ((sort.partialInsertionSort.steps byPrice a b steps i data).2 = true →
          SortedOn (sort.partialInsertionSort.steps byPrice a b steps i data).1 a b) := by
  intro steps
  induction steps with
  | zero =>
    intro i data _ _ _ _ _
    rw [sort.partialInsertionSort.steps]
    exact ⟨Moved_refl _ _ _, fun h => by cases h⟩
  | succ steps ih =>
    intro i data h1 h2 h3 hs hl
    rw [sort.partialInsertionSort.steps]
    have hscan := partialInsertionSort_scan_spec data a b h3 (b - i) i h1 h2 (le_refl _) hs
    generalize sort.partialInsertionSort.scan byPrice data b (b - i) i = i2 at hscan ⊢
    obtain ⟨hc1, hc2, hc3, hc4⟩ := hscan
    dsimp only
    by_cases hib : i2 = b
    · rw [if_pos hib]
      subst hib
      exact ⟨Moved_refl _ _ _, fun _ => hc3⟩
    · rw [if_neg hib]
      by_cases h50 : b - a < 50
      · rw [if_pos h50]
        exact ⟨Moved_refl _ _ _, fun h => by cases h⟩
      · rw [if_neg h50]
        -- the swap of the pair that is out of order
        have hm1 : Moved a b data (flatSorter.Swap data i2 (i2 - 1)) :=
          Moved_swap a b data i2 (i2 - 1) (by omega) (by omega) h3
        have hlen1 : b ≤ (flatSorter.Swap data i2 (i2 - 1)).length := by
          rw [Swap_length]; exact h3
        have hs1 : ∀ x, a ≤ x → x + 1 < i2 - 1 →
            priceAt (flatSorter.Swap data i2 (i2 - 1)) x
              ≤ priceAt (flatSorter.Swap data i2 (i2 - 1)) (x + 1) := by
          intro x hx1 hx2
          rw [priceAt_Swap_other data i2 (i2 - 1) x (by omega) (by omega),
            priceAt_Swap_other data i2 (i2 - 1) (x + 1) (by omega) (by omega)]
          exact hc3 x hx1 (by omega)
        have hl1 := LowerBound_of_Moved hm1 hl
        generalize flatSorter.Swap data i2 (i2 - 1) = data1 at hm1 hlen1 hs1 hl1 ⊢
        -- the smaller one goes to the left
        have hleft : Moved a b data1
            (if i2 - a ≥ 2 then
              sort.partialInsertionSort.shiftLeft byPrice (i2 - 1) data1 else data1) ∧
            SortedOn
              (if i2 - a ≥ 2 then
                sort.partialInsertionSort.shiftLeft byPrice (i2 - 1) data1 else data1) a i2 := by
          by_cases h2a : i2 - a ≥ 2
          · rw [if_pos h2a]
            have hk : i2 - 1 = a + (i2 - 1 - a) := by omega
            rw [hk, shiftLeft_eq_inner a (i2 - 1 - a) data1 (by omega)
              (fun ha x hx1 hx2 => hl1 ha x hx1 (by omega))]
            have := insertionSort_inner_spec a (i2 - 1) (i2 - 1 - a) data1 (by omega) (by omega)
              (fun x hx1 hx2 hx3 => hs1 x hx1 (by omega)) (fun _ h => by omega)
            have e : i2 - 1 + 1 = i2 := by omega
            rw [e] at this
            exact ⟨Moved_mono this.1 (le_refl _) (by omega), this.2⟩
          · rw [if_neg h2a]
            exact ⟨Moved_refl _ _ _, sortedOn_of_le _ _ _ (by omega)⟩
        generalize (if i2 - a ≥ 2 then
          sort.partialInsertionSort.shiftLeft byPrice (i2 - 1) data1 else data1) = data2
          at hleft ⊢
        obtain ⟨hm2, hs2⟩ := hleft
        have hlen2 : b ≤ data2.length := by rw [Moved_length hm2]; exact hlen1
        -- the greater one goes to the right
        have hright : Moved i2 b data2
            (if b - i2 ≥ 2 then
              sort.partialInsertionSort.shiftRight byPrice (b - (i2 + 1)) (i2 + 1) data2
            else data2) := by
          by_cases h2b : b - i2 ≥ 2
          · rw [if_pos h2b]
            exact shiftRight_spec i2 b (b - (i2 + 1)) (i2 + 1) data2 (by omega) (by omega) hlen2
          · rw [if_neg h2b]
            exact Moved_refl _ _ _
        generalize (if b - i2 ≥ 2 then
          sort.partialInsertionSort.shiftRight byPrice (b - (i2 + 1)) (i2 + 1) data2
          else data2) = data3 at hright ⊢
        have hm3 : Moved a b data data3 :=
          Moved_trans hm1 (Moved_trans hm2 (Moved_mono hright (by omega) (le_refl _)))
        have hs3 : SortedOn data3 a i2 := by
          intro x hx1 hx2
          rw [Moved_priceAt_frame hright x (by omega),
            Moved_priceAt_frame hright (x + 1) (by omega)]
          exact hs2 x hx1 hx2
        have := ih i2 data3 (by omega) hc2 (by rw [Moved_length hm3]; exact h3) hs3
          (LowerBound_of_Moved hm3 hl)
        exact ⟨Moved_trans hm3 this.1, this.2⟩

theorem partialInsertionSort_spec (data : List Flat) (a b : Nat) (hab : a < b)
    (hb : b ≤ data.length) (hl : LowerBound data a b) :
    Moved a b data (sort.partialInsertionSort byPrice data a b).1 ∧
      ((sort.partialInsertionSort byPrice data a b).2 = true →
        SortedOn (sort.partialInsertionSort byPrice data a b).1 a b) :=
  partialInsertionSort_steps_spec a b 5 (a + 1) data (by omega) (by omega) hb
    (sortedOn_of_le _ _ _ (le_refl _)) hl

/-! ## Lemmas: `heapSort` -/

theorem siftDown_loop_spec (hi first lo : Nat) :
    ∀ (fuel root : Nat) (data : List Flat), first + hi ≤ data.length → lo ≤ root →
      hi ≤ root + fuel →
      (∀ r, lo ≤ r → r ≠ root → HeapAt data first hi r) →
      (∀ p, lo ≤ p → (root = 2 * p + 1 ∨ root = 2 * p + 2) →
        ∀ c, (c = 2 * root + 1 ∨ c = 2 * root + 2) → c < hi →
          priceAt data (first + c) ≤ priceAt data (first + p)) →
      Moved (first + lo) (first + hi) data (sort.siftDown.loop byPrice hi first fuel root data) ∧
        ∀ r, lo ≤ r → HeapAt (sort.siftDown.loop byPrice hi first fuel root data) first hi r := by
  intro fuel
  induction fuel with
  | zero =>
    intro root data _ _ hf h1 _
    rw [sort.siftDown.loop]
    refine ⟨Moved_refl _ _ _, ?_⟩
    intro r hr
    by_cases hrr : r = root
    · intro c hc hch; omega
    · exact h1 r hr hrr
  | succ fuel ih =>
    intro root data hlen hlo hf h1 h2
    rw [sort.siftDown.loop]
    by_cases hleaf : 2 * root + 1 ≥ hi
    · rw [if_pos hleaf]
      refine ⟨Moved_refl _ _ _, ?_⟩
      intro r hr
      by_cases hrr : r = root
      · intro c hc hch; omega
      · exact h1 r hr hrr
    · rw [if_neg hleaf]
      -- the greater child
      have hchild : ∃ child, (child = 2 * root + 1 ∨ child = 2 * root + 2) ∧ child < hi ∧
          (∀ c, (c = 2 * root + 1 ∨ c = 2 * root + 2) → c < hi →
            priceAt data (first + c) ≤ priceAt data (first + child)) ∧
          (if (decide (2 * root + 1 + 1 < hi) &&
              flatSorter.Less byPrice data (first + (2 * root + 1))
                (first + (2 * root + 1) + 1)) = true
            then 2 * root + 1 + 1 else 2 * root + 1) = child := by
        by_cases hc : (decide (2 * root + 1 + 1 < hi) &&
            flatSorter.Less byPrice data (first + (2 * root + 1))
              (first + (2 * root + 1) + 1)) = true
        · rw [if_pos hc]
          rw [Bool.and_eq_true, decide_eq_true_eq] at hc
          have hlt := (Less_byPrice data _ _ (by omega) (by omega)).1 hc.2
          refine ⟨2 * root + 1 + 1, Or.inr rfl, hc.1, ?_, rfl⟩
          intro c hc1 _
          rcases hc1 with e | e
          · subst e; exact le_of_lt hlt
          · subst e; exact le_refl _
        · rw [if_neg hc]
          refine ⟨2 * root + 1, Or.inl rfl, by omega, ?_, rfl⟩
          intro c hc1 hc2
          rcases hc1 with e | e
          · subst e; exact le_refl _
          · subst e
            have : flatSorter.Less byPrice data (first + (2 * root + 1))
                (first + (2 * root + 1) + 1) = false := by
              rw [Bool.and_eq_true, decide_eq_true_eq] at hc
              by_contra hn
              exact hc ⟨by omega, by simpa using hn⟩
            exact (Less_byPrice_false data _ _ (by omega) (by omega)).1 this
      obtain ⟨child, hch1, hch2, hch3, hch4⟩ := hchild
      dsimp only
      rw [hch4]
      by_cases hless : flatSorter.Less byPrice data (first + root) (first + child) = true
      · rw [hless]
        simp only [Bool.not_true, Bool.false_eq_true, if_false]
        have hlt := (Less_byPrice data _ _ (by omega) (by omega)).1 hless
        have e1 := priceAt_Swap_fst data (first + root) (first + child) (by omega) (by omega)
        have e2 := priceAt_Swap_snd data (first + root) (first + child) (by omega) (by omega)
        have eo := priceAt_Swap_other data (first + root) (first + child)
        have hm : Moved (first + lo) (first + hi) data
            (flatSorter.Swap data (first + root) (first + child)) :=
          Moved_swap _ _ data _ _ (by omega) (by omega) hlen
        have := ih child (flatSorter.Swap data (first + root) (first + child))
          (by rw [Swap_length]; exact hlen) (by omega) (by omega)
          (by
            intro r hr hrc c hc hch
            by_cases hrr : r = root
            · subst hrr
              rw [e1]
              by_cases hcc : c = child
              · subst hcc; rw [e2]; exact le_of_lt hlt
              · rw [eo (first + c) (by omega) (by omega)]
                exact hch3 c hc hch
            · rw [eo (first + r) (by omega) (by omega)]
              by_cases hcr : c = root
              · subst hcr
                rw [e1]
                exact h2 r hr (by omega) child hch1 hch2
              · rw [eo (first + c) (by omega) (by omega)]
                exact h1 r hr hrr c hc hch)
          (by
            intro p hp hpc c hc hch
            have hpr : p = root := by omega
            subst hpr
            rw [e1, eo (first + c) (by omega) (by omega)]
            exact h1 child (by omega) (by omega) c hc hch)
        exact ⟨Moved_trans hm this.1, this.2⟩
      · have hf2 : flatSorter.Less byPrice data (first + root) (first + child) = false := by
          simpa using hless
        rw [hf2]
        simp only [Bool.not_false, if_true]
        have hle := (Less_byPrice_false data _ _ (by omega) (by omega)).1 hf2
        refine ⟨Moved_refl _ _ _, ?_⟩
        intro r hr
        by_cases hrr : r = root
        · subst hrr
          intro c hc hch
          exact le_trans (hch3 c hc hch) hle
        · exact h1 r hr hrr

theorem siftDown_spec (data : List Flat) (lo hi first : Nat) (hlen : first + hi ≤ data.length)
    (h : ∀ r, lo < r → HeapAt data first hi r) :
    Moved (first + lo) (first + hi) data (sort.siftDown byPrice data lo hi first) ∧
      ∀ r, lo ≤ r → HeapAt (sort.siftDown byPrice data lo hi first) first hi r :=
  siftDown_loop_spec hi first lo hi lo data hlen (le_refl _) (by omega)
    (fun r hr hne => h r (by omega)) (fun p hp hpl => by omega)

theorem heapSort_build_spec (hi first : Nat) :
    ∀ (count : Nat) (data : List Flat), first + hi ≤ data.length →
      (∀ r, count ≤ r → HeapAt data first hi r) →
      Moved first (first + hi) data (sort.heapSort.build byPrice hi first count data) ∧
        ∀ r, HeapAt (sort.heapSort.build byPrice hi first count data) first hi r := by
  intro count
  induction count with
  | zero =>
    intro data _ h
    rw [sort.heapSort.build]
    exact ⟨Moved_refl _ _ _, fun r => h r (Nat.zero_le _)⟩
  | succ i ih =>
    intro data hlen h
    rw [sort.heapSort.build]
    have hs := siftDown_spec data i hi first hlen (fun r hr => h r (by omega))
    have := ih (sort.siftDown byPrice data i hi first) (by rw [Moved_length hs.1]; exact hlen)
      hs.2
    exact ⟨Moved_trans (Moved_mono hs.1 (by omega) (le_refl _)) this.1, this.2⟩

theorem heap_root_max (data : List Flat) (first m : Nat)
    (h : ∀ r, HeapAt data first m r) :
    ∀ x, x < m → priceAt data (first + x) ≤ priceAt data (first + 0) := by
  intro x
  induction x using Nat.strong_induction_on with
  | _ x ih =>
    intro hx
    by_cases h0 : x = 0
    · subst h0; exact le_refl _
    · have hp := h ((x - 1) / 2) x (by omega) hx
      exact le_trans hp (ih ((x - 1) / 2) (by omega) (by omega))

theorem heapSort_pop_spec (first hi : Nat) :
    ∀ (m : Nat) (data : List Flat), m ≤ hi → first + hi ≤ data.length →
      (∀ r, HeapAt data first m r) →
      SortedOn data (first + m) (first + hi) →
      (∀ x y, x < m → m ≤ y → y < hi → priceAt data (first + x) ≤ priceAt data (first + y)) →
      Moved first (first + hi) data (sort.heapSort.pop byPrice first m data) ∧
        SortedOn (sort.heapSort.pop byPrice first m data) first (first + hi) := by
  intro m
  induction m with
  | zero =>
    intro data _ _ _ hs _
    rw [sort.heapSort.pop]
    exact ⟨Moved_refl _ _ _, by simpa using hs⟩
  | succ i ih =>
    intro data hm hlen hheap hs hcross
    rw [sort.heapSort.pop]
    have hmax := heap_root_max data first (i + 1) hheap
    have e1 := priceAt_Swap_fst data first (first + i) (by omega) (by omega)
    have e2 := priceAt_Swap_snd data first (first + i) (by omega) (by omega)
    have eo := priceAt_Swap_other data first (first + i)
    have hm1 : Moved first (first + hi) data (flatSorter.Swap data first (first + i)) :=
      Moved_swap _ _ data _ _ (by omega) (by omega) hlen
    have hlen1 : first + hi ≤ (flatSorter.Swap data first (first + i)).length := by
      rw [Swap_length]; exact hlen
    -- the prices after the swap, by index of the heap
    have q0 : priceAt (flatSorter.Swap data first (first + i)) (first + 0)
        = priceAt data (first + i) := by
      rw [Nat.add_zero]; exact e1
    have qi : priceAt (flatSorter.Swap data first (first + i)) (first + i)
        = priceAt data (first + 0) := by
      rw [Nat.add_zero]; exact e2
    have qo : ∀ x, x ≠ 0 → x ≠ i → priceAt (flatSorter.Swap data first (first + i)) (first + x)
        = priceAt data (first + x) :=
      fun x hx0 hxi => eo (first + x) (by omega) (by omega)
    have hle1 : ∀ x, x < i → priceAt (flatSorter.Swap data first (first + i)) (first + x)
        ≤ priceAt data (first + 0) := by
      intro x hx
      by_cases hx0 : x = 0
      · subst hx0; rw [q0]; exact hmax i (by omega)
      · rw [qo x hx0 (by omega)]; exact hmax x (by omega)
    have hs1 : SortedOn (flatSorter.Swap data first (first + i)) (first + i) (first + hi) := by
      intro y hy1 hy2
      by_cases hyi : y = first + i
      · subst hyi
        rw [qi]
        have : first + i + 1 = first + (i + 1) := by omega
        rw [this, qo (i + 1) (by omega) (by omega)]
        exact hcross 0 (i + 1) (by omega) (le_refl _) (by omega)
      · rw [eo y (by omega) hyi, eo (y + 1) (by omega) (by omega)]
        exact hs y (by omega) hy2
    have hcross1 : ∀ x y, x < i → i ≤ y → y < hi →
        priceAt (flatSorter.Swap data first (first + i)) (first + x)
          ≤ priceAt (flatSorter.Swap data first (first + i)) (first + y) := by
      intro x y hx hy1 hy2
      by_cases hyi : y = i
      · subst hyi; rw [qi]; exact hle1 x hx
      · rw [qo y (by omega) hyi]
        by_cases hx0 : x = 0
        · subst hx0; rw [q0]; exact hcross i y (by omega) (by omega) hy2
        · rw [qo x hx0 (by omega)]; exact hcross x y (by omega) (by omega) hy2
    have hheap1 : ∀ r, 0 < r → HeapAt (flatSorter.Swap data first (first + i)) first i r := by
      intro r hr c hc hch
      rw [qo c (by omega) (by omega), qo r (by omega) (by omega)]
      exact hheap r c hc (by omega)
    generalize flatSorter.Swap data first (first + i) = data1
      at hm1 hlen1 hs1 hcross1 hheap1 ⊢
    have hsd := siftDown_spec data1 0 i first (by omega) hheap1
    have hmv : Moved first (first + i) data1 (sort.siftDown byPrice data1 0 i first) := by
      have := hsd.1
      rw [Nat.add_zero] at this
      exact this
    have hlen2 : first + hi ≤ (sort.siftDown byPrice data1 0 i first).length := by
      rw [Moved_length hmv]; exact hlen1
    have := ih (sort.siftDown byPrice data1 0 i first) (by omega) hlen2
      (fun r => hsd.2 r (Nat.zero_le _))
      (by
        intro y hy1 hy2
        rw [Moved_priceAt_frame hmv y (by omega), Moved_priceAt_frame hmv (y + 1) (by omega)]
        exact hs1 y hy1 hy2)
      (by
        intro x y hx hy1 hy2
        rw [Moved_priceAt_frame hmv (first + y) (by omega)]
        exact Moved_forall_price hmv (fun q => q ≤ priceAt data1 (first + y))
          (fun k hk1 hk2 => by
            have := hcross1 (k - first) y (by omega) hy1 hy2
            have e : first + (k - first) = k := by omega
            rw [e] at this
            exact this)
          (first + x) (by omega) (by omega))
    exact ⟨Moved_trans hm1 (Moved_trans (Moved_mono hmv (le_refl _) (by omega)) this.1), this.2⟩

theorem heapSort_spec (data : List Flat) (a b : Nat) (hab : a ≤ b) (hb : b ≤ data.length) :
    Moved a b data (sort.heapSort byPrice data a b) ∧
      SortedOn (sort.heapSort byPrice data a b) a b := by
  unfold sort.heapSort
  have e : a + (b - a) = b := by omega
  have hbuild := heapSort_build_spec (b - a) a ((b - a - 1) / 2 + 1) data (by omega)
    (fun r hr c hc hch => by omega)
  have hpop := heapSort_pop_spec a (b - a) (b - a)
    (sort.heapSort.build byPrice (b - a) a ((b - a - 1) / 2 + 1) data) (le_refl _)
    (by rw [Moved_length hbuild.1]; omega) hbuild.2
    (sortedOn_of_le _ _ _ (by omega)) (fun x y hx hy1 hy2 => by omega)
  rw [e] at hbuild hpop
  exact ⟨Moved_trans hbuild.1 hpop.1, hpop.2⟩

/-! ## Lemmas: `pdqsort` -/

theorem sortedOn_join (d : List Flat) (a mid b : Nat)
    (h1 : SortedOn d a mid) (h2 : SortedOn d (mid + 1) b)
    (h3 : ∀ x, a ≤ x → x < mid → priceAt d x ≤ priceAt d mid)
    (h4 : ∀ x, mid < x → x < b → priceAt d mid ≤ priceAt d x) : SortedOn d a b := by
  intro x hx1 hx2
  rcases Nat.lt_trichotomy (x + 1) mid with h | h | h
  · exact h1 x hx1 h
  · rw [h]; exact h3 x hx1 (by omega)
  · by_cases hxm : x = mid
    · subst hxm; exact h4 (x + 1) (by omega) hx2
    · exact h2 x (by omega) hx2

theorem pdqsort_spec (next : Nat → Nat) :
    ∀ (fuel : Nat) (data : List Flat) (a b limit : Nat) (wasBalanced wasPartitioned : Bool),
      a ≤ b → b ≤ data.length → b - a < fuel → LowerBound data a b →
      Moved a b data
          (sort.pdqsort next byPrice fuel data a b limit wasBalanced wasPartitioned) ∧
        SortedOn (sort.pdqsort next byPrice fuel data a b limit wasBalanced wasPartitioned)
          a b := by
  intro fuel
  induction fuel with
  | zero => intro data a b limit wB wP _ _ h _; omega
  | succ fuel ih =>
    intro data a b limit wB wP hab hb hfuel hlow
    rw [sort.pdqsort]
    by_cases hshort : b - a ≤ 12
    · rw [if_pos hshort]
      exact insertionSort_spec data a b hb
    · rw [if_neg hshort]
      by_cases hlimit : limit = 0
      · rw [if_pos hlimit]
        exact heapSort_spec data a b hab hb
      · rw [if_neg hlimit]
        dsimp only
        have hlen8 : 8 ≤ b - a := by omega
        -- breakPatterns
        have hm1 : Moved a b data
            (if (!wB) = true then sort.breakPatterns next data a b else data) := by
          by_cases hwb : (!wB) = true
          · rw [if_pos hwb]; exact breakPatterns_spec next data a b hb
          · rw [if_neg hwb]; exact Moved_refl _ _ _
        generalize (if (!wB) = true then sort.breakPatterns next data a b else data) = data1
          at hm1 ⊢
        generalize (if (!wB) = true then limit - 1 else limit) = limit1
        have hb1 : b ≤ data1.length := by rw [Moved_length hm1]; exact hb
        -- choosePivot
        have hcp := choosePivot_mem data1 a b hlen8
        generalize sort.choosePivot byPrice data1 a b = ph at hcp ⊢
        -- reverseRange
        have hm2 : Moved a b data1
            (if ph.2 = sort.sortedHint.decreasingHint then sort.reverseRange data1 a b
              else data1) := by
          by_cases hdec : ph.2 = sort.sortedHint.decreasingHint
          · rw [if_pos hdec]; exact reverseRange_spec data1 a b (by omega) hb1
          · rw [if_neg hdec]; exact Moved_refl _ _ _
        generalize (if ph.2 = sort.sortedHint.decreasingHint then sort.reverseRange data1 a b
          else data1) = data2 at hm2 ⊢
        have hb2 : b ≤ data2.length := by rw [Moved_length hm2]; exact hb1
        have hpiv : a ≤ (if ph.2 = sort.sortedHint.decreasingHint then b - 1 - (ph.1 - a)
            else ph.1) ∧
            (if ph.2 = sort.sortedHint.decreasingHint then b - 1 - (ph.1 - a) else ph.1) < b := by
          by_cases hdec : ph.2 = sort.sortedHint.decreasingHint
          · rw [if_pos hdec]; omega
          · rw [if_neg hdec]; exact hcp
        generalize (if ph.2 = sort.sortedHint.decreasingHint then b - 1 - (ph.1 - a)
          else ph.1) = pivot at hpiv ⊢
        generalize (wB && wP &&
          decide ((if ph.2 = sort.sortedHint.decreasingHint then
            sort.sortedHint.increasingHint else ph.2) = sort.sortedHint.increasingHint))
          = likely
        -- partialInsertionSort
        have hlow2 : LowerBound data2 a b :=
          LowerBound_of_Moved (Moved_trans hm1 hm2) hlow
        have hps : Moved a b data2
            (if likely = true then sort.partialInsertionSort byPrice data2 a b
              else (data2, false)).1 ∧
            ((if likely = true then sort.partialInsertionSort byPrice data2 a b
              else (data2, false)).2 = true →
              SortedOn (if likely = true then sort.partialInsertionSort byPrice data2 a b
                else (data2, false)).1 a b) := by
          by_cases hl : likely = true
          · rw [if_pos hl]
            exact partialInsertionSort_spec data2 a b (by omega) hb2 hlow2
          · rw [if_neg hl]
            exact ⟨Moved_refl _ _ _, fun h => by cases h⟩
        generalize (if likely = true then sort.partialInsertionSort byPrice data2 a b
          else (data2, false)) = ps at hps ⊢
        obtain ⟨hm3, hsorted⟩ := hps
        have hmv : Moved a b data ps.1 := Moved_trans hm1 (Moved_trans hm2 hm3)
        have hb3 : b ≤ ps.1.length := by rw [Moved_length hmv]; exact hb
        have hlow3 : LowerBound ps.1 a b := LowerBound_of_Moved hmv hlow
        by_cases hdone : ps.2 = true
        · rw [if_pos hdone]
          exact ⟨hmv, hsorted hdone⟩
        · rw [if_neg hdone]
          generalize ps.1 = d at hm3 hmv hb3 hlow3 ⊢
          by_cases heq : (decide (a > 0) && !flatSorter.Less byPrice d (a - 1) pivot) = true
          · -- the pivot equals the record before the slice: partitionEqual
            rw [if_pos heq]
            rw [Bool.and_eq_true, decide_eq_true_eq] at heq
            have hle : priceAt d pivot ≤ priceAt d (a - 1) :=
              (Less_byPrice_false d (a - 1) pivot (by omega) (by omega)).1 (by simpa using heq.2)
            have hpe := partitionEqual_spec d a b pivot (by omega) hb3 hpiv
            generalize sort.partitionEqual byPrice d a b pivot = pe at hpe ⊢
            obtain ⟨he1, he2, he3, he4, he5⟩ := hpe
            have hlowpe := LowerBound_of_Moved he1 hlow3
            have hpa : priceAt pe.1 (a - 1) = priceAt d (a - 1) :=
              Moved_priceAt_frame he1 (a - 1) (by omega)
            have hrec := ih pe.1 pe.2 b limit1 wB wP he3 (by rw [Moved_length he1]; exact hb3)
              (by omega)
              (by
                intro _ k hk1 hk2
                exact le_trans (he4 (pe.2 - 1) (by omega) (by omega)) (le_of_lt (he5 k hk1 hk2)))
            generalize sort.pdqsort next byPrice fuel pe.1 pe.2 b limit1 wB wP = r at hrec ⊢
            obtain ⟨hr1, hr2⟩ := hrec
            refine ⟨Moved_trans hmv (Moved_trans he1 (Moved_mono hr1 (by omega) (le_refl _))), ?_⟩
            intro x hx1 hx2
            by_cases hx : x + 1 < pe.2
            · rw [Moved_priceAt_frame hr1 x (by omega), Moved_priceAt_frame hr1 (x + 1) (by omega)]
              have h1 := he4 x hx1 (by omega)
              have h2 := hlowpe heq.1 (x + 1) (by omega) (by omega)
              rw [hpa] at h2
              exact le_trans h1 (le_trans hle h2)
            · by_cases hx3 : x + 1 = pe.2
              · rw [Moved_priceAt_frame hr1 x (by omega)]
                have h1 := he4 x hx1 (by omega)
                have h2 := Moved_forall_price hr1 (fun q => priceAt d pivot < q)
                  (fun k hk1 hk2 => he5 k hk1 hk2) (x + 1) (by omega) hx2
                exact le_trans h1 (le_of_lt h2)
              · exact hr2 x (by omega) hx2
          · -- partition, then the two sides
            rw [if_neg heq]
            have hpt := partition_spec d a b pivot (by omega) hb3 hpiv
            generalize sort.partition byPrice d a b pivot = pt at hpt ⊢
            obtain ⟨ht1, ht2, ht3, ht4, ht5⟩ := hpt
            have hlowpt := LowerBound_of_Moved ht1 hlow3
            have hbpt : b ≤ pt.1.length := by rw [Moved_length ht1]; exact hb3
            have hlowL : LowerBound pt.1 a pt.2.1 :=
              fun ha k hk1 hk2 => hlowpt ha k hk1 (by omega)
            have hlowR : LowerBound pt.1 (pt.2.1 + 1) b := by
              intro _ k hk1 hk2
              have := ht5 k (by omega) hk2
              simpa using this
            generalize pt.2.1 = mid at ht2 ht3 ht4 ht5 hlowL hlowR ⊢
            generalize pt.2.2 = already
            generalize pt.1 = dp at ht1 ht4 ht5 hlowpt hbpt hlowL hlowR ⊢
            by_cases hside : mid - a < b - mid
            · rw [if_pos hside]
              have h1 := ih dp a mid limit1 true true ht2 (by omega) (by omega) hlowL
              generalize sort.pdqsort next byPrice fuel dp a mid limit1 true true = r1 at h1 ⊢
              obtain ⟨hr1m, hr1s⟩ := h1
              have hlowR1 : LowerBound r1 (mid + 1) b := by
                intro h0 k hk1 hk2
                rw [Moved_priceAt_frame hr1m (mid + 1 - 1) (by omega),
                  Moved_priceAt_frame hr1m k (by omega)]
                exact hlowR h0 k hk1 hk2
              have h2 := ih r1 (mid + 1) b limit1 (decide (mid - a ≥ (b - a) / 8)) already
                (by omega) (by rw [Moved_length hr1m]; exact hbpt) (by omega) hlowR1
              generalize sort.pdqsort next byPrice fuel r1 (mid + 1) b limit1
                (decide (mid - a ≥ (b - a) / 8)) already = r2 at h2 ⊢
              obtain ⟨hr2m, hr2s⟩ := h2
              have hmid : priceAt r2 mid = priceAt dp mid := by
                rw [Moved_priceAt_frame hr2m mid (by omega),
                  Moved_priceAt_frame hr1m mid (by omega)]
              refine ⟨Moved_trans hmv (Moved_trans ht1 (Moved_trans
                (Moved_mono hr1m (le_refl _) (by omega))
                (Moved_mono hr2m (by omega) (le_refl _)))), ?_⟩
              apply sortedOn_join r2 a mid b
              · intro x hx1 hx2
                rw [Moved_priceAt_frame hr2m x (by omega),
                  Moved_priceAt_frame hr2m (x + 1) (by omega)]
                exact hr1s x hx1 hx2
              · exact hr2s
              · intro x hx1 hx2
                rw [hmid, Moved_priceAt_frame hr2m x (by omega)]
                exact le_of_lt (Moved_forall_price hr1m (fun q => q < priceAt dp mid)
                  (fun k hk1 hk2 => ht4 k hk1 hk2) x hx1 hx2)
              · intro x hx1 hx2
                rw [hmid]
                exact Moved_forall_price hr2m (fun q => priceAt dp mid ≤ q)
                  (fun k hk1 hk2 => by
                    rw [Moved_priceAt_frame hr1m k (by omega)]
                    exact ht5 k (by omega) hk2)
                  x (by omega) hx2
            · rw [if_neg hside]
              have h1 := ih dp (mid + 1) b limit1 true true (by omega) hbpt (by omega) hlowR
              generalize sort.pdqsort next byPrice fuel dp (mid + 1) b limit1 true true = r1
                at h1 ⊢
              obtain ⟨hr1m, hr1s⟩ := h1
              have hlowL1 : LowerBound r1 a mid := by
                intro h0 k hk1 hk2
                rw [Moved_priceAt_frame hr1m (a - 1) (by omega),
                  Moved_priceAt_frame hr1m k (by omega)]
                exact hlowL h0 k hk1 hk2
              have h2 := ih r1 a mid limit1 (decide (b - mid ≥ (b - a) / 8)) already
                ht2 (by rw [Moved_length hr1m]; omega) (by omega) hlowL1
              generalize sort.pdqsort next byPrice fuel r1 a mid limit1
                (decide (b - mid ≥ (b - a) / 8)) already = r2 at h2 ⊢
              obtain ⟨hr2m, hr2s⟩ := h2
              have hmid : priceAt r2 mid = priceAt dp mid := by
                rw [Moved_priceAt_frame hr2m mid (by omega),
                  Moved_priceAt_frame hr1m mid (by omega)]
              refine ⟨Moved_trans hmv (Moved_trans ht1 (Moved_trans
                (Moved_mono hr1m (by omega) (le_refl _))
                (Moved_mono hr2m (le_refl _) (by omega)))), ?_⟩
              apply sortedOn_join r2 a mid b
              · exact hr2s
              · intro x hx1 hx2
                rw [Moved_priceAt_frame hr2m x (by omega),
                  Moved_priceAt_frame hr2m (x + 1) (by omega)]
                exact hr1s x hx1 hx2
              · intro x hx1 hx2
                rw [hmid]
                exact le_of_lt (Moved_forall_price hr2m (fun q => q < priceAt dp mid)
                  (fun k hk1 hk2 => by
                    rw [Moved_priceAt_frame hr1m k (by omega)]
                    exact ht4 k hk1 hk2)
                  x hx1 hx2)
              · intro x hx1 hx2
                rw [hmid, Moved_priceAt_frame hr2m x (by omega)]
                exact Moved_forall_price hr1m (fun q => priceAt dp mid ≤ q)
                  (fun k hk1 hk2 => ht5 k (by omega) hk2) x (by omega) hx2

theorem sortedOn_le (data : List Flat) (a b : Nat) (h : SortedOn data a b) :
    ∀ (n i : Nat), a ≤ i → i + n < b → priceAt data i ≤ priceAt data (i + n) := by
  intro n
  induction n with
  | zero => intro i _ _; exact le_refl _
  | succ n ih =>
    intro i h1 h2
    exact le_trans (ih i h1 (by omega)) (h (i + n) (by omega) (by omega))

theorem pairwise_of_sortedOn (data : List Flat) (h : SortedOn data 0 data.length) :
    data.Pairwise (fun f1 f2 => f1.Price ≤ f2.Price) := by
  rw [List.pairwise_iff_getElem]
  intro i j hi hj hij
  have := sortedOn_le data 0 data.length h (j - i) i (Nat.zero_le _) (by omega)
  have e : i + (j - i) = j := by omega
  rw [e] at this
  simpa [priceAt, List.getElem?_eq_getElem hi, List.getElem?_eq_getElem hj] using this

theorem Sort_spec (next : Nat → Nat) (data : List Flat) :
    Moved 0 data.length data (sort.Sort next byPrice data) ∧
      SortedOn (sort.Sort next byPrice data) 0 data.length := by
  unfold sort.Sort flatSorter.Len
  by_cases h : data.length ≤ 1
  · rw [if_pos h]
    exact ⟨Moved_refl _ _ _, sortedOn_of_le _ _ _ (by omega)⟩
  · rw [if_neg h]
    exact pdqsort_spec next (data.length + 1) data 0 data.length (bits.Len data.length) true
      true (Nat.zero_le _) (le_refl _) (by omega) (fun h0 => by omega)

/-- C3: `By(byPrice).Sort(flats)` leaves a permutation of `flats` in which prices are
ascending: every record is at most as dear as each record after it, and so as the record
right after it. This holds for every generator used by `breakPatterns`. -/
theorem Sort_byPrice_sorted_permutation (next : Nat → Nat) (flats : List Flat) :
    (By.Sort next byPrice flats).Perm flats ∧
    (By.Sort next byPrice flats).Pairwise (fun f1 f2 => f1.Price ≤ f2.Price) ∧
    (By.Sort next byPrice flats).Chain' (fun f1 f2 => f1.Price ≤ f2.Price) := by
  have h := Sort_spec next flats
  have hlen : (sort.Sort next byPrice flats).length = flats.length := Moved_length h.1
  have hp : (By.Sort next byPrice flats).Pairwise (fun f1 f2 => f1.Price ≤ f2.Price) := by
    unfold By.Sort
    apply pairwise_of_sortedOn
    rw [hlen]
    exact h.2
  exact ⟨h.1.perm, hp, List.Pairwise.chain' hp⟩

/-! ## Lemmas: the nodes `scrape.FindAll` returns -/

mutual
theorem findAllInternal_sound (matcher : NodeRef → Bool) (sn : Bool) (parent : Option Node) :
    ∀ (node : Node) (r : NodeRef), r ∈ scrape.findAllInternal matcher sn parent node →
      r ∈ subtreeOf parent node ∧ matcher r = true
  | .mk t a d at_ cs, r, h => by
    rw [scrape.findAllInternal] at h
    rw [subtreeOf]
    split at h
    · rename_i hm
      split at h
      · rcases List.mem_cons.1 h with h | h
        · subst h
          exact ⟨List.mem_cons_self _ _, hm⟩
        · have ih := findAllChildren_sound matcher sn _ cs r h
          exact ⟨List.mem_cons_of_mem _ ih.1, ih.2⟩
      · rw [List.mem_singleton] at h
        subst h
        exact ⟨List.mem_cons_self _ _, hm⟩
    · have ih := findAllChildren_sound matcher sn _ cs r h
      exact ⟨List.mem_cons_of_mem _ ih.1, ih.2⟩
theorem findAllChildren_sound (matcher : NodeRef → Bool) (sn : Bool) (parent : Option Node) :
    ∀ (nodes : List Node) (r : NodeRef), r ∈ scrape.findAllChildren matcher sn parent nodes →
      r ∈ subtreeOfChildren parent nodes ∧ matcher r = true
  | [], r, h => by
    rw [scrape.findAllChildren] at h
    cases h
  | c :: cs, r, h => by
    rw [scrape.findAllChildren] at h
    rw [subtreeOfChildren]
    rcases List.mem_append.1 h with h | h
    · have ih := findAllInternal_sound matcher sn parent c r h
      exact ⟨List.mem_append_left _ ih.1, ih.2⟩
    · have ih := findAllChildren_sound matcher sn parent cs r h
      exact ⟨List.mem_append_right _ ih.1, ih.2⟩
end

theorem FindAll_sound (node : NodeRef) (matcher : NodeRef → Bool) (r : NodeRef)
    (h : r ∈ scrape.FindAll node matcher) : r ∈ node.subtree ∧ matcher r = true :=
  findAllInternal_sound matcher false node.Parent node.node r h

mutual
theorem findAllInternal_nil (matcher : NodeRef → Bool) (sn : Bool) (parent : Option Node) :
    ∀ (node : Node), (∀ r ∈ subtreeOf parent node, matcher r = false) →
      scrape.findAllInternal matcher sn parent node = []
  | .mk t a d at_ cs, h => by
    rw [subtreeOf] at h
    rw [scrape.findAllInternal, h _ (List.mem_cons_self _ _)]
    simp only [Bool.false_eq_true, if_false]
    exact findAllChildren_nil matcher sn _ cs (fun r hr => h r (List.mem_cons_of_mem _ hr))
theorem findAllChildren_nil (matcher : NodeRef → Bool) (sn : Bool) (parent : Option Node) :
    ∀ (nodes : List Node), (∀ r ∈ subtreeOfChildren parent nodes, matcher r = false) →
      scrape.findAllChildren matcher sn parent nodes = []
  | [], _ => by rw [scrape.findAllChildren]
  | c :: cs, h => by
    rw [subtreeOfChildren] at h
    rw [scrape.findAllChildren,
      findAllInternal_nil matcher sn parent c (fun r hr => h r (List.mem_append_left _ hr)),
      findAllChildren_nil matcher sn parent cs (fun r hr => h r (List.mem_append_right _ hr)),
      List.nil_append]
end

theorem FindAll_nil (node : NodeRef) (matcher : NodeRef → Bool)
    (h : ∀ r ∈ node.subtree, matcher r = false) : scrape.FindAll node matcher = [] :=
  findAllInternal_nil matcher false node.Parent node.node h

theorem filter_nil_of_forall (matcher : NodeRef → Bool) (l : List NodeRef)
    (h : ∀ r ∈ l, matcher r = false) : l.filter matcher = [] := by
  rw [List.filter_eq_nil_iff]
  intro r hr
  rw [h r hr]
  decide

theorem subtreeOf_eq (parent : Option Node) (node : Node) :
    subtreeOf parent node
      = ⟨parent, node⟩ :: subtreeOfChildren (some node) node.children := by
  cases node with
  | mk t a d at_ cs => rw [subtreeOf, Node.children]

theorem subtree_eq (n : NodeRef) : n.subtree = n :: n.below := by
  unfold NodeRef.subtree NodeRef.below
  rw [subtreeOf_eq]

mutual
theorem findAllInternal_eq_filter (matcher : NodeRef → Bool) (parent : Option Node) :
    ∀ (node : Node),
      (∀ q ∈ subtreeOf parent node, matcher q = true → ∀ r ∈ q.below, matcher r = false) →
      scrape.findAllInternal matcher false parent node = (subtreeOf parent node).filter matcher
  | .mk t a d at_ cs, h => by
    rw [subtreeOf] at h
    rw [scrape.findAllInternal, subtreeOf]
    by_cases hm : matcher ⟨parent, .mk t a d at_ cs⟩ = true
    · have hb : ∀ r ∈ subtreeOfChildren (some (.mk t a d at_ cs)) cs, matcher r = false :=
        h _ (List.mem_cons_self _ _) hm
      rw [if_pos hm, List.filter_cons_of_pos hm]
      simp only [Bool.false_eq_true, if_false]
      rw [filter_nil_of_forall matcher _ hb]
    · rw [if_neg hm, List.filter_cons_of_neg hm]
      exact findAllChildren_eq_filter matcher _ cs
        (fun q hq => h q (List.mem_cons_of_mem _ hq))
theorem findAllChildren_eq_filter (matcher : NodeRef → Bool) (parent : Option Node) :
    ∀ (nodes : List Node),
      (∀ q ∈ subtreeOfChildren parent nodes, matcher q = true →
        ∀ r ∈ q.below, matcher r = false) →
      scrape.findAllChildren matcher false parent nodes
        = (subtreeOfChildren parent nodes).filter matcher
  | [], _ => by rw [scrape.findAllChildren, subtreeOfChildren, List.filter_nil]
  | c :: cs, h => by
    rw [subtreeOfChildren] at h
    rw [scrape.findAllChildren, subtreeOfChildren, List.filter_append,
      findAllInternal_eq_filter matcher parent c (fun q hq => h q (List.mem_append_left _ hq)),
      findAllChildren_eq_filter matcher parent cs
        (fun q hq => h q (List.mem_append_right _ hq))]
end

theorem FindAll_eq_filter (node : NodeRef) (matcher : NodeRef → Bool)
    (h : NoNestedMatch matcher node) :
    scrape.FindAll node matcher = node.subtree.filter matcher :=
  findAllInternal_eq_filter matcher node.Parent node.node h

mutual
theorem findAllInternal_outermost (matcher : NodeRef → Bool) (parent : Option Node) :
    ∀ (node : Node) (r : NodeRef), r ∈ subtreeOf parent node → matcher r = true →
      (∀ q ∈ subtreeOf parent node, matcher q = true → r ∉ q.below) →
      r ∈ scrape.findAllInternal matcher false parent node
  | .mk t a d at_ cs, r, hr, hm, hout => by
    rw [subtreeOf] at hr hout
    rw [scrape.findAllInternal]
    rcases List.mem_cons.1 hr with hr | hr
    · subst hr
      rw [if_pos hm]
      simp
    · by_cases hn : matcher ⟨parent, .mk t a d at_ cs⟩ = true
      · exact absurd hr (hout _ (List.mem_cons_self _ _) hn)
      · rw [if_neg hn]
        exact findAllChildren_outermost matcher _ cs r hr hm
          (fun q hq => hout q (List.mem_cons_of_mem _ hq))
theorem findAllChildren_outermost (matcher : NodeRef → Bool) (parent : Option Node) :
    ∀ (nodes : List Node) (r : NodeRef), r ∈ subtreeOfChildren parent nodes →
      matcher r = true →
      (∀ q ∈ subtreeOfChildren parent nodes, matcher q = true → r ∉ q.below) →
      r ∈ scrape.findAllChildren matcher false parent nodes
  | [], r, hr, _, _ => by
    rw [subtreeOfChildren] at hr
    cases hr
  | c :: cs, r, hr, hm, hout => by
    rw [subtreeOfChildren] at hr hout
    rw [scrape.findAllChildren]
    rcases List.mem_append.1 hr with hr | hr
    · exact List.mem_append_left _ (findAllInternal_outermost matcher parent c r hr hm
        (fun q hq => hout q (List.mem_append_left _ hq)))
    · exact List.mem_append_right _ (findAllChildren_outermost matcher parent cs r hr hm
        (fun q hq => hout q (List.mem_append_right _ hq)))
end

theorem FindAll_outermost (node : NodeRef) (matcher : NodeRef → Bool) (r : NodeRef)
    (hr : r ∈ node.subtree) (hm : matcher r = true)
    (hout : ∀ q ∈ node.subtree, matcher q = true → r ∉ q.below) :
    r ∈ scrape.FindAll node matcher :=
  findAllInternal_outermost matcher node.Parent node.node r hr hm hout

mutual
theorem findNode_eq_head (matcher : NodeRef → Bool) (parent : Option Node) :
    ∀ (node : Node),
      scrape.findNode matcher parent node
        = (scrape.findAllInternal matcher false parent node).head?
  | .mk t a d at_ cs => by
    rw [scrape.findNode, scrape.findAllInternal]
    by_cases hm : matcher ⟨parent, .mk t a d at_ cs⟩ = true
    · rw [if_pos hm, if_pos hm]
      simp
    · rw [if_neg hm, if_neg hm]
      exact findChildren_eq_head matcher _ cs
theorem findChildren_eq_head (matcher : NodeRef → Bool) (parent : Option Node) :
    ∀ (nodes : List Node),
      scrape.findChildren matcher parent nodes
        = (scrape.findAllChildren matcher false parent nodes).head?
  | [] => by rw [scrape.findChildren, scrape.findAllChildren, List.head?_nil]
  | c :: cs => by
    rw [scrape.findChildren, scrape.findAllChildren, findNode_eq_head matcher parent c,
      findChildren_eq_head matcher parent cs]
    cases scrape.findAllInternal matcher false parent c with
    | nil => simp
    | cons x xs => simp
end

theorem Find_eq_head (node : NodeRef) (matcher : NodeRef → Bool) :
    scrape.Find node matcher = (scrape.FindAll node matcher).head? :=
  findNode_eq_head matcher node.Parent node.node

theorem Find_isSome_of_length (node : NodeRef) (matcher : NodeRef → Bool)
    (h : (scrape.FindAll node matcher).length = 1) :
    ∃ r, scrape.Find node matcher = some r := by
  rw [Find_eq_head]
  cases hl : scrape.FindAll node matcher with
  | nil => rw [hl] at h; cases h
  | cons x xs => exact ⟨x, rfl⟩

theorem ParentNodeMatcher_true (n : NodeRef) (h : ParentNodeMatcher n = true) :
    strings.Contains (scrape.Attr n.node "class") "list-details-ad-border" = true ∧
    strings.Contains (scrape.Attr n.node "class") "panel-hidden" = false ∧
    (scrape.FindAll n priceNodeMatcher).length = 1 ∧
    (scrape.FindAll n titleNodeMatcher).length = 1 := by
  unfold ParentNodeMatcher at h
  split at h
  · rename_i hc
    simp only [Bool.and_eq_true, Bool.not_eq_true', decide_eq_true_eq] at hc h
    exact ⟨hc.1, hc.2, h.1, h.2⟩
  · cases h

mutual
theorem outermostOf_inside (matcher : NodeRef → Bool) (parent : Option Node) :
    ∀ (node : Node), outermostOf matcher true parent node = []
  | .mk t a d at_ cs => by
    rw [outermostOf]
    simp only [Bool.not_true, Bool.false_and, Bool.false_eq_true, if_false, Bool.true_or,
      List.nil_append]
    exact outermostOfChildren_inside matcher _ cs
theorem outermostOfChildren_inside (matcher : NodeRef → Bool) (parent : Option Node) :
    ∀ (nodes : List Node), outermostOfChildren matcher true parent nodes = []
  | [] => by rw [outermostOfChildren]
  | c :: cs => by
    rw [outermostOfChildren, outermostOf_inside matcher parent c,
      outermostOfChildren_inside matcher parent cs, List.nil_append]
end

mutual
theorem findAllInternal_eq_outermost (matcher : NodeRef → Bool) (parent : Option Node) :
    ∀ (node : Node),
      scrape.findAllInternal matcher false parent node = outermostOf matcher false parent node
  | .mk t a d at_ cs => by
    rw [scrape.findAllInternal, outermostOf]
    by_cases hm : matcher ⟨parent, .mk t a d at_ cs⟩ = true
    · rw [if_pos hm, hm]
      simp only [Bool.false_eq_true, if_false, Bool.not_false, Bool.true_and, if_true,
        Bool.or_true]
      rw [outermostOfChildren_inside, List.append_nil]
    · rw [if_neg hm]
      rw [Bool.not_eq_true] at hm
      rw [hm]
      simp only [Bool.and_false, Bool.false_eq_true, if_false, List.nil_append, Bool.or_false]
      exact findAllChildren_eq_outermost matcher _ cs
theorem findAllChildren_eq_outermost (matcher : NodeRef → Bool) (parent : Option Node) :
    ∀ (nodes : List Node),
      scrape.findAllChildren matcher false parent nodes
        = outermostOfChildren matcher false parent nodes
  | [] => by rw [scrape.findAllChildren, outermostOfChildren]
  | c :: cs => by
    rw [scrape.findAllChildren, outermostOfChildren,
      findAllInternal_eq_outermost matcher parent c,
      findAllChildren_eq_outermost matcher parent cs]
end

theorem FindAll_eq_outermost (node : NodeRef) (matcher : NodeRef → Bool) :
    scrape.FindAll node matcher = node.outermost matcher :=
  findAllInternal_eq_outermost matcher node.Parent node.node

theorem outermost_eq_filter (node : NodeRef) (matcher : NodeRef → Bool)
    (h : NoNestedMatch matcher node) :
    node.outermost matcher = node.subtree.filter matcher := by
  rw [← FindAll_eq_outermost, FindAll_eq_filter node matcher h]

/-! ## Lemmas: counting matches, parsed numbers, panics, `step` -/

theorem FindAll_length_ne_one (matcher : NodeRef → Bool) (n : NodeRef)
    (h : matchCount matcher n = 0 ∨ 1 < (n.outermost matcher).length) :
    (scrape.FindAll n matcher).length ≠ 1 := by
  unfold matchCount at h
  rcases h with h | h
  · have h0 : ∀ r ∈ n.subtree, matcher r = false := by
      intro r hr
      have h1 := List.filter_eq_nil_iff.1 (List.length_eq_zero.1 h) r hr
      simpa using h1
    rw [FindAll_nil n matcher h0]
    decide
  · rw [FindAll_eq_outermost]
    omega

theorem ParseFloat_nonneg (s : String) (v : ℚ) (h : strconv.ParseFloat s = .ok v) :
    0 ≤ v := by
  unfold strconv.ParseFloat at h
  split at h
  · cases h
  · split at h
    · split at h
      · cases h
        exact Nat.cast_nonneg _
      · cases h
    · cases h

theorem parsePrice_nonneg (n : NodeRef) (v : ℚ) (h : parsePrice n = .returns (.ok v)) :
    0 ≤ v := by
  unfold parsePrice at h
  split at h
  · cases h
  · rename_i s _
    injection h with h
    exact ParseFloat_nonneg s v h

theorem parseArea_nonneg (n : NodeRef) (v : ℚ) (h : parseArea n = .returns (.ok v)) :
    0 ≤ v := by
  unfold parseArea at h
  split at h
  · cases h
  · rename_i s _
    injection h with h
    exact ParseFloat_nonneg s v h

theorem priceNodeMatcher_has_euro (n : NodeRef) (h : priceNodeMatcher n = true) :
    '€' ∈ (scrape.Text n).data := by
  unfold priceNodeMatcher at h
  split at h
  · rw [Bool.and_eq_true] at h
    exact (Contains_euro _).1 h.2
  · cases h

theorem titleNodeMatcher_no_euro (n : NodeRef) (h : titleNodeMatcher n = true) :
    strings.Contains (scrape.Text n) "€" = false := by
  unfold titleNodeMatcher at h
  split at h
  · cases h
  · split at h
    · simp only [Bool.and_eq_true, Bool.not_eq_true'] at h
      exact h.1.1.2
    · cases h

theorem NewFlat_panics (rootURL : String) (n : NodeRef) (msg : String)
    (h : NewFlat rootURL n = .panics msg) :
    ∃ priceNode, scrape.Find n priceNodeMatcher = some priceNode ∧
      (parsePrice priceNode = .panics msg ∨ parseArea priceNode = .panics msg) := by
  unfold NewFlat at h
  cases hp : scrape.Find n priceNodeMatcher with
  | none => rw [hp] at h; cases h
  | some priceNode =>
    refine ⟨priceNode, rfl, ?_⟩
    rw [hp] at h
    cases ht : scrape.Find n titleNodeMatcher with
    | none => rw [ht] at h; cases h
    | some titleNode =>
      rw [ht] at h
      simp only [] at h
      cases hpp : parsePrice priceNode with
      | panics m =>
        rw [hpp] at h
        cases h
        exact Or.inl rfl
      | returns r =>
        rw [hpp] at h
        cases r with
        | error e => cases h
        | ok price =>
          simp only [] at h
          cases hpa : parseArea priceNode with
          | panics m =>
            rw [hpa] at h
            cases h
            exact Or.inr rfl
          | returns r2 =>
            rw [hpa] at h
            cases r2 with
            | error e => cases h
            | ok area => cases h

theorem step_of_scrape_ok (next : Nat → Nat) (rootURL : String) (cache : List Flat)
    (page : Except GoError NodeRef) (flats : List Flat)
    (h : scrape next rootURL page = .returns (.ok flats)) :
    step next rootURL cache page = .returns ⟨flats, some (uncachedFlats cache flats)⟩ := by
  unfold step
  rw [h]
  rfl

theorem step_of_scrape_error (next : Nat → Nat) (rootURL : String) (cache : List Flat)
    (page : Except GoError NodeRef) (err : GoError)
    (h : scrape next rootURL page = .returns (.error err)) :
    step next rootURL cache page = .returns ⟨cache, none⟩ := by
  unfold step
  rw [h]

theorem mem_uncachedFlats (cache flats : List Flat) (f : Flat) :
    f ∈ uncachedFlats cache flats ↔ f ∈ flats ∧ f.URL ∉ cache.map (fun c => c.URL) := by
  rw [uncachedFlats_eq_filter, List.mem_filter, Bool.not_eq_true', ← Bool.not_eq_true,
    containsFlat_iff]

theorem uncachedFlats_self (flats : List Flat) : uncachedFlats flats flats = [] := by
  rw [uncachedFlats_eq_filter, List.filter_eq_nil_iff]
  intro f hf
  rw [Bool.not_eq_true', ← Bool.not_eq_true, containsFlat_iff]
  exact fun h => h (List.mem_map_of_mem _ hf)

/-! ## Lemmas: the empty text, the errors of `NewFlat` -/

theorem String_eq_empty_iff (s : String) : s = "" ↔ s.data = [] := by
  constructor
  · intro h
    rw [h]
  · intro h
    exact String.ext h

theorem Join_eq_empty (sep : String) :
    ∀ (l : List String), (∀ x ∈ l, x ≠ "") → (strings.Join l sep = "" ↔ l = [])
  | [], _ => by simp [strings.Join]
  | [e], h => by
    have he := h e (List.mem_singleton_self e)
    simp [strings.Join, he]
  | e :: e2 :: rest, h => by
    have he := h e (List.mem_cons_self _ _)
    rw [strings.Join]
    constructor
    · intro h2
      rw [String_eq_empty_iff, String.data_append, String.data_append] at h2
      have he2 : e.data ≠ [] := fun h3 => he ((String_eq_empty_iff e).2 h3)
      exact absurd (List.append_eq_nil.1 (List.append_eq_nil.1 h2).1).1 he2
    · intro h2
      cases h2

theorem joiner_eq_empty (parts : List String) :
    scrape.joiner parts = "" ↔ ∀ p ∈ parts, strings.TrimSpace p = "" := by
  unfold scrape.joiner
  rw [Join_eq_empty " " _ (fun x hx => by simpa using (List.mem_filter.1 hx).2),
    List.filter_eq_nil_iff]
  simp

theorem Text_eq_empty (n : NodeRef) :
    scrape.Text n = "" ↔
      ∀ t ∈ scrape.FindAll n (fun r => r.node.Type_ = NodeType.TextNode),
        strings.TrimSpace t.node.Data = "" := by
  unfold scrape.Text
  rw [joiner_eq_empty]
  simp

theorem ParseFloat_error_kind (s : String) (msg : String) :
    strconv.ParseFloat s ≠ .error (.New msg) := by
  unfold strconv.ParseFloat
  intro h
  split at h
  · cases h
  · split at h
    · split at h
      · cases h
      · cases h
    · cases h

theorem parsePrice_error_kind (n : NodeRef) (msg : String) :
    parsePrice n ≠ .returns (.error (.New msg)) := by
  unfold parsePrice
  intro h
  split at h
  · cases h
  · rename_i s _
    injection h with h
    exact ParseFloat_error_kind s msg h

theorem parseArea_error_kind (n : NodeRef) (msg : String) :
    parseArea n ≠ .returns (.error (.New msg)) := by
  unfold parseArea
  intro h
  split at h
  · cases h
  · rename_i s _
    injection h with h
    exact ParseFloat_error_kind s msg h

theorem NewFlat_error_kind (rootURL : String) (n priceNode titleNode : NodeRef)
    (hp : scrape.Find n priceNodeMatcher = some priceNode)
    (ht : scrape.Find n titleNodeMatcher = some titleNode) (msg : String) :
    NewFlat rootURL n ≠ .returns (.error (.New msg)) := by
  unfold NewFlat
  rw [hp, ht]
  simp only []
  intro h
  cases hpp : parsePrice priceNode with
  | panics m => rw [hpp] at h; cases h
  | returns r =>
    rw [hpp] at h
    cases r with
    | error e =>
      simp only [] at h
      injection h with h
      injection h with h
      subst h
      exact parsePrice_error_kind priceNode msg hpp
    | ok price =>
      simp only [] at h
      cases hpa : parseArea priceNode with
      | panics m => rw [hpa] at h; cases h
      | returns r2 =>
        rw [hpa] at h
        cases r2 with
        | error e =>
          simp only [] at h
          injection h with h
          injection h with h
          subst h
          exact parseArea_error_kind priceNode msg hpa
        | ok area => cases h

/-! ## Theorems: the container search -/

/-- C11 fails as stated: in the listing block `exNestedPrice` two nodes satisfy
`priceNodeMatcher`, an anchor and a second anchor inside it, yet `ParentNodeMatcher` returns
true, the block is what the container search of `FindFlats` returns, and a record is built
from it. `scrape.FindAll` does not look below a node that matches, so the inner anchor is
not counted. -/
theorem nested_price_anchors_are_counted_once :
    matchCount priceNodeMatcher ⟨some (exBody [exNestedPrice]), exNestedPrice⟩ = 2 ∧
    (NodeRef.outermost ⟨some (exBody [exNestedPrice]), exNestedPrice⟩ priceNodeMatcher).length
      = 1 ∧
    ParentNodeMatcher ⟨some (exBody [exNestedPrice]), exNestedPrice⟩ = true ∧
    scrape.FindAll (exPage [exNestedPrice]) ParentNodeMatcher
      = [⟨some (exBody [exNestedPrice]), exNestedPrice⟩] ∧
    FindFlats ROOTURL (exPage [exNestedPrice])
      = .returns [⟨650, 20, "A", "https://www.wg-gesucht.de/a.html"⟩] := by
  refine ⟨by decide, by decide, by decide, by decide, rfl⟩

/-- C11, amended: `ParentNodeMatcher` returns false, and the node is in no result of the
container search, when no node of its tree (the node included) satisfies
`priceNodeMatcher`, and when more than one of the nodes that satisfy it lies inside no other
node of the tree that satisfies it; likewise for `titleNodeMatcher`. A match that lies
inside another match is not counted. -/
theorem ParentNodeMatcher_rejects_miscount (n : NodeRef)
    (h : (matchCount priceNodeMatcher n = 0 ∨ 1 < (n.outermost priceNodeMatcher).length) ∨
         (matchCount titleNodeMatcher n = 0 ∨ 1 < (n.outermost titleNodeMatcher).length)) :
    ParentNodeMatcher n = false ∧
    ∀ root : NodeRef, n ∉ scrape.FindAll root ParentNodeMatcher := by
  have hf : ParentNodeMatcher n = false := by
    cases hp : ParentNodeMatcher n with
    | false => rfl
    | true =>
      obtain ⟨_, _, h1, h2⟩ := ParentNodeMatcher_true n hp
      rcases h with h | h
      · exact absurd h1 (FindAll_length_ne_one priceNodeMatcher n h)
      · exact absurd h2 (FindAll_length_ne_one titleNodeMatcher n h)
  refine ⟨hf, fun root hmem => ?_⟩
  have ht := (FindAll_sound root ParentNodeMatcher n hmem).2
  rw [hf] at ht
  cases ht

/-- Witness of the amended C11: a listing block with two price anchors side by side, none
inside the other, is rejected. -/
theorem ParentNodeMatcher_rejects_miscount_witness :
    matchCount priceNodeMatcher ⟨some (exBody [exTwoPrices]), exTwoPrices⟩ = 2 ∧
    NoNestedMatch priceNodeMatcher ⟨some (exBody [exTwoPrices]), exTwoPrices⟩ ∧
    (NodeRef.outermost ⟨some (exBody [exTwoPrices]), exTwoPrices⟩ priceNodeMatcher).length
      = 2 ∧
    ParentNodeMatcher ⟨some (exBody [exTwoPrices]), exTwoPrices⟩ = false ∧
    ∀ root : NodeRef,
      (⟨some (exBody [exTwoPrices]), exTwoPrices⟩ : NodeRef)
        ∉ scrape.FindAll root ParentNodeMatcher :=
  ⟨by decide, by unfold NoNestedMatch; decide, by decide,
    ParentNodeMatcher_rejects_miscount ⟨some (exBody [exTwoPrices]), exTwoPrices⟩
      (Or.inl (Or.inr (by decide)))⟩

/-- C12 fails as stated: in the page `exPage [exNestedContainer]` a listing block lies
inside another listing block, both satisfy `ParentNodeMatcher`, and the container search
returns the outer one only. -/
theorem FindAll_skips_nested_container :
    (⟨some exNestedContainer, exContainer "650€ 20m²" "a.html" "A"⟩ : NodeRef)
      ∈ (exPage [exNestedContainer]).subtree ∧
    ParentNodeMatcher ⟨some exNestedContainer, exContainer "650€ 20m²" "a.html" "A"⟩ = true ∧
    ParentNodeMatcher ⟨some (exBody [exNestedContainer]), exNestedContainer⟩ = true ∧
    scrape.FindAll (exPage [exNestedContainer]) ParentNodeMatcher
      = [⟨some (exBody [exNestedContainer]), exNestedContainer⟩] ∧
    (⟨some exNestedContainer, exContainer "650€ 20m²" "a.html" "A"⟩ : NodeRef)
      ∉ scrape.FindAll (exPage [exNestedContainer]) ParentNodeMatcher := by
  refine ⟨by decide, by decide, by decide, by decide, by decide⟩

/-- C12, amended: the container search returns every node of the tree, root included, that
satisfies `ParentNodeMatcher` and does not lie inside another node of the tree that
satisfies it: these nodes and no others, in document order. When no node that satisfies
`ParentNodeMatcher` lies inside another one, these are all nodes that satisfy it. (In the
hypotheses nodes are compared by their content and the content of their parent.) -/
theorem FindAll_returns_outermost_containers (root r : NodeRef)
    (hr : r ∈ root.subtree) (hm : ParentNodeMatcher r = true)
    (hout : ∀ q ∈ root.subtree, ParentNodeMatcher q = true → r ∉ q.below) :
    r ∈ scrape.FindAll root ParentNodeMatcher ∧
    scrape.FindAll root ParentNodeMatcher = root.outermost ParentNodeMatcher ∧
    (NoNestedMatch ParentNodeMatcher root →
      scrape.FindAll root ParentNodeMatcher = root.subtree.filter ParentNodeMatcher) :=
  ⟨FindAll_outermost root ParentNodeMatcher r hr hm hout,
    FindAll_eq_outermost root ParentNodeMatcher,
    FindAll_eq_filter root ParentNodeMatcher⟩

/-- Witness of the amended C12: the second of two listing blocks side by side is
returned. -/
theorem FindAll_returns_outermost_containers_witness :
    (⟨some (exBody [exContainer "650€ 20m²" "a.html" "A", exContainer "700€ 25m²" "b.html" "B"]),
        exContainer "700€ 25m²" "b.html" "B"⟩ : NodeRef)
      ∈ scrape.FindAll
          (exPage [exContainer "650€ 20m²" "a.html" "A", exContainer "700€ 25m²" "b.html" "B"])
          ParentNodeMatcher :=
  (FindAll_returns_outermost_containers
    (exPage [exContainer "650€ 20m²" "a.html" "A", exContainer "700€ 25m²" "b.html" "B"])
    ⟨some (exBody [exContainer "650€ 20m²" "a.html" "A", exContainer "700€ 25m²" "b.html" "B"]),
      exContainer "700€ 25m²" "b.html" "B"⟩
    (by decide) (by decide) (by decide)).1

/-- C13: when no node of the tree has a class attribute that contains
"list-details-ad-border" without containing "panel-hidden", the container search finds
nothing and `FindFlats` returns the empty sequence. -/
theorem FindFlats_empty_without_listing_node (rootURL : String) (root : NodeRef)
    (h : ∀ r ∈ root.subtree,
      ¬ (strings.Contains (scrape.Attr r.node "class") "list-details-ad-border" = true ∧
         strings.Contains (scrape.Attr r.node "class") "panel-hidden" = false)) :
    scrape.FindAll root ParentNodeMatcher = [] ∧ FindFlats rootURL root = .returns [] := by
  have hnil : scrape.FindAll root ParentNodeMatcher = [] := by
    apply FindAll_nil
    intro r hr
    cases hp : ParentNodeMatcher r with
    | false => rfl
    | true =>
      obtain ⟨h1, h2, _, _⟩ := ParentNodeMatcher_true r hp
      exact absurd ⟨h1, h2⟩ (h r hr)
  refine ⟨hnil, ?_⟩
  unfold FindFlats
  rw [hnil, FindFlats.loop]

/-- Witness of C13: a page whose only listing block is hidden. -/
theorem FindFlats_empty_without_listing_node_witness :
    (∀ r ∈ (exPage [exHidden]).subtree,
      ¬ (strings.Contains (scrape.Attr r.node "class") "list-details-ad-border" = true ∧
         strings.Contains (scrape.Attr r.node "class") "panel-hidden" = false)) ∧
    scrape.FindAll (exPage [exHidden]) ParentNodeMatcher = [] ∧
    FindFlats ROOTURL (exPage [exHidden]) = .returns [] :=
  ⟨by decide, FindFlats_empty_without_listing_node ROOTURL (exPage [exHidden]) (by decide)⟩

/-! ## Theorems: the fields of a record -/

/-- C14 fails as stated: a listing block whose title anchor holds one blank and nothing else
is accepted by `ParentNodeMatcher`, and `NewFlat` succeeds on it with the empty string as
`Title`. -/
theorem NewFlat_returns_empty_title :
    ParentNodeMatcher ⟨none, exContainer "650€ 20m²" "a.html" " "⟩ = true ∧
    NewFlat ROOTURL ⟨none, exContainer "650€ 20m²" "a.html" " "⟩
      = .returns (.ok ⟨650, 20, "", "https://www.wg-gesucht.de/a.html"⟩) := by
  refine ⟨by decide, rfl⟩

/-- C14, amended: when `NewFlat` succeeds, `Title` is the flattened text of the title node
(the first node of the container that satisfies `titleNodeMatcher`); it does not contain
"€", and it is the empty string exactly when every text node that `scrape.Text` collects
below the title node is empty after trimming white space. -/
theorem NewFlat_title_is_text_of_title_node (rootURL : String) (n : NodeRef) (flat : Flat)
    (h : NewFlat rootURL n = .returns (.ok flat)) :
    ∃ titleNode, scrape.Find n titleNodeMatcher = some titleNode ∧
      flat.Title = scrape.Text titleNode ∧
      strings.Contains flat.Title "€" = false ∧
      (flat.Title = "" ↔
        ∀ t ∈ scrape.FindAll titleNode (fun r => r.node.Type_ = NodeType.TextNode),
          strings.TrimSpace t.node.Data = "") := by
  obtain ⟨priceNode, titleNode, _, ht, _, _, htitle, _⟩ := NewFlat_ok rootURL n flat h
  refine ⟨titleNode, ht, htitle, ?_, ?_⟩
  · rw [htitle]
    exact titleNodeMatcher_no_euro titleNode (Find_matches n titleNodeMatcher titleNode ht)
  · rw [htitle]
    exact Text_eq_empty titleNode

/-- Witness of the amended C14: the title anchor with the text " A " gives the title "A". -/
theorem NewFlat_title_is_text_of_title_node_witness :
    NewFlat ROOTURL ⟨none, exContainer "650€ 20m²" "a.html" " A "⟩
      = .returns (.ok ⟨650, 20, "A", "https://www.wg-gesucht.de/a.html"⟩) ∧
    ∃ titleNode,
      scrape.Find ⟨none, exContainer "650€ 20m²" "a.html" " A "⟩ titleNodeMatcher
        = some titleNode ∧
      "A" = scrape.Text titleNode ∧
      strings.Contains "A" "€" = false ∧
      ("A" = "" ↔
        ∀ t ∈ scrape.FindAll titleNode (fun r => r.node.Type_ = NodeType.TextNode),
          strings.TrimSpace t.node.Data = "") :=
  ⟨rfl,
    NewFlat_title_is_text_of_title_node ROOTURL
      ⟨none, exContainer "650€ 20m²" "a.html" " A "⟩
      ⟨650, 20, "A", "https://www.wg-gesucht.de/a.html"⟩ rfl⟩

/-- C15: when `NewFlat` succeeds, `Price` and `Area` of the record are not negative. -/
theorem NewFlat_price_and_area_nonneg (rootURL : String) (n : NodeRef) (flat : Flat)
    (h : NewFlat rootURL n = .returns (.ok flat)) : 0 ≤ flat.Price ∧ 0 ≤ flat.Area := by
  obtain ⟨priceNode, _, _, _, hp, ha, _, _⟩ := NewFlat_ok rootURL n flat h
  exact ⟨parsePrice_nonneg priceNode _ hp, parseArea_nonneg priceNode _ ha⟩

/-- Witness of C15: the record of the price text "0€ 0m²" has price 0 and area 0. -/
theorem NewFlat_price_and_area_nonneg_witness :
    NewFlat ROOTURL ⟨none, exContainer "0€ 0m²" "a.html" "A"⟩
      = .returns (.ok ⟨0, 0, "A", "https://www.wg-gesucht.de/a.html"⟩) ∧
    (0 : ℚ) ≤ (⟨0, 0, "A", "https://www.wg-gesucht.de/a.html"⟩ : Flat).Price ∧
    (0 : ℚ) ≤ (⟨0, 0, "A", "https://www.wg-gesucht.de/a.html"⟩ : Flat).Area :=
  ⟨rfl,
    NewFlat_price_and_area_nonneg ROOTURL ⟨none, exContainer "0€ 0m²" "a.html" "A"⟩
      ⟨0, 0, "A", "https://www.wg-gesucht.de/a.html"⟩ rfl⟩

/-! ## Theorems: the polling cycle -/

/-- C16: a successful `step` leaves the records of this cycle in `cachedFlats`, whatever
was there before, and sends `uncachedFlats` of them against the old value; a `step` whose
scrape fails leaves `cachedFlats` as it was and sends nothing. So, in three successful
cycles in a row, a record of the third cycle whose URL occurs in the first cycle and not in
the second one is sent again by the third. -/
theorem step_replaces_cache (next : Nat → Nat) (rootURL : String) :
    (∀ cache page flats, scrape next rootURL page = .returns (.ok flats) →
      step next rootURL cache page
        = .returns ⟨flats, some (uncachedFlats cache flats)⟩) ∧
    (∀ cache page err, scrape next rootURL page = .returns (.error err) →
      step next rootURL cache page = .returns ⟨cache, none⟩) ∧
    (∀ cache page1 page2 page3 flats1 flats2 flats3 f,
      scrape next rootURL page1 = .returns (.ok flats1) →
      scrape next rootURL page2 = .returns (.ok flats2) →
      scrape next rootURL page3 = .returns (.ok flats3) →
      f.URL ∈ flats1.map (fun g => g.URL) → f.URL ∉ flats2.map (fun g => g.URL) →
      f ∈ flats3 →
      ∃ r1 r2 r3 sent,
        step next rootURL cache page1 = .returns r1 ∧
        step next rootURL r1.cachedFlats page2 = .returns r2 ∧
        step next rootURL r2.cachedFlats page3 = .returns r3 ∧
        r3.sent = some sent ∧ f ∈ sent) := by
  refine ⟨step_of_scrape_ok next rootURL, step_of_scrape_error next rootURL, ?_⟩
  intro cache page1 page2 page3 flats1 flats2 flats3 f h1 h2 h3 _ hout hin
  exact ⟨_, _, _, _, step_of_scrape_ok next rootURL cache page1 flats1 h1,
    step_of_scrape_ok next rootURL _ page2 flats2 h2,
    step_of_scrape_ok next rootURL _ page3 flats3 h3, rfl,
    (mem_uncachedFlats flats2 flats3 f).2 ⟨hin, hout⟩⟩

/-- A run of C16: the page shows listing a, then listing b, then listing a again, and the
third cycle sends listing a again; a failed fetch in between changes nothing. -/
theorem step_replaces_cache_witness :
    step id ROOTURL [] (.ok (exPage [exContainer "650€ 20m²" "a.html" "A"]))
      = .returns ⟨[⟨650, 20, "A", "https://www.wg-gesucht.de/a.html"⟩],
          some [⟨650, 20, "A", "https://www.wg-gesucht.de/a.html"⟩]⟩ ∧
    step id ROOTURL [⟨650, 20, "A", "https://www.wg-gesucht.de/a.html"⟩]
        (.ok (exPage [exContainer "700€ 25m²" "b.html" "B"]))
      = .returns ⟨[⟨700, 25, "B", "https://www.wg-gesucht.de/b.html"⟩],
          some [⟨700, 25, "B", "https://www.wg-gesucht.de/b.html"⟩]⟩ ∧
    step id ROOTURL [⟨700, 25, "B", "https://www.wg-gesucht.de/b.html"⟩]
        (.error (.New "connection refused"))
      = .returns ⟨[⟨700, 25, "B", "https://www.wg-gesucht.de/b.html"⟩], none⟩ ∧
    step id ROOTURL [⟨700, 25, "B", "https://www.wg-gesucht.de/b.html"⟩]
        (.ok (exPage [exContainer "650€ 20m²" "a.html" "A"]))
      = .returns ⟨[⟨650, 20, "A", "https://www.wg-gesucht.de/a.html"⟩],
          some [⟨650, 20, "A", "https://www.wg-gesucht.de/a.html"⟩]⟩ :=
  ⟨(step_replaces_cache id ROOTURL).1 []
      (.ok (exPage [exContainer "650€ 20m²" "a.html" "A"]))
      [⟨650, 20, "A", "https://www.wg-gesucht.de/a.html"⟩] rfl,
    (step_replaces_cache id ROOTURL).1 [⟨650, 20, "A", "https://www.wg-gesucht.de/a.html"⟩]
      (.ok (exPage [exContainer "700€ 25m²" "b.html" "B"]))
      [⟨700, 25, "B", "https://www.wg-gesucht.de/b.html"⟩] rfl,
    (step_replaces_cache id ROOTURL).2.1 [⟨700, 25, "B", "https://www.wg-gesucht.de/b.html"⟩]
      (.error (.New "connection refused")) (.New "connection refused") rfl,
    (step_replaces_cache id ROOTURL).1 [⟨700, 25, "B", "https://www.wg-gesucht.de/b.html"⟩]
      (.ok (exPage [exContainer "650€ 20m²" "a.html" "A"]))
      [⟨650, 20, "A", "https://www.wg-gesucht.de/a.html"⟩] rfl⟩

/-- C17: for a node accepted by `ParentNodeMatcher`, both searches of `NewFlat` find a
node, so `NewFlat` does not return the error "no priceNode found" nor the error
"no titleNode found" (nor any other error made by `errors.New`). -/
theorem NewFlat_missing_field_unreachable (rootURL : String) (n : NodeRef)
    (h : ParentNodeMatcher n = true) :
    (∃ priceNode, scrape.Find n priceNodeMatcher = some priceNode) ∧
    (∃ titleNode, scrape.Find n titleNodeMatcher = some titleNode) ∧
    NewFlat rootURL n ≠ .returns (.error (.New "no priceNode found")) ∧
    NewFlat rootURL n ≠ .returns (.error (.New "no titleNode found")) ∧
    ∀ msg, NewFlat rootURL n ≠ .returns (.error (.New msg)) := by
  obtain ⟨_, _, h1, h2⟩ := ParentNodeMatcher_true n h
  obtain ⟨priceNode, hp⟩ := Find_isSome_of_length n priceNodeMatcher h1
  obtain ⟨titleNode, ht⟩ := Find_isSome_of_length n titleNodeMatcher h2
  exact ⟨⟨priceNode, hp⟩, ⟨titleNode, ht⟩,
    NewFlat_error_kind rootURL n priceNode titleNode hp ht _,
    NewFlat_error_kind rootURL n priceNode titleNode hp ht _,
    NewFlat_error_kind rootURL n priceNode titleNode hp ht⟩

/-- Witness of C17: a listing block with one price anchor and one title anchor; its price
text has no digits before `€`, and the error of `NewFlat` is the one of `ParseFloat`. -/
theorem NewFlat_missing_field_unreachable_witness :
    ParentNodeMatcher ⟨none, exContainer "€ 20m²" "a.html" "A"⟩ = true ∧
    NewFlat ROOTURL ⟨none, exContainer "€ 20m²" "a.html" "A"⟩
      = .returns (.error (.ErrSyntax "")) ∧
    (∃ priceNode,
      scrape.Find ⟨none, exContainer "€ 20m²" "a.html" "A"⟩ priceNodeMatcher
        = some priceNode) ∧
    (∃ titleNode,
      scrape.Find ⟨none, exContainer "€ 20m²" "a.html" "A"⟩ titleNodeMatcher
        = some titleNode) ∧
    NewFlat ROOTURL ⟨none, exContainer "€ 20m²" "a.html" "A"⟩
      ≠ .returns (.error (.New "no priceNode found")) ∧
    NewFlat ROOTURL ⟨none, exContainer "€ 20m²" "a.html" "A"⟩
      ≠ .returns (.error (.New "no titleNode found")) ∧
    ∀ msg, NewFlat ROOTURL ⟨none, exContainer "€ 20m²" "a.html" "A"⟩
      ≠ .returns (.error (.New msg)) :=
  ⟨by decide, rfl,
    NewFlat_missing_field_unreachable ROOTURL ⟨none, exContainer "€ 20m²" "a.html" "A"⟩
      (by decide)⟩

/-- C18: for a node that satisfies `priceNodeMatcher` the pattern `(\d*)€` matches the
flattened text, the list of submatches has its element 1, and `parsePrice` returns (a value
or the error of `ParseFloat`) without a panic. When `NewFlat` panics on a container whose
price node this is, the panic is the one of `parseArea`. -/
theorem parsePrice_returns_on_price_node (n : NodeRef) (h : priceNodeMatcher n = true) :
    (∃ whole group,
      regexp.FindStringSubmatch '€' (scrape.Text n) = [whole, group] ∧
      parsePrice n = .returns (strconv.ParseFloat group)) ∧
    (∀ msg, parsePrice n ≠ .panics msg) ∧
    ∀ rootURL container msg, scrape.Find container priceNodeMatcher = some n →
      NewFlat rootURL container = .panics msg → parseArea n = .panics msg := by
  have heuro := priceNodeMatcher_has_euro n h
  have hl := leftmost_of_mem '€' (by decide) (scrape.Text n).data heuro
  have hsub : regexp.FindStringSubmatch '€' (scrape.Text n)
      = [⟨digitRunBefore '€' (scrape.Text n).data ++ ['€']⟩,
         ⟨digitRunBefore '€' (scrape.Text n).data⟩] := by
    unfold regexp.FindStringSubmatch
    rw [hl]
  have hp := parsePrice_eq n heuro
  refine ⟨⟨_, _, hsub, hp⟩, ?_, ?_⟩
  · intro msg hm
    rw [hp] at hm
    cases hm
  · intro rootURL container msg hfind hpanic
    obtain ⟨p, hp2, hor⟩ := NewFlat_panics rootURL container msg hpanic
    rw [hfind] at hp2
    cases hp2
    rcases hor with hor | hor
    · rw [hp] at hor
      cases hor
    · exact hor

/-- Witness of C18: the price anchor with the text "650€ 20m²". -/
theorem parsePrice_returns_on_price_node_witness :
    priceNodeMatcher ⟨none, exPriceAnchor "650€ 20m²"⟩ = true ∧
    regexp.FindStringSubmatch '€' (scrape.Text ⟨none, exPriceAnchor "650€ 20m²"⟩)
      = ["650€", "650"] ∧
    parsePrice ⟨none, exPriceAnchor "650€ 20m²"⟩ = .returns (.ok 650) ∧
    ∀ msg, parsePrice ⟨none, exPriceAnchor "650€ 20m²"⟩ ≠ .panics msg :=
  ⟨by decide, by decide, rfl,
    (parsePrice_returns_on_price_node ⟨none, exPriceAnchor "650€ 20m²"⟩ (by decide)).2.1⟩

/-- C19: against a cache that holds the records themselves `uncachedFlats` returns the
empty sequence, so a second `step` on an unchanged page sends nothing; and for every cache,
every record of the result of `uncachedFlats` is a record of the input whose URL is the URL
of no cached record. -/
theorem uncachedFlats_of_unchanged_page :
    (∀ flats, uncachedFlats (cacheFlats flats) flats = []) ∧
    (∀ cache flats f, f ∈ uncachedFlats cache flats →
      f ∈ flats ∧ f.URL ∉ cache.map (fun c => c.URL)) ∧
    (∀ next rootURL cache page flats, scrape next rootURL page = .returns (.ok flats) →
      ∃ r, step next rootURL cache page = .returns r ∧
        step next rootURL r.cachedFlats page = .returns ⟨flats, some []⟩) := by
  refine ⟨fun flats => uncachedFlats_self flats,
    fun cache flats f h => (mem_uncachedFlats cache flats f).1 h, ?_⟩
  intro next rootURL cache page flats h
  refine ⟨_, step_of_scrape_ok next rootURL cache page flats h, ?_⟩
  rw [step_of_scrape_ok next rootURL _ page flats h, uncachedFlats_self]
